import Mathlib

/-!
# GRUB 2 command-line editor: `normal/cmdline.c`

A shallow embedding of the rotating history store, the tab-completion engine
and the line editor of `normal/cmdline.c`, with the properties stated by the
design document proved about it.

Conventions of the embedding.

* A value of type `char *` is the list of the bytes stored from the pointer
  onwards.  The C string it denotes is `cstr`: the bytes before the first NUL
  (the end of the list stands for the terminator of a list without NUL).
* C `int` variables are `Int` and are computed exactly: the counters and
  array indices of this file stay far inside the range of `int`.  The
  `unsigned` screen coordinates are computed modulo `2^32`.
* Allocation (`grub_malloc`, `grub_strdup`) succeeds wherever the source goes on
  without looking at the result; the `grub_malloc` of line 684, whose result is
  tested, succeeds or fails as `Env.grub_malloc` says.
* Behaviour that C leaves undefined (access through a null pointer or outside
  an array of pointers, division by zero) makes an operation return `none`.
  A byte read past the end of the edit buffer yields what lies there in
  memory, which the state carries as `beyond`.
* The collaborators that live in other files (command table, disks,
  filesystems, terminal) are the fields of `Env`.
-/

namespace Cmdline

/-! ## C strings -/

/-- The NUL character that terminates a C string. -/
def NUL : Char := Char.ofNat 0

/-- The C string stored at a `char *`: the bytes before the first NUL. -/
def cstr (p : List Char) : List Char :=
  p.takeWhile (fun c => c != NUL)

/-- Modelled from the spec: `grub_strlen` (kern/misc.c, not among the sources) is the
standard C `strlen`, the number of bytes before the terminator. -/
def grub_strlen (p : List Char) : Nat :=
  (cstr p).length

/-- Modelled from the spec: `grub_strdup` (kern/misc.c, not among the sources) is the
standard C `strdup`, a fresh copy of the string up to its terminator. -/
def grub_strdup (p : List Char) : List Char :=
  cstr p

/-! ## History store (lines 33-134) -/

/-- The five file-scope variables of the history store.  `hist_lines` is
`none` for the null pointer; a slot of the array is `none` while it holds no
valid string pointer (fresh from `grub_malloc`, or already freed). -/
structure History where
  hist_size : Int
  hist_lines : Option (List (Option (List Char)))
  hist_pos : Int
  hist_end : Int
  hist_used : Int
deriving DecidableEq

/-- The store before the first call of `grub_set_history`: the static
initialisers of lines 33-37. -/
def hist_initial : History :=
  { hist_size := 0, hist_lines := none, hist_pos := 0, hist_end := 0, hist_used := 0 }

/-- Array read `a[i]` with a C `int` index; `none` outside the array. -/
def array_get {α : Type} (a : List α) (i : Int) : Option α :=
  if 0 ≤ i then a[i.toNat]? else none

/-- Array write `a[i] = v` with a C `int` index; `none` outside the array. -/
def array_set {α : Type} (a : List α) (i : Int) (v : α) : Option (List α) :=
  if 0 ≤ i ∧ i < a.length then some (a.set i.toNat v) else none

/-- The call `grub_free (a[i])`: the slot must exist, and holds no valid
pointer afterwards. -/
def free_slot (a : List (Option (List Char))) (i : Int) : Option (List (Option (List Char))) :=
  array_set a i none

/-- The call `grub_memmove (dest + d, src + s, n * sizeof (char *))` between two
arrays of pointers; `none` when a range leaves its array. -/
def memmove_lines {α : Type} (dest : List α) (d : Int) (src : List α) (s n : Int) :
    Option (List α) :=
  if 0 ≤ d ∧ 0 ≤ s ∧ 0 ≤ n ∧ s + n ≤ src.length ∧ d + n ≤ dest.length then
    some (dest.take d.toNat ++ (src.drop s.toNat).take n.toNat ++ dest.drop (d.toNat + n.toNat))
  else none

/-- The loop of lines 55-61, `for (i = 1; i <= delsize; i++)`, with `todo`
iterations left to run from the counter value `i`: frees the slot at
`hist_end - i`, wrapped into the array. -/
def free_oldest (hist_end hist_size : Int) :
    Nat → Int → List (Option (List Char)) → Option (List (Option (List Char)))
  | 0, _, old => some old
  | todo + 1, i, old =>
    let pos := hist_end - i
    let pos := if pos < 0 then pos + hist_size else pos
    match free_slot old pos with
    | none => none
    | some old1 => free_oldest hist_end hist_size todo (i + 1) old1

/-- The function `grub_set_history` (lines 39-89).  A negative size, for which
`grub_malloc` is asked for a block of wrapped-around size, is left undefined. -/
def grub_set_history (h : History) (newsize : Int) : Option History :=
  if newsize < 0 then none else
  let fresh : List (Option (List Char)) := List.replicate newsize.toNat none
  match h.hist_lines with
  | none =>
    some { hist_size := newsize, hist_lines := some fresh, hist_pos := 0,
           hist_end := h.hist_used, hist_used := h.hist_used }
  | some old =>
    -- Remove the lines that don't fit in the new buffer.
    let shrunk : Option (List (Option (List Char)) × Int × Int) :=
      if newsize < h.hist_used then
        let delsize := h.hist_used - newsize
        match free_oldest h.hist_end h.hist_size delsize.toNat 1 old with
        | none => none
        | some old1 =>
          let e := h.hist_end - delsize
          some (old1, newsize, if e < 0 then e + h.hist_size else e)
      else some (old, h.hist_used, h.hist_end)
    match shrunk with
    | none => none
    | some (old1, used, hend) =>
      let copied : Option (List (Option (List Char))) :=
        if h.hist_pos < hend then
          memmove_lines fresh 0 old1 h.hist_pos (hend - h.hist_pos)
        else if used ≠ 0 then
          -- Copy the older part, then the newer part.
          match memmove_lines fresh 0 old1 h.hist_pos (h.hist_size - h.hist_pos) with
          | none => none
          | some part => memmove_lines part (h.hist_size - h.hist_pos) old1 0 hend
        else some fresh
      match copied with
      | none => none
      | some lines =>
        some { hist_size := newsize, hist_lines := some lines, hist_pos := 0,
               hist_end := used, hist_used := used }

/-- The function `grub_history_get` (lines 93-98); `%` is C remainder, which
truncates towards zero. -/
def grub_history_get (h : History) (pos : Int) : Option (Option (List Char)) :=
  if h.hist_size = 0 then none else
  match h.hist_lines with
  | none => none
  | some lines => array_get lines (Int.tmod (h.hist_pos + pos) h.hist_size)

/-- The function `grub_history_add` (lines 102-125). -/
def grub_history_add (h : History) (s : List Char) : Option History :=
  match h.hist_lines with
  | none => none
  | some lines =>
    -- Remove the oldest entry in the history to make room for a new entry.
    let evicted : Option (List (Option (List Char)) × Int × Int) :=
      if h.hist_used + 1 > h.hist_size then
        let e := h.hist_end - 1
        let e := if e < 0 then h.hist_size + e else e
        match free_slot lines e with
        | none => none
        | some lines1 => some (lines1, e, h.hist_used)
      else some (lines, h.hist_end, h.hist_used + 1)
    match evicted with
    | none => none
    | some (lines1, hend, used) =>
      -- Move to the next position.
      let p := h.hist_pos - 1
      let p := if p < 0 then h.hist_size + p else p
      -- Insert into history.
      match array_set lines1 p (some (grub_strdup s)) with
      | none => none
      | some lines2 =>
        some { hist_size := h.hist_size, hist_lines := some lines2, hist_pos := p,
               hist_end := hend, hist_used := used }

/-- The function `grub_history_replace` (lines 128-134). -/
def grub_history_replace (h : History) (pos : Int) (s : List Char) : Option History :=
  if h.hist_size = 0 then none else
  match h.hist_lines with
  | none => none
  | some lines =>
    let p := Int.tmod (h.hist_pos + pos) h.hist_size
    match free_slot lines p with
    | none => none
    | some lines1 =>
      match array_set lines1 p (some (grub_strdup s)) with
      | none => none
      | some lines2 => some { h with hist_lines := some lines2 }

/-- The history states the program can be in: the initial store, and every
state a defined call of `grub_set_history` (with a capacity of at least one),
`grub_history_add` or `grub_history_replace` leads to. -/
inductive Reachable : History → Prop
  | initial : Reachable hist_initial
  | set_history {h h1 : History} (c : Int) :
      Reachable h → 1 ≤ c → grub_set_history h c = some h1 → Reachable h1
  | add {h h1 : History} (s : List Char) :
      Reachable h → grub_history_add h s = some h1 → Reachable h1
  | replace {h h1 : History} (pos : Int) (s : List Char) :
      Reachable h → grub_history_replace h pos s = some h1 → Reachable h1

/-- Feeds the lines to `grub_history_add` one after the other. -/
def add_all (h : History) : List (List Char) → Option History
  | [] => some h
  | s :: rest =>
    match grub_history_add h s with
    | none => none
    | some h1 => add_all h1 rest

/-! ## Invariant of the history store -/

/-- The array slot behind recency offset `i` of a store whose `hist_pos` lies
inside the array, for `0 ≤ i < hist_size`. -/
def hist_slot (h : History) (i : Int) : Int :=
  if h.hist_pos + i < h.hist_size then h.hist_pos + i else h.hist_pos + i - h.hist_size

/-- The invariant of an allocated history store with the array `lines`. -/
structure HistInv (h : History) (lines : List (Option (List Char))) : Prop where
  lines_eq : h.hist_lines = some lines
  length_eq : (lines.length : Int) = h.hist_size
  size_pos : 1 ≤ h.hist_size
  used_nonneg : 0 ≤ h.hist_used
  used_le : h.hist_used ≤ h.hist_size
  pos_nonneg : 0 ≤ h.hist_pos
  pos_lt : h.hist_pos < h.hist_size
  end_nonneg : 0 ≤ h.hist_end
  end_le : h.hist_end ≤ h.hist_size
  end_eq : h.hist_end = h.hist_pos + h.hist_used ∨
    h.hist_end + h.hist_size = h.hist_pos + h.hist_used
  populated : ∀ i : Int, 0 ≤ i → i < h.hist_used →
    ∃ s, array_get lines (hist_slot h i) = some (some s)

/-- A full store of capacity 3 whose entries wrap around the end of the array:
the state after `grub_set_history (3)` and the lines a, b, c, d. -/
def hist_wrapped : History :=
  { hist_size := 3, hist_lines := some [some ['c'], some ['b'], some ['d']],
    hist_pos := 2, hist_end := 2, hist_used := 3 }

/-! ## Terminal and collaborators -/

/-- The calls the editor makes to the terminal, in order.  A call of
`grub_printf` is recorded with its format string and the strings handed to it
for the `%s` directives, as the source passes them. -/
inductive TermOp where
  | putchar (c : Char)
  | gotoxy (x y : Nat)
  | printf (format : List Char) (args : List (List Char))
  | partinfo (comp : List Char)
  | refresh
deriving DecidableEq

/-- Modelled from the spec: the command table walked by `grub_iterate_commands` yields
for each command its name and whether it accepts inline completion, which
the source reads as `cmd->flags & GRUB_COMMAND_FLAG_CMDLINE`. -/
structure Command where
  name : List Char
  flag_cmdline : Bool

/-- Modelled from the spec: a disk reports whether it supports sub-partitioning, and
`grub_partition_iterate` with `grub_partition_get_name` yields a finite
sequence of partition names. -/
structure Disk where
  has_partitions : Bool
  partitions : List (List Char)

/-- An opened device (`grub_device_t`); `disk` is `none` for a null pointer. -/
structure Device where
  disk : Option Disk

/-- A filesystem (`grub_fs_t`).  Its `dir` callback passes each entry of a
directory, with its is-directory flag, to the hook, and leaves a value in
`grub_errno` (given the value found there). -/
structure Fs where
  dir : Device → List Char → Nat → List (List Char × Bool) × Nat

/-- The collaborators of the editor that are not part of this file.  Each
call that can fail takes the current `grub_errno` and returns the new one
next to its result. -/
structure Env where
  /-- The commands `grub_iterate_commands` passes to its hook. -/
  grub_iterate_commands : List Command
  /-- The device names `grub_disk_dev_iterate` passes to its hook. -/
  grub_disk_dev_iterate : List (List Char)
  /-- The call `grub_device_open (name)`; the name may be a null pointer. -/
  grub_device_open : Option (List Char) → Nat → Option Device × Nat
  /-- The call `grub_file_get_device_name (name)`. -/
  grub_file_get_device_name : List Char → Nat → Option (List Char) × Nat
  /-- The call `grub_fs_probe (dev)`. -/
  grub_fs_probe : Device → Nat → Option Fs × Nat
  /-- Whether the call `grub_malloc (size)` of line 684 returns a block: the
  one allocation in this file whose result the source tests. -/
  grub_malloc : Nat → Bool
  /-- The value the `n`-th call of `grub_getxy` returns: the cursor column in
  the high byte and the cursor row in the low byte. -/
  grub_getxy : Nat → Nat
  /-- The bytes found in the array `buf` of `grub_cmdline_get` before it is
  written, by offset. -/
  uninit_buf : Nat → Char
  /-- The value read from the local `end` of `grub_tab_complete` while it is
  still uninitialised. -/
  uninit_end : Int
  /-- The value read from the local `begin` while still uninitialised. -/
  uninit_begin : Int
  /-- The value read from the local `restore` of the TAB handler when
  `grub_tab_complete` has not written it. -/
  uninit_restore : Int

/-! ## Tab completion (lines 136-428) -/

/-- The byte `*p` at a `char *`; the end of the list reads as the terminator. -/
def deref (p : List Char) : Char :=
  p.headD NUL

/-- Modelled from the spec: `grub_strncmp` (kern/misc.c, not among the sources) is the
standard C `strncmp`: it compares at most `n` bytes and stops at a
terminator, so that the result is zero exactly when the candidate's prefix of
the token's length equals the token. -/
def grub_strncmp : List Char → List Char → Nat → Int
  | _, _, 0 => 0
  | s1, s2, n + 1 =>
    if deref s1 ≠ deref s2 then ((deref s1).toNat : Int) - ((deref s2).toNat : Int)
    else if deref s1 = NUL then 0
    else grub_strncmp s1.tail s2.tail n

/-- Modelled from the spec: `grub_strchr` (kern/misc.c, not among the sources) is the
standard C `strchr` for a non-NUL byte: the pointer to its first occurrence
in the string, or null. -/
def grub_strchr : List Char → Char → Option (List Char)
  | [], _ => none
  | x :: rest, c =>
    if x = NUL then none
    else if x = c then some (x :: rest)
    else grub_strchr rest c

/-- Modelled from the spec: `grub_strrchr` (kern/misc.c, not among the sources) is the
standard C `strrchr` for a non-NUL byte: the pointer to its last occurrence
in the string, or null. -/
def grub_strrchr : List Char → Char → Option (List Char)
  | [], _ => none
  | x :: rest, c =>
    if x = NUL then none
    else
      match grub_strrchr rest c with
      | some p => some p
      | none => if x = c then some (x :: rest) else none

/-- The loops `while (*pos == ' ') pos++;` of lines 282 and 300. -/
def skip_spaces : List Char → List Char
  | [] => []
  | x :: rest => if x = ' ' then skip_spaces rest else x :: rest

/-- The two display routines handed to `add_completion`:
`print_simple_completion` and `print_partition_completion`. -/
inductive Printer where
  | simple
  | partition
deriving DecidableEq

/-- The locals of `grub_tab_complete` that its nested functions share,
together with `grub_errno` and the terminal output so far. -/
structure Completion where
  found : Option (List Char)
  begin : Int
  end_ : Int
  numfound : Int
  matchstr : Option (List Char)
  grub_errno : Nat
  out : List TermOp

/-- The functions `print_simple_completion` and `print_partition_completion`
(lines 170-179). -/
def print_completion (pr : Printer) (st : Completion) (comp : List Char) : Completion :=
  match pr with
  | Printer.simple => { st with out := st.out ++ [TermOp.printf " %s".toList [cstr comp]] }
  | Printer.partition => { st with out := st.out ++ [TermOp.partinfo (cstr comp)], grub_errno := 0 }

/-- The loop of lines 221-226,
`while ((cnt < end) && *s1 && *s2 && (*s1 == *s2)) { s1++; s2++; cnt++; }`,
started with the counter at `cnt`; the result is the final counter. -/
def count_matching (end_ : Int) : List Char → List Char → Int → Int
  | [], _, cnt => cnt
  | c :: s1, s2, cnt =>
    if cnt < end_ ∧ c ≠ NUL ∧ deref s2 ≠ NUL ∧ c = deref s2 then
      count_matching end_ s1 s2.tail (cnt + 1)
    else cnt

/-- The nested function `add_completion` (lines 189-232); `pos` and `len` are
the locals of `grub_tab_complete` it reads. -/
def add_completion (pos : List Char) (len : Nat) (st : Completion)
    (comp mtch what : List Char) (pr : Printer) : Option Completion :=
  -- Bug in strncmp then len ==0.
  if len = 0 ∨ grub_strncmp pos comp len = 0 then
    let st := { st with numfound := st.numfound + 1 }
    let st1 : Option Completion :=
      if st.numfound = 1 then
        some { st with
          begin := len
          found := some (grub_strdup comp)
          end_ := grub_strlen (grub_strdup comp)
          matchstr := some mtch }
      -- Multiple matches found, print the first instead of completing.
      else if st.numfound = 2 then
        match st.found with
        | none => none
        | some found =>
          some (print_completion pr
            { st with out := st.out ++
                [TermOp.printf "\nPossible %s are:\n".toList [cstr what]] }
            found)
      else some st
    match st1 with
    | none => none
    | some st =>
      if st.numfound > 1 then
        match st.found with
        | none => none
        | some found =>
          let st := print_completion pr st comp
          -- Find out how many characters match.
          some { st with end_ := count_matching st.end_ found comp 0 }
      else some st
  else some st

/-- An enumerator calling its hook on each item in turn; every hook of this
file returns zero, so no enumeration stops early. -/
def iterate {α : Type} (hook : Completion → α → Option Completion) :
    Completion → List α → Option Completion
  | st, [] => some st
  | st, x :: rest =>
    match hook st x with
    | none => none
    | some st1 => iterate hook st1 rest

/-- The nested function `iterate_part` (lines 234-239), given the name of the
partition. -/
def iterate_part (pos : List Char) (len : Nat) (st : Completion) (name : List Char) :
    Option Completion :=
  add_completion pos len st name ")".toList "partitions".toList Printer.partition

/-- The nested function `iterate_dir` (lines 241-253). -/
def iterate_dir (pos : List Char) (len : Nat) (st : Completion)
    (entry : List Char × Bool) : Option Completion :=
  if ¬ entry.2 then
    add_completion pos len st entry.1 " ".toList "files".toList Printer.simple
  else
    add_completion pos len st (cstr entry.1 ++ ['/']) [] "files".toList Printer.simple

/-- The nested function `iterate_dev` (lines 255-272). -/
def iterate_dev (env : Env) (pos : List Char) (len : Nat) (st : Completion)
    (devname : List Char) : Option Completion :=
  -- Complete the partition part.
  let opened := env.grub_device_open (some devname) st.grub_errno
  let st := { st with grub_errno := opened.2 }
  let st1 : Option Completion :=
    match opened.1 with
    | some dev =>
      if (match dev.disk with
          | some disk => disk.has_partitions
          | none => false) then
        add_completion pos len st devname ",".toList "disks".toList Printer.simple
      else
        add_completion pos len st devname ")".toList "disks".toList Printer.simple
    | none => some st
  match st1 with
  | none => none
  | some st => some { st with grub_errno := 0 }

/-- The nested function `iterate_commands` (lines 274-279). -/
def iterate_commands (pos : List Char) (len : Nat) (st : Completion) (cmd : Command) :
    Option Completion :=
  if cmd.flag_cmdline then
    add_completion pos len st cmd.name " ".toList "commands".toList Printer.simple
  else some st

/-- What `grub_tab_complete` hands back: the returned string (`none` for a
null pointer), the value stored through `restore` (`none` when nothing was
stored), `grub_errno` and the terminal output. -/
structure TabResult where
  insert : Option (List Char)
  restore : Option Int
  grub_errno : Nat
  out : List TermOp

/-- The label `fail` (lines 423-427). -/
def tab_fail (st : Completion) (restore : Option Int) : TabResult :=
  { insert := none, restore := restore, grub_errno := 0, out := st.out }

/-- The end of `grub_tab_complete` (lines 402-427).  The block allocated for
the result is not modelled; it has room for `sizeof (matchstr)` bytes after
the copied part, and every caller of `add_completion` passes a suffix of at
most one byte. -/
def tab_finish (st : Completion) : Option TabResult :=
  -- If more than one match is found those matches will be printed and
  -- the prompt should be restored.
  let restore : Int := if st.numfound > 1 then 1 else 0
  -- Return the part that matches.
  match st.found with
  | some found =>
    if st.end_ ≠ 0 then
      if 0 ≤ st.begin ∧ st.begin ≤ found.length ∧ st.begin ≤ st.end_ then
        let part := cstr ((found.drop st.begin.toNat).take (st.end_ - st.begin).toNat)
        if st.numfound = 1 then
          match st.matchstr with
          | none => none
          | some mtch =>
            some { insert := some (part ++ cstr mtch), restore := some restore,
                   grub_errno := st.grub_errno, out := st.out }
        else
          some { insert := some part, restore := some restore,
                 grub_errno := st.grub_errno, out := st.out }
      else none
    else some (tab_fail st (some restore))
  | none => some (tab_fail st (some restore))

/-- The text of `s` before the byte a pointer `p` into `s` points at: what
string functions read from `s` while that byte is overwritten with NUL. -/
def cut_before (s p : List Char) : List Char :=
  s.take (s.length - p.length)

/-- The function `grub_tab_complete` (lines 140-428) on the text `buf` with
`grub_errno` holding `errno`. -/
def grub_tab_complete (env : Env) (buf : List Char) (errno : Nat) : Option TabResult :=
  let st : Completion :=
    { found := none, begin := env.uninit_begin, end_ := env.uninit_end, numfound := 0,
      matchstr := none, grub_errno := errno, out := [] }
  -- Remove blank space on the beginning of the line.
  let pos := skip_spaces buf
  -- Check if the string is a command or path.
  match grub_strchr pos ' ' with
  | none =>
    -- Tab complete a command.
    let len := grub_strlen pos
    match iterate (iterate_commands pos len) st env.grub_iterate_commands with
    | none => none
    | some st => tab_finish st
  | some path =>
    -- Remove blank space on the beginning of the line.
    let pos := skip_spaces path
    -- Check if this is a completion for a device name.
    if deref pos = '(' ∧ grub_strchr pos ')' = none then
      -- Check if this is a device or partition.
      let pos := pos.tail
      match grub_strchr pos ',' with
      | none =>
        -- Complete the disk part.
        let len := grub_strlen pos
        match iterate (iterate_dev env pos len) st env.grub_disk_dev_iterate with
        | none => none
        | some st => if st.grub_errno ≠ 0 then some (tab_fail st none) else tab_finish st
      | some partition =>
        -- Complete the partition part.
        let opened := env.grub_device_open (some (cut_before pos partition)) st.grub_errno
        let st := { st with grub_errno := 0 }
        match opened.1 with
        | some partdev =>
          match partdev.disk with
          | some disk =>
            if disk.has_partitions then
              let pos := partition.tail
              let len := grub_strlen pos
              match iterate (iterate_part pos len) st disk.partitions with
              | none => none
              | some st => tab_finish { st with grub_errno := 0 }
            else tab_finish st
          | none => tab_finish st
        | none => some (tab_fail st none)
    else
      let named := env.grub_file_get_device_name pos st.grub_errno
      let opened := env.grub_device_open named.1 named.2
      match opened.1 with
      | none => some (tab_fail { st with grub_errno := opened.2 } none)
      | some dev =>
        let probed := env.grub_fs_probe dev opened.2
        let st := { st with grub_errno := probed.2 }
        if st.grub_errno ≠ 0 then some (tab_fail st none)
        else
          match grub_strrchr pos '/' with
          | some slash =>
            let pos := slash.tail
            let len := grub_strlen pos
            match grub_strchr path '/' with
            | none =>
              some { insert := none, restore := some 0, grub_errno := st.grub_errno,
                     out := st.out }
            | some dir =>
              let dir := grub_strdup dir
              -- Cut away the filename part.
              match grub_strrchr dir '/' with
              | none => none
              | some dirfile =>
                let dir := cut_before dir dirfile.tail
                -- Tab complete a file.
                match probed.1 with
                | none => none
                | some fs =>
                  let listed := fs.dir dev dir st.grub_errno
                  match iterate (iterate_dir pos len) st listed.1 with
                  | none => none
                  | some st =>
                    let st := { st with grub_errno := listed.2 }
                    if st.grub_errno ≠ 0 then some (tab_fail st none) else tab_finish st
          | none =>
            tab_finish { st with found := some (grub_strdup "/".toList), matchstr := some [],
                                 numfound := 1, begin := 0, end_ := 1 }

/-- The candidates of one enumeration as they reach `add_completion`: the
string, the suffix to add on a unique match, the kind named in the header
and the display routine. -/
structure Candidate where
  comp : List Char
  mtch : List Char
  what : List Char
  pr : Printer
deriving DecidableEq

/-- The call of `add_completion` an enumeration hook makes for a candidate. -/
def add_candidate (pos : List Char) (len : Nat) (st : Completion) (c : Candidate) :
    Option Completion :=
  add_completion pos len st c.comp c.mtch c.what c.pr

/-- Lines 402-427 run on the shared locals `st` after the candidates `cands`
have gone through `add_completion` for the token at `pos`.  This is the end
of `grub_tab_complete` on the runs that do not leave through `fail`; the
exits to `fail` of lines 315, 341, 352, 356 and 388 are in `grub_tab_complete`
and not here. -/
def complete_candidates (pos : List Char) (st : Completion) (cands : List Candidate) :
    Option TabResult :=
  match iterate (add_candidate pos (grub_strlen pos)) st cands with
  | none => none
  | some st1 => tab_finish st1

/-- The locals of `grub_tab_complete` before any candidate is seen (lines
146-150): `begin` and `end` hold the indeterminate values `b` and `e`. -/
def completion_start (b e : Int) (errno : Nat) : Completion :=
  { found := none, begin := b, end_ := e, numfound := 0, matchstr := none,
    grub_errno := errno, out := [] }

/-! ## Line editor (lines 461-754)

The `unsigned` locals `xpos`, `ypos` and `ystart` are computed modulo `2^32`.
The `grub_size_t` locals `lpos`, `llen` and `plen` are offsets into and
lengths of objects in memory; their sums stay below the word size and are
computed exactly, and a difference `a - b` is only formed with `b <= a` in
the states the theorems speak of. -/

/-- Reduction of an `unsigned` value modulo `2^32`. -/
def wrap32 (n : Nat) : Nat :=
  n % 4294967296

/-- Modelled from the spec: `grub_isprint` (kern/misc.c, not among the sources) is the
standard C `isprint` for ASCII, true from the space to the tilde. -/
def grub_isprint (c : Nat) : Bool :=
  32 ≤ c && c ≤ 126

/-- The locals of `grub_cmdline_get` and its parameters, the file-scope
variables it uses, and the terminal. -/
structure Editor where
  /-- Parameter `prompt`. -/
  prompt : List Char
  /-- Parameter `max_len`, the size of `buf`. -/
  max_len : Nat
  /-- Parameter `echo_char`; NUL for zero. -/
  echo_char : Char
  /-- Parameter `readline`, as the truth value of `readline != 0`. -/
  readline : Bool
  xpos : Nat
  ypos : Nat
  ystart : Nat
  lpos : Nat
  llen : Nat
  plen : Nat
  /-- The array `char buf[max_len]`. -/
  buf : List Char
  histpos : Int
  /-- The file-scope `kill_buf`; `none` for a null pointer. -/
  kill_buf : Option (List Char)
  /-- The history store. -/
  hist : History
  grub_errno : Nat
  /-- Everything sent to the terminal so far. -/
  out : List TermOp
  /-- The number of calls of `grub_getxy` so far. -/
  getxy_calls : Nat
  /-- The bytes that follow the array `buf` in memory, by offset from the
  start of `buf`: what a read past the end of the array finds. -/
  beyond : Nat → Char

/-- The `n` bytes a `grub_memmove` reads from `buf + i`. -/
def buf_read (buf : List Char) (beyond : Nat → Char) (i n : Nat) : List Char :=
  (List.range n).map (fun k => buf.getD (i + k) (beyond (i + k)))

/-- The array after a `grub_memmove` has written the bytes `src` to
`buf + d`.  A write past the end of the array shows as a longer list. -/
def buf_write (buf : List Char) (d : Nat) (src : List Char) : List Char :=
  buf.take d ++ src ++ buf.drop (d + src.length)

/-- The nested function `cl_set_pos` (lines 480-485). -/
def cl_set_pos (e : Editor) : Editor :=
  let xpos := (e.plen + e.lpos) % 79
  let ypos := wrap32 (e.ystart + (e.plen + e.lpos) / 79)
  { e with xpos := xpos, ypos := ypos, out := e.out ++ [TermOp.gotoxy xpos ypos] }

/-- One round of the loop of `cl_print` (lines 493-507), for the byte `ch`
of the buffer. -/
def cl_print_char (env : Env) (c : Char) (e : Editor) (ch : Char) : Editor :=
  let e1 : Editor :=
    if e.xpos > 78 then
      let row := env.grub_getxy e.getxy_calls % 256
      let e2 : Editor :=
        { e with out := e.out ++ [TermOp.putchar '\n'], xpos := 1,
                 getxy_calls := e.getxy_calls + 1 }
      if e2.ypos = row then { e2 with ystart := wrap32 (e2.ystart + 4294967295) }
      else { e2 with ypos := wrap32 (e2.ypos + 1) }
    else { e with xpos := wrap32 (e.xpos + 1) }
  { e1 with out := e1.out ++ [TermOp.putchar (if c ≠ NUL then c else ch)] }

/-- The nested function `cl_print` (lines 487-509): one round for each byte
of the string at `buf + pos`, whose terminator lies inside the array in the
states the theorems speak of. -/
def cl_print (env : Env) (e : Editor) (pos : Nat) (c : Char) : Editor :=
  (cstr (e.buf.drop pos)).foldl (cl_print_char env c) e

/-- The nested function `cl_insert` (lines 511-525). -/
def cl_insert (env : Env) (e : Editor) (str : List Char) : Editor :=
  let len := grub_strlen str
  if len + e.llen < e.max_len then
    let buf1 := buf_write e.buf (e.lpos + len)
      (buf_read e.buf e.beyond e.lpos (e.llen - e.lpos + 1))
    let buf2 := buf_write buf1 e.lpos (str.take len)
    let e1 : Editor := { e with buf := buf2, llen := e.llen + len, lpos := e.lpos + len }
    cl_set_pos (cl_print env e1 (e1.lpos - len) e1.echo_char)
  else e

/-- The nested function `cl_delete` (lines 527-544).  Every call site
passes `len <= llen - lpos`, and the sum `lpos + len` of the test is computed
exactly.  The `grub_memmove` is asked for `llen - lpos + 1` bytes, `len` more
than the tail it moves. -/
def cl_delete (env : Env) (e : Editor) (len : Nat) : Editor :=
  if e.lpos + len ≤ e.llen then
    let saved_lpos := e.lpos
    let e1 := cl_set_pos { e with lpos := e.llen - len }
    let e2 := cl_print env e1 e1.lpos ' '
    let e3 := cl_set_pos { e2 with lpos := saved_lpos }
    let e4 : Editor :=
      { e3 with
        buf := buf_write e3.buf e3.lpos
          (buf_read e3.buf e3.beyond (e3.lpos + len) (e3.llen - e3.lpos + 1))
        llen := e3.llen - len }
    cl_set_pos (cl_print env e4 e4.lpos e4.echo_char)
  else e

/-- The start of `grub_cmdline_get` (lines 546-561), up to the first read of
a key.  `cmdline` is the caller's array, `hist` and `kill_buf` the file-scope
state found, `errno` the value of `grub_errno`. -/
def cmdline_start (env : Env) (prompt : List Char) (cmdline : List Char) (max_len : Nat)
    (echo_char : Char) (readline : Bool) (hist : History) (kill_buf : Option (List Char))
    (errno : Nat) (beyond : Nat → Char) : Option Editor :=
  if max_len = 0 then none else
  let plen := grub_strlen prompt
  let buf := ((List.range max_len).map env.uninit_buf).set 0 NUL
  let out : List TermOp :=
    if env.grub_getxy 0 / 256 ≠ 0 then [TermOp.putchar '\n'] else []
  let out := out ++ [TermOp.printf (cstr prompt) []]
  let row := env.grub_getxy 1 % 256
  let e : Editor :=
    { prompt := prompt, max_len := max_len, echo_char := echo_char, readline := readline,
      xpos := wrap32 plen, ypos := row, ystart := row, lpos := 0, llen := 0, plen := plen,
      buf := buf, histpos := 0, kill_buf := kill_buf, hist := hist, grub_errno := errno,
      out := out, getxy_calls := 2, beyond := beyond }
  let e := cl_insert env e cmdline
  if e.hist.hist_used = 0 then
    match grub_history_add e.hist e.buf with
    | none => none
    | some h => some { e with hist := h }
  else some e

/-- The TAB handler (lines 595-624). -/
def key_tab (env : Env) (e : Editor) : Option Editor :=
  -- Backup the next character and make it 0 so it will be easy to use
  -- string functions.
  match e.buf[e.lpos]? with
  | none => none
  | some backup =>
    match grub_tab_complete env (e.buf.set e.lpos NUL) e.grub_errno with
    | none => none
    | some r =>
      -- Restore the original string.
      let e1 : Editor :=
        { e with buf := (e.buf.set e.lpos NUL).set e.lpos backup,
                 grub_errno := r.grub_errno, out := e.out ++ r.out }
      let restore := r.restore.getD env.uninit_restore
      let e2 : Editor :=
        if restore ≠ 0 then
          -- Restore the prompt.
          let row := env.grub_getxy e1.getxy_calls % 256
          { e1 with out := e1.out ++
                      [TermOp.printf "\n%s%s".toList [cstr e1.prompt, cstr e1.buf]],
                    xpos := wrap32 e1.plen, ystart := row, ypos := row,
                    getxy_calls := e1.getxy_calls + 1 }
        else e1
      match r.insert with
      | some insert => some (cl_insert env e2 insert)
      | none => some e2

/-- The history handlers after the browse position has moved (lines 651-653
and 669-672): clear the line and show the entry at `histpos`. -/
def show_history (env : Env) (e : Editor) : Option Editor :=
  let e1 := cl_delete env e e.llen
  match grub_history_get e1.hist e1.histpos with
  | some (some hist) => some (cl_insert env e1 hist)
  | _ => none

/-- The first `switch (key)` of the loop (lines 567-702), entered when
`readline` is set. -/
def readline_key (env : Env) (e : Editor) (key : Nat) : Option Editor :=
  if key = 1 then -- Ctrl-a
    some (cl_set_pos { e with lpos := 0 })
  else if key = 2 then -- Ctrl-b
    if e.lpos > 0 then some (cl_set_pos { e with lpos := e.lpos - 1 }) else some e
  else if key = 5 then -- Ctrl-e
    some (cl_set_pos { e with lpos := e.llen })
  else if key = 6 then -- Ctrl-f
    if e.lpos < e.llen then some (cl_set_pos { e with lpos := e.lpos + 1 }) else some e
  else if key = 9 then -- Ctrl-i or TAB
    key_tab env e
  else if key = 11 then -- Ctrl-k
    if e.lpos < e.llen then
      let e1 : Editor :=
        { e with kill_buf := some (grub_strdup (e.buf.drop e.lpos)), grub_errno := 0 }
      some (cl_delete env e1 (e1.llen - e1.lpos))
    else some e
  else if key = 14 then -- Ctrl-n
    let e1 : Editor := { e with lpos := 0 }
    if e1.histpos > 0 then
      match grub_history_replace e1.hist e1.histpos e1.buf with
      | none => none
      | some h => show_history env { e1 with hist := h, histpos := e1.histpos - 1 }
    else show_history env e1
  else if key = 16 then -- Ctrl-p
    let e1 : Editor := { e with lpos := 0 }
    if e1.histpos < e1.hist.hist_used - 1 then
      match grub_history_replace e1.hist e1.histpos e1.buf with
      | none => none
      | some h => show_history env { e1 with hist := h, histpos := e1.histpos + 1 }
    else show_history env e1
  else if key = 21 then -- Ctrl-u
    if e.lpos > 0 then
      let n := e.lpos
      let e1 : Editor :=
        { e with
          kill_buf :=
            if env.grub_malloc (n + 1) then some (buf_read e.buf e.beyond 0 n ++ [NUL])
            else none
          grub_errno := 0 }
      let e2 := cl_set_pos { e1 with lpos := 0 }
      some (cl_delete env e2 n)
    else some e
  else if key = 25 then -- Ctrl-y
    match e.kill_buf with
    | some kill => some (cl_insert env e kill)
    | none => some e
  else some e

/-- What one round of the loop of lines 563-734 does after reading a key
other than newline and carriage return. -/
inductive Step where
  /-- The loop goes on to read the next key. -/
  | next (e : Editor)
  /-- The statement `return 0` of the ESC case. -/
  | escape (e : Editor)

/-- The second `switch (key)` of the loop (lines 705-733). -/
def common_key (env : Env) (e : Editor) (key : Nat) : Step :=
  if key = 27 then -- '\e'
    Step.escape e
  else if key = 8 then -- '\b'
    let e1 := if e.lpos > 0 then cl_set_pos { e with lpos := e.lpos - 1 } else e
    -- fall through
    if e1.lpos < e1.llen then Step.next (cl_delete env e1 1) else Step.next e1
  else if key = 4 then -- Ctrl-d
    if e.lpos < e.llen then Step.next (cl_delete env e 1) else Step.next e
  else if grub_isprint key then
    Step.next (cl_insert env e [Char.ofNat key, NUL])
  else Step.next e

/-- One round of the loop of lines 563-734 for a key other than newline and
carriage return. -/
def process_key (env : Env) (e : Editor) (key : Nat) : Option Step :=
  if e.readline then
    match readline_key env e key with
    | none => none
    | some e1 => some (common_key env e1 key)
  else some (common_key env e key)

/-- The loop `while (buf[lpos] == ' ') lpos++;` of lines 742-743, with the
bytes from `buf + lpos` on as its first argument. -/
def skip_leading_spaces : List Char → Nat → Nat
  | [], lpos => lpos
  | x :: rest, lpos => if x = ' ' then skip_leading_spaces rest (lpos + 1) else lpos

/-- How a call of `grub_cmdline_get` ends. -/
inductive Outcome where
  /-- It returned zero. -/
  | aborted (e : Editor)
  /-- It returned one, with `cmdline` as the contents of the caller's array. -/
  | committed (e : Editor) (cmdline : List Char)
  /-- It is waiting in `grub_getkey` with all keys consumed. -/
  | waiting (e : Editor)

/-- The editor state of an outcome. -/
def Outcome.editor : Outcome → Editor
  | Outcome.aborted e => e
  | Outcome.committed e _ => e
  | Outcome.waiting e => e

/-- The end of `grub_cmdline_get` after a newline or carriage return (lines
736-754). -/
def cmdline_commit (e : Editor) : Option Outcome :=
  let e1 : Editor := { e with out := e.out ++ [TermOp.putchar '\n', TermOp.refresh] }
  -- If ECHO_CHAR is NUL, remove leading spaces.
  let e2 : Editor :=
    { e1 with lpos := if e1.echo_char = NUL then skip_leading_spaces e1.buf 0 else 0 }
  let e3 : Editor := { e2 with histpos := 0 }
  let stored : Option History :=
    if grub_strlen e3.buf > 0 then
      match grub_history_replace e3.hist e3.histpos e3.buf with
      | none => none
      | some h => grub_history_add h []
    else some e3.hist
  match stored with
  | none => none
  | some h =>
    some (Outcome.committed { e3 with hist := h }
      (buf_read e3.buf e3.beyond e3.lpos (e3.llen - e3.lpos + 1)))

/-- The loop of lines 563-734 on the keys `GRUB_TERM_ASCII_CHAR (grub_getkey ())`
yields, followed by the end of the function. -/
def key_loop (env : Env) : Editor → List Nat → Option Outcome
  | e, [] => some (Outcome.waiting e)
  | e, key :: rest =>
    if key = 10 ∨ key = 13 then cmdline_commit e
    else
      match process_key env e key with
      | none => none
      | some (Step.escape e1) => some (Outcome.aborted e1)
      | some (Step.next e1) => key_loop env e1 rest

/-- The function `grub_cmdline_get` (lines 465-754) run on a sequence of keys. -/
def grub_cmdline_get (env : Env) (prompt : List Char) (cmdline : List Char) (max_len : Nat)
    (echo_char : Char) (readline : Bool) (hist : History) (kill_buf : Option (List Char))
    (errno : Nat) (beyond : Nat → Char) (keys : List Nat) : Option Outcome :=
  match cmdline_start env prompt cmdline max_len echo_char readline hist kill_buf errno
      beyond with
  | none => none
  | some e => key_loop env e keys

/-- The text in the edit buffer: the C string stored in `buf`. -/
def Editor.text (e : Editor) : List Char :=
  cstr e.buf

/-- The edit buffer is well formed: `buf` has `max_len` bytes, the cursor
is inside the text, and the text is `llen` bytes long with its terminator
inside the array. -/
structure BufferOK (e : Editor) : Prop where
  length_eq : e.buf.length = e.max_len
  llen_lt : e.llen < e.max_len
  lpos_le : e.lpos ≤ e.llen
  strlen_eq : grub_strlen e.buf = e.llen

/-- The editor `e1` differs from `e` at most in the screen position and the
terminal traffic. -/
structure SameEdit (e e1 : Editor) : Prop where
  prompt_eq : e1.prompt = e.prompt
  max_len_eq : e1.max_len = e.max_len
  echo_char_eq : e1.echo_char = e.echo_char
  readline_eq : e1.readline = e.readline
  lpos_eq : e1.lpos = e.lpos
  llen_eq : e1.llen = e.llen
  plen_eq : e1.plen = e.plen
  buf_eq : e1.buf = e.buf
  histpos_eq : e1.histpos = e.histpos
  kill_buf_eq : e1.kill_buf = e.kill_buf
  hist_eq : e1.hist = e.hist
  grub_errno_eq : e1.grub_errno = e.grub_errno
  beyond_eq : e1.beyond = e.beyond

/-- The editor `e1` differs from `e` at most in the edit buffer, the cursor,
the screen position and the terminal traffic. -/
structure SameSession (e e1 : Editor) : Prop where
  prompt_eq : e1.prompt = e.prompt
  max_len_eq : e1.max_len = e.max_len
  echo_char_eq : e1.echo_char = e.echo_char
  readline_eq : e1.readline = e.readline
  plen_eq : e1.plen = e.plen
  histpos_eq : e1.histpos = e.histpos
  kill_buf_eq : e1.kill_buf = e.kill_buf
  hist_eq : e1.hist = e.hist
  grub_errno_eq : e1.grub_errno = e.grub_errno
  beyond_eq : e1.beyond = e.beyond

/-- The editor state a round of the loop ends in. -/
def Step.editor : Step → Editor
  | Step.next e => e
  | Step.escape e => e

/-- The invariant of the editing loop: a well-formed buffer, an allocated
history store, and a browse position on one of its entries. -/
structure SessionOK (e : Editor) : Prop where
  buffer : BufferOK e
  history : ∃ lines, HistInv e.hist lines
  histpos_nonneg : 0 ≤ e.histpos
  histpos_lt : e.histpos < e.hist.hist_used

/-! ## Vocabulary for the completion properties -/

/-- The number of leading characters two strings share. -/
def common_len : List Char → List Char → Nat
  | a :: s, b :: t => if a = b then common_len s t + 1 else 0
  | _, _ => 0

/-- The candidates that match the typed token at `pos`: those whose string
has the token as a prefix. -/
def matching (pos : List Char) (cands : List Candidate) : List Candidate :=
  cands.filter (fun c => (cstr pos).isPrefixOf (cstr c.comp))

/-- The string `p` is the longest common prefix of the candidates `m`. -/
def LongestCommon (m : List Candidate) (p : List Char) : Prop :=
  (∀ c ∈ m, p <+: cstr c.comp) ∧ ∀ q : List Char, (∀ c ∈ m, q <+: cstr c.comp) → q <+: p

/-- The state of the shared locals after the matching candidates `m` have
gone through `add_completion`, starting from `completion_start b e`. -/
def Streamed (pos : List Char) (b e : Int) (m : List Candidate) (st : Completion) : Prop :=
  st.numfound = m.length ∧
  match m with
  | [] => st.found = none ∧ st.begin = b ∧ st.end_ = e ∧ st.matchstr = none
  | c :: _ =>
    st.found = some (cstr c.comp) ∧ st.begin = grub_strlen pos ∧
    st.matchstr = some c.mtch ∧ 0 ≤ st.end_ ∧ st.end_ ≤ (cstr c.comp).length ∧
    LongestCommon m ((cstr c.comp).take st.end_.toNat)

/-- The shared locals are in a state that some run of candidates through
`add_completion` for the token at `pos` leads to. -/
def Sane (pos : List Char) (st : Completion) : Prop :=
  ∃ (b e : Int) (m : List Candidate), Streamed pos b e m st ∧
    ∀ c ∈ m, cstr pos <+: cstr c.comp

/-- The contract of `grub_fs_probe` that `grub_tab_complete` relies on when
it calls `fs->dir`: a null result comes with an error in `grub_errno`. -/
def EnvOK (env : Env) : Prop :=
  ∀ (dev : Device) (errno : Nat),
    (env.grub_fs_probe dev errno).1 = none → (env.grub_fs_probe dev errno).2 ≠ 0

/-- The candidates the command table hands to `add_completion` through
`iterate_commands`. -/
def command_candidates (env : Env) : List Candidate :=
  (env.grub_iterate_commands.filter (fun c => c.flag_cmdline)).map
    (fun c => ⟨c.name, " ".toList, "commands".toList, Printer.simple⟩)

/-- The candidates a disk hands to `add_completion` through `iterate_part`. -/
def partition_candidates (disk : Disk) : List Candidate :=
  disk.partitions.map (fun name => ⟨name, ")".toList, "partitions".toList, Printer.partition⟩)

/-- The candidates a directory listing hands to `add_completion` through
`iterate_dir`. -/
def file_candidates (entries : List (List Char × Bool)) : List Candidate :=
  entries.map (fun entry =>
    if ¬ entry.2 then ⟨entry.1, " ".toList, "files".toList, Printer.simple⟩
    else ⟨cstr entry.1 ++ ['/'], [], "files".toList, Printer.simple⟩)

/-! ## Concrete states used to exercise the theorems -/

/-- Collaborators with one command, no disks and no filesystem, on a terminal
that reports row 5, with memory to allocate. -/
def env_plain : Env :=
  { grub_iterate_commands := [⟨"boot".toList, true⟩]
    grub_disk_dev_iterate := []
    grub_device_open := fun _ errno => (none, errno)
    grub_file_get_device_name := fun _ errno => (none, errno)
    grub_fs_probe := fun _ _ => (none, 1)
    grub_malloc := fun _ => true
    grub_getxy := fun _ => 5
    uninit_buf := fun _ => 'x'
    uninit_end := 0
    uninit_begin := 0
    uninit_restore := 0 }

/-- An editor holding "hello" in a buffer of 8 bytes with the cursor at
offset `lpos` and `kill_buf` as the kill buffer, after the prompt "grub> ". -/
def editor_hello (lpos : Nat) (kill_buf : Option (List Char)) : Editor :=
  { prompt := "grub> ".toList, max_len := 8, echo_char := NUL, readline := true,
    xpos := 6 + lpos, ypos := 5, ystart := 5, lpos := lpos, llen := 5, plen := 6,
    buf := ['h', 'e', 'l', 'l', 'o', NUL, 'x', 'x'], histpos := 0, kill_buf := kill_buf,
    hist := hist_wrapped, grub_errno := 0, out := [], getxy_calls := 0,
    beyond := fun _ => 'z' }


/-! ## The end of a call -/

/-- The value a call of `grub_cmdline_get` returns: zero from the ESC case
(line 708), one from the end of the function (line 754); `none` while the
call has not returned. -/
def Outcome.result : Outcome → Option Int
  | Outcome.aborted _ => some 0
  | Outcome.committed _ _ => some 1
  | Outcome.waiting _ => none

/-- The bytes a call of `grub_cmdline_get` has stored in the caller's array
`cmdline`, by the `grub_memcpy` of line 752, the one statement of the function
that writes to it; `none` when the call has stored nothing. -/
def Outcome.written : Outcome → Option (List Char)
  | Outcome.aborted _ => none
  | Outcome.committed _ cmdline => some cmdline
  | Outcome.waiting _ => none

/-- The keys that end a call: ESC, newline and carriage return. -/
def ends_input (key : Nat) : Bool :=
  key == 27 || key == 10 || key == 13

/-! ## The branches of `grub_tab_complete` -/

/-- The four ways `grub_tab_complete` goes on after looking at the text
(lines 281-345), each with the pointers it has set up. -/
inductive Branch where
  /-- Line 288, no space in the text: `pos` is the text after the leading
  spaces. -/
  | commands (pos : List Char)
  /-- Line 309, an open parenthesis and no comma: `pos` is the text after the
  parenthesis. -/
  | disks (pos : List Char)
  /-- Line 317, an open parenthesis and a comma: `devname` is the string read
  at `pos` while the comma is overwritten with NUL (lines 319-323), `pos` the
  text after the comma (line 330). -/
  | partitions (devname pos : List Char)
  /-- Line 344: `path` is the text from the first space on, `pos` the argument
  after the spaces. -/
  | files (path pos : List Char)

/-- The tests of lines 281-345 of `grub_tab_complete`. -/
def tab_branch (buf : List Char) : Branch :=
  -- Remove blank space on the beginning of the line.
  let pos := skip_spaces buf
  -- Check if the string is a command or path.
  match grub_strchr pos ' ' with
  | none => Branch.commands pos
  | some path =>
    -- Remove blank space on the beginning of the line.
    let pos := skip_spaces path
    -- Check if this is a completion for a device name.
    if deref pos = '(' ∧ grub_strchr pos ')' = none then
      -- Check if this is a device or partition.
      let pos := pos.tail
      match grub_strchr pos ',' with
      | none => Branch.disks pos
      | some partition => Branch.partitions (cut_before pos partition) partition.tail
    else Branch.files path pos

/-- What `grub_tab_complete` does in each of its branches, from the shared
locals `st` on: lines 291-293 for a command, lines 312-315 for a disk, lines
322-341 for a partition, lines 346-397 for a file, each followed by lines
402-427. -/
def tab_run (env : Env) (st : Completion) : Branch → Option TabResult
  | Branch.commands pos =>
    let len := grub_strlen pos
    match iterate (iterate_commands pos len) st env.grub_iterate_commands with
    | none => none
    | some st => tab_finish st
  | Branch.disks pos =>
    let len := grub_strlen pos
    match iterate (iterate_dev env pos len) st env.grub_disk_dev_iterate with
    | none => none
    | some st => if st.grub_errno ≠ 0 then some (tab_fail st none) else tab_finish st
  | Branch.partitions devname pos =>
    let opened := env.grub_device_open (some devname) st.grub_errno
    let st := { st with grub_errno := 0 }
    match opened.1 with
    | some partdev =>
      match partdev.disk with
      | some disk =>
        if disk.has_partitions then
          let len := grub_strlen pos
          match iterate (iterate_part pos len) st disk.partitions with
          | none => none
          | some st => tab_finish { st with grub_errno := 0 }
        else tab_finish st
      | none => tab_finish st
    | none => some (tab_fail st none)
  | Branch.files path pos =>
    let named := env.grub_file_get_device_name pos st.grub_errno
    let opened := env.grub_device_open named.1 named.2
    match opened.1 with
    | none => some (tab_fail { st with grub_errno := opened.2 } none)
    | some dev =>
      let probed := env.grub_fs_probe dev opened.2
      let st := { st with grub_errno := probed.2 }
      if st.grub_errno ≠ 0 then some (tab_fail st none)
      else
        match grub_strrchr pos '/' with
        | some slash =>
          let pos := slash.tail
          let len := grub_strlen pos
          match grub_strchr path '/' with
          | none =>
            some { insert := none, restore := some 0, grub_errno := st.grub_errno,
                   out := st.out }
          | some dir =>
            let dir := grub_strdup dir
            match grub_strrchr dir '/' with
            | none => none
            | some dirfile =>
              let dir := cut_before dir dirfile.tail
              match probed.1 with
              | none => none
              | some fs =>
                let listed := fs.dir dev dir st.grub_errno
                match iterate (iterate_dir pos len) st listed.1 with
                | none => none
                | some st =>
                  let st := { st with grub_errno := listed.2 }
                  if st.grub_errno ≠ 0 then some (tab_fail st none) else tab_finish st
        | none =>
          tab_finish { st with found := some (grub_strdup "/".toList), matchstr := some [],
                               numfound := 1, begin := 0, end_ := 1 }

/-- The completion contexts of the design document, with the partial token
the candidates are matched against. -/
inductive Context where
  | Command (token : List Char)
  | DeviceName (token : List Char)
  | PartitionName (device token : List Char)
  | Path
deriving DecidableEq

/-- The context a branch of the code stands for: the strings at its
pointers. -/
def Branch.context : Branch → Context
  | Branch.commands pos => Context.Command (cstr pos)
  | Branch.disks pos => Context.DeviceName (cstr pos)
  | Branch.partitions devname pos => Context.PartitionName (cstr devname) (cstr pos)
  | Branch.files _ _ => Context.Path

/-- The classification of the design document, in its words, for the text
`t` before the cursor: `r` is `t` without its leading spaces, `a` the text
after the first space of `r` without further leading spaces. -/
def classify (t : List Char) : Context :=
  let r := t.dropWhile (fun c => c == ' ')
  if ' ' ∉ r then Context.Command r
  else
    let a := ((r.dropWhile (fun c => c != ' ')).drop 1).dropWhile (fun c => c == ' ')
    if a.head? = some '(' ∧ ')' ∉ a then
      let d := a.drop 1
      if ',' ∉ d then Context.DeviceName d
      else Context.PartitionName (d.takeWhile (fun c => c != ','))
        ((d.dropWhile (fun c => c != ',')).drop 1)
    else Context.Path

/-! ## What a span on the screen looks like -/

/-- What reaches the terminal when the characters `chars` are shown in turn
and each one marked in `marks` is preceded by a newline. -/
def shown : List Bool → List Char → List TermOp
  | m :: marks, ch :: chars =>
    (if m then [TermOp.putchar '\n'] else []) ++ TermOp.putchar ch :: shown marks chars
  | _, _ => []

/-- The editor of `editor_hello` with the cursor at offset 0 after a prompt of
77 characters: the text starts in column 77 of row 5. -/
def editor_wide : Editor :=
  { editor_hello 0 none with prompt := List.replicate 77 '>', plen := 77, xpos := 77 }

/-! ## The candidates `grub_tab_complete` streams -/

/-- The candidate `iterate_dev` hands to `add_completion` for the device
`devname` when `grub_errno` holds `errno` (lines 260-268); `none` when the
device does not open. -/
def device_candidate (env : Env) (errno : Nat) (devname : List Char) : Option Candidate :=
  match (env.grub_device_open (some devname) errno).1 with
  | some dev =>
    if (match dev.disk with
        | some disk => disk.has_partitions
        | none => false) then
      some ⟨devname, ",".toList, "disks".toList, Printer.simple⟩
    else some ⟨devname, ")".toList, "disks".toList, Printer.simple⟩
  | none => none

/-- The candidates `grub_disk_dev_iterate` hands to `add_completion` through
`iterate_dev`: `grub_errno` holds `errno` at the first device and zero from
then on (line 270). -/
def device_candidates (env : Env) (errno : Nat) : List (List Char) → List Candidate
  | [] => []
  | devname :: rest =>
    (device_candidate env errno devname).toList ++ device_candidates env 0 rest

/-- One enumeration of `grub_tab_complete`: the typed token at `pos`, the
candidates its hook hands to `add_completion` in order, and whether
`grub_errno` is found set once the enumeration is over, where lines 314-315
and 387-388 leave through `fail`. -/
structure Enumeration where
  pos : List Char
  cands : List Candidate
  failed : Bool
deriving DecidableEq

/-- The enumeration each branch of `grub_tab_complete` runs with `grub_errno`
holding `errno` on entry.  A branch that reaches line 402 without calling an
enumerator (lines 326-339, 366-371) has no candidates; the path without a
slash (lines 390-397) has the root directory as its one candidate, with an
empty suffix, for an empty token.  The result is `none` where the function
leaves through `fail` before any enumeration (lines 340-341, 351-356) and
where its behaviour is undefined. -/
def tab_enumeration (env : Env) (errno : Nat) : Branch → Option Enumeration
  | Branch.commands pos =>
    some { pos := pos, cands := command_candidates env, failed := false }
  | Branch.disks pos =>
    some { pos := pos, cands := device_candidates env errno env.grub_disk_dev_iterate,
           failed := env.grub_disk_dev_iterate.isEmpty && errno != 0 }
  | Branch.partitions devname pos =>
    match (env.grub_device_open (some devname) errno).1 with
    | some partdev =>
      match partdev.disk with
      | some disk =>
        if disk.has_partitions then
          some { pos := pos, cands := partition_candidates disk, failed := false }
        else some { pos := pos, cands := [], failed := false }
      | none => some { pos := pos, cands := [], failed := false }
    | none => none
  | Branch.files path pos =>
    let named := env.grub_file_get_device_name pos errno
    let opened := env.grub_device_open named.1 named.2
    match opened.1 with
    | none => none
    | some dev =>
      let probed := env.grub_fs_probe dev opened.2
      if probed.2 ≠ 0 then none
      else
        match grub_strrchr pos '/' with
        | some slash =>
          match grub_strchr path '/' with
          | none => some { pos := slash.tail, cands := [], failed := false }
          | some dir =>
            match grub_strrchr (grub_strdup dir) '/' with
            | none => none
            | some dirfile =>
              match probed.1 with
              | none => none
              | some fs =>
                let listed := fs.dir dev (cut_before (grub_strdup dir) dirfile.tail) probed.2
                some { pos := slash.tail, cands := file_candidates listed.1,
                       failed := listed.2 != 0 }
        | none =>
          some { pos := [], cands := [⟨"/".toList, [], "files".toList, Printer.simple⟩],
                 failed := false }

/-! ## More concrete collaborators -/

/-- The collaborators of `env_plain` with the commands "foobar" and "foobaz"
in the command table. -/
def env_commands : Env :=
  { env_plain with
    grub_iterate_commands := [⟨"foobar".toList, true⟩, ⟨"foobaz".toList, true⟩] }

/-- Collaborators on which every device opens and carries a filesystem whose
directories all list `entries` and leave `errno` in `grub_errno`. -/
def env_files (entries : List (List Char × Bool)) (errno : Nat) : Env :=
  { env_plain with
    grub_device_open := fun _ e => (some ⟨none⟩, e)
    grub_fs_probe := fun _ e => (some ⟨fun _ _ _ => (entries, errno)⟩, e) }

/-! ## Arrays with C indices -/

theorem array_get_eq {α : Type} (a : List α) (i : Int) (h : 0 ≤ i) :
    array_get a i = a[i.toNat]? := by
  simp [array_get, h]

theorem array_get_neg {α : Type} (a : List α) (i : Int) (h : i < 0) :
    array_get a i = none := by
  have : ¬ (0 ≤ i) := by omega
  simp [array_get, this]

theorem array_set_some {α : Type} (a : List α) (i : Int) (v : α)
    (h0 : 0 ≤ i) (h1 : i < a.length) :
    array_set a i v = some (a.set i.toNat v) := by
  simp [array_set, h0, h1]

theorem array_set_length {α : Type} {a r : List α} {i : Int} {v : α}
    (h : array_set a i v = some r) : r.length = a.length := by
  unfold array_set at h
  split_ifs at h
  simp only [Option.some.injEq] at h
  rw [← h, List.length_set]

theorem array_set_get {α : Type} {a r : List α} {i : Int} {v : α}
    (h : array_set a i v = some r) (k : Int) :
    array_get r k = if k = i then some v else array_get a k := by
  unfold array_set at h
  split_ifs at h with hi
  simp only [Option.some.injEq] at h
  subst h
  by_cases hk : 0 ≤ k
  · rw [array_get_eq _ _ hk, array_get_eq _ _ hk, List.getElem?_set]
    by_cases hki : k = i
    · subst hki
      have : k.toNat < a.length := by omega
      simp [this]
    · have : ¬ (i.toNat = k.toNat) := by omega
      simp [this, hki]
  · have hk1 : k < 0 := by omega
    have : k ≠ i := by omega
    simp [array_get_neg _ _ hk1, this]

theorem memmove_lines_length {α : Type} {dest src r : List α} {d s n : Int}
    (h : memmove_lines dest d src s n = some r) : r.length = dest.length := by
  unfold memmove_lines at h
  split_ifs at h with hb
  simp only [Option.some.injEq] at h
  subst h
  simp only [List.length_append, List.length_take, List.length_drop]
  omega

theorem memmove_lines_get {α : Type} {dest src r : List α} {d s n : Int}
    (h : memmove_lines dest d src s n = some r) (k : Int) :
    array_get r k =
      if d ≤ k ∧ k < d + n then array_get src (s + (k - d)) else array_get dest k := by
  unfold memmove_lines at h
  split_ifs at h with hb
  simp only [Option.some.injEq] at h
  subst h
  obtain ⟨hd, hs, hn, hsn, hdn⟩ := hb
  by_cases hk : 0 ≤ k
  · rw [array_get_eq _ _ hk]
    by_cases h1 : k < d
    · have hc : ¬ (d ≤ k ∧ k < d + n) := by omega
      rw [if_neg hc, array_get_eq _ _ hk, List.append_assoc,
        List.getElem?_append_left (by simp only [List.length_take]; omega),
        List.getElem?_take, if_pos (by omega)]
    · by_cases h2 : k < d + n
      · have hc : d ≤ k ∧ k < d + n := by omega
        rw [if_pos hc, array_get_eq _ _ (by omega), List.append_assoc,
          List.getElem?_append_right (by simp only [List.length_take]; omega),
          List.getElem?_append_left
            (by simp only [List.length_take, List.length_drop]; omega),
          List.getElem?_take, if_pos (by simp only [List.length_take]; omega),
          List.getElem?_drop]
        congr 1
        simp only [List.length_take]
        omega
      · have hc : ¬ (d ≤ k ∧ k < d + n) := by omega
        rw [if_neg hc, array_get_eq _ _ hk, List.append_assoc,
          List.getElem?_append_right (by simp only [List.length_take]; omega),
          List.getElem?_append_right
            (by simp only [List.length_take, List.length_drop]; omega),
          List.getElem?_drop]
        congr 1
        simp only [List.length_take, List.length_drop]
        omega
  · have hk1 : k < 0 := by omega
    have hc : ¬ (d ≤ k ∧ k < d + n) := by omega
    rw [if_neg hc, array_get_neg _ _ hk1, array_get_neg _ _ hk1]

theorem memmove_lines_some {α : Type} (dest src : List α) (d s n : Int)
    (hd : 0 ≤ d) (hs : 0 ≤ s) (hn : 0 ≤ n) (hsn : s + n ≤ src.length)
    (hdn : d + n ≤ dest.length) :
    ∃ r, memmove_lines dest d src s n = some r := by
  unfold memmove_lines
  rw [if_pos ⟨hd, hs, hn, hsn, hdn⟩]
  exact ⟨_, rfl⟩

/-- The slot `free_oldest` releases at counter value `j`. -/
theorem free_oldest_spec (e sz : Int) (n : Nat) :
    ∀ (i : Int) (old : List (Option (List Char))),
      (∀ j : Int, i ≤ j → j < i + n →
        0 ≤ (if e - j < 0 then e - j + sz else e - j) ∧
        (if e - j < 0 then e - j + sz else e - j) < old.length) →
      ∃ r, free_oldest e sz n i old = some r ∧ r.length = old.length ∧
        ∀ k : Int, (∀ j : Int, i ≤ j → j < i + n →
            (if e - j < 0 then e - j + sz else e - j) ≠ k) →
          array_get r k = array_get old k := by
  induction n with
  | zero =>
    intro i old _
    exact ⟨old, rfl, rfl, fun _ _ => rfl⟩
  | succ m ih =>
    intro i old hb
    have hi := hb i (le_refl i) (by push_cast; omega)
    obtain ⟨old1, h1⟩ : ∃ old1, free_slot old
        (if e - i < 0 then e - i + sz else e - i) = some old1 :=
      ⟨_, array_set_some old _ none hi.1 hi.2⟩
    have hlen1 : old1.length = old.length := array_set_length h1
    obtain ⟨r, hr, hrl, hrk⟩ := ih (i + 1) old1 (by
      intro j hj1 hj2
      rw [hlen1]
      exact hb j (by omega) (by push_cast; omega))
    refine ⟨r, ?_, by rw [hrl, hlen1], ?_⟩
    · simp only [free_oldest, h1]
      exact hr
    · intro k hk
      rw [hrk k (fun j hj1 hj2 => hk j (by omega) (by push_cast; omega))]
      rw [array_set_get h1 k, if_neg]
      exact fun hki => hk i (le_refl i) (by push_cast; omega) hki.symm

/-! ## The history store keeps its invariant -/

theorem wrap_emod (a n : Int) (h0 : 0 ≤ a) (h1 : a < 2 * n) :
    a % n = if a < n then a else a - n := by
  split_ifs with h
  · exact Int.emod_eq_of_lt h0 h
  · have : a = (a - n) + 1 * n := by ring
    rw [this, Int.add_mul_emod_self, Int.emod_eq_of_lt (by omega) (by omega)]
    ring

theorem history_get_eq_slot {h : History} {lines : List (Option (List Char))}
    (inv : HistInv h lines) (i : Int) (h0 : 0 ≤ i) (h1 : i < h.hist_size) :
    grub_history_get h i = array_get lines (hist_slot h i) := by
  have hp := inv.pos_nonneg
  have hl := inv.pos_lt
  have hne : h.hist_size ≠ 0 := by omega
  unfold grub_history_get hist_slot
  rw [if_neg hne, inv.lines_eq]
  simp only
  rw [Int.tmod_eq_emod (by omega) (by omega), wrap_emod _ _ (by omega) (by omega)]

theorem history_get_eq_emod {h : History} {lines : List (Option (List Char))}
    (inv : HistInv h lines) (p : Int) (h0 : 0 ≤ p) :
    grub_history_get h p = array_get lines ((h.hist_pos + p) % h.hist_size) := by
  have hp := inv.pos_nonneg
  have hl := inv.pos_lt
  have hne : h.hist_size ≠ 0 := by omega
  unfold grub_history_get
  rw [if_neg hne, inv.lines_eq]
  simp only
  rw [Int.tmod_eq_emod (by omega) (by omega)]

theorem history_get_emod {h : History} {lines : List (Option (List Char))}
    (inv : HistInv h lines) (p : Int) (h0 : 0 ≤ p) :
    grub_history_get h p = grub_history_get h (p % h.hist_size) := by
  have hl := inv.pos_lt
  have hp := inv.pos_nonneg
  have hm : 0 ≤ p % h.hist_size := Int.emod_nonneg _ (by omega)
  rw [history_get_eq_emod inv p h0, history_get_eq_emod inv _ hm,
    Int.add_emod, Int.add_emod h.hist_pos (p % h.hist_size), Int.emod_emod]

theorem set_history_initial (k : Int) (hk : 1 ≤ k) :
    ∃ h lines, grub_set_history hist_initial k = some h ∧ HistInv h lines ∧
      h.hist_size = k ∧ h.hist_used = 0 ∧ h.hist_pos = 0 := by
  have hn : ¬ (k < 0) := by omega
  refine ⟨{ hist_size := k, hist_lines := some (List.replicate k.toNat none), hist_pos := 0,
            hist_end := 0, hist_used := 0 }, List.replicate k.toNat none, ?_, ?_, rfl, rfl, rfl⟩
  · simp [grub_set_history, hist_initial, hn]
  · refine ⟨rfl, ?_, hk, ?_, ?_, ?_, ?_, ?_, ?_, ?_, ?_⟩ <;> simp <;> omega

theorem history_add_spec {h : History} {lines : List (Option (List Char))}
    (inv : HistInv h lines) (s : List Char) :
    ∃ h1 lines1, grub_history_add h s = some h1 ∧ HistInv h1 lines1 ∧
      h1.hist_size = h.hist_size ∧
      h1.hist_used = (if h.hist_used + 1 > h.hist_size then h.hist_used else h.hist_used + 1) ∧
      h1.hist_pos = (if h.hist_pos - 1 < 0 then h.hist_size + (h.hist_pos - 1)
        else h.hist_pos - 1) ∧
      ∀ k : Int, array_get lines1 k =
        if k = h1.hist_pos then some (some (grub_strdup s)) else array_get lines k := by
  obtain ⟨hle, hlen, hsz, hu0, hu1, hp0, hp1, he0, he1, hee, hpop⟩ := inv
  -- the slot written by the insertion
  obtain ⟨p, hpdef⟩ : ∃ p : Int, p = (if h.hist_pos - 1 < 0 then h.hist_size + (h.hist_pos - 1)
      else h.hist_pos - 1) := ⟨_, rfl⟩
  have hpb : 0 ≤ p ∧ p < h.hist_size := by
    rw [hpdef]; split_ifs <;> omega
  by_cases hfull : h.hist_used + 1 > h.hist_size
  · -- the store is full: the oldest entry is evicted
    obtain ⟨e, hedef⟩ : ∃ e : Int, e = (if h.hist_end - 1 < 0 then h.hist_size + (h.hist_end - 1)
        else h.hist_end - 1) := ⟨_, rfl⟩
    have hep : e = p := by
      rw [hedef, hpdef]; split_ifs <;> omega
    have hf : free_slot lines e = some (lines.set e.toNat none) :=
      array_set_some lines e none (by omega) (by omega)
    have hw : array_set (lines.set e.toNat none) p (some (grub_strdup s)) =
        some ((lines.set e.toNat none).set p.toNat (some (grub_strdup s))) :=
      array_set_some _ p _ (by omega) (by rw [List.length_set]; omega)
    have hget : ∀ k : Int, array_get ((lines.set e.toNat none).set p.toNat
        (some (grub_strdup s))) k =
        if k = p then some (some (grub_strdup s)) else array_get lines k := by
      intro k
      rw [array_set_get hw k]
      split_ifs with hk
      · rfl
      · rw [array_set_get hf k, if_neg (by omega)]
    refine ⟨{ hist_size := h.hist_size,
              hist_lines := some ((lines.set e.toNat none).set p.toNat (some (grub_strdup s))),
              hist_pos := p, hist_end := e, hist_used := h.hist_used },
            (lines.set e.toNat none).set p.toNat (some (grub_strdup s)), ?_, ?_, rfl, ?_, ?_, ?_⟩
    · simp only [grub_history_add, hle, if_pos hfull, ← hedef, hf, ← hpdef, hw]
    · have heb : 0 ≤ e ∧ e < h.hist_size := by rw [hep]; exact hpb
      refine ⟨rfl, ?_, hsz, hu0, hu1, hpb.1, hpb.2, heb.1, le_of_lt heb.2, ?_, ?_⟩
      · simp only [List.length_set]; exact hlen
      · simp only; omega
      · intro i hi0 hi1
        simp only at hi1
        rw [hget]
        simp only [hist_slot]
        by_cases hi : i = 0
        · subst hi
          rw [if_pos (by split_ifs <;> omega)]
          exact ⟨_, rfl⟩
        · rw [if_neg (by split_ifs <;> omega)]
          obtain ⟨t, ht⟩ := hpop (i - 1) (by omega) (by omega)
          refine ⟨t, ?_⟩
          rw [← ht]
          congr 1
          simp only [hist_slot]
          rw [hpdef]
          split_ifs <;> omega
    · simp only [if_pos hfull]
    · simp only; exact hpdef
    · exact hget
  · -- there is room: the entry count grows
    have hw : array_set lines p (some (grub_strdup s)) =
        some (lines.set p.toNat (some (grub_strdup s))) :=
      array_set_some _ p _ (by omega) (by omega)
    have hget : ∀ k : Int, array_get (lines.set p.toNat (some (grub_strdup s))) k =
        if k = p then some (some (grub_strdup s)) else array_get lines k :=
      fun k => array_set_get hw k
    refine ⟨{ hist_size := h.hist_size,
              hist_lines := some (lines.set p.toNat (some (grub_strdup s))),
              hist_pos := p, hist_end := h.hist_end, hist_used := h.hist_used + 1 },
            lines.set p.toNat (some (grub_strdup s)), ?_, ?_, rfl, ?_, ?_, ?_⟩
    · simp only [grub_history_add, hle, if_neg hfull, ← hpdef, hw]
    · refine ⟨rfl, ?_, hsz, by simp only; omega, by simp only; omega, hpb.1, hpb.2, he0, he1,
        ?_, ?_⟩
      · simp only [List.length_set]; exact hlen
      · simp only; rw [hpdef]; split_ifs <;> omega
      · intro i hi0 hi1
        simp only at hi1
        rw [hget]
        simp only [hist_slot]
        by_cases hi : i = 0
        · subst hi
          rw [if_pos (by split_ifs <;> omega)]
          exact ⟨_, rfl⟩
        · rw [if_neg (by split_ifs <;> omega)]
          obtain ⟨t, ht⟩ := hpop (i - 1) (by omega) (by omega)
          refine ⟨t, ?_⟩
          rw [← ht]
          congr 1
          simp only [hist_slot]
          rw [hpdef]
          split_ifs <;> omega
    · simp only [if_neg hfull]
    · simp only; exact hpdef
    · exact hget

theorem history_add_get {h : History} {lines : List (Option (List Char))}
    (inv : HistInv h lines) (s : List Char) :
    ∃ h1 lines1, grub_history_add h s = some h1 ∧ HistInv h1 lines1 ∧
      h1.hist_size = h.hist_size ∧
      h1.hist_used = (if h.hist_used + 1 > h.hist_size then h.hist_used else h.hist_used + 1) ∧
      grub_history_get h1 0 = some (some (grub_strdup s)) ∧
      ∀ j : Int, 1 ≤ j → j < h.hist_size →
        grub_history_get h1 j = grub_history_get h (j - 1) := by
  obtain ⟨h1, lines1, hadd, inv1, hsz, hused, hpos, hget⟩ := history_add_spec inv s
  have hp0 := inv.pos_nonneg
  have hp1 := inv.pos_lt
  refine ⟨h1, lines1, hadd, inv1, hsz, hused, ?_, ?_⟩
  · rw [history_get_eq_slot inv1 0 (le_refl 0) (by have := inv1.size_pos; omega), hget,
      if_pos]
    simp only [hist_slot]
    have := inv1.pos_lt
    split_ifs <;> omega
  · intro j hj0 hj1
    rw [history_get_eq_slot inv1 j (by omega) (by omega),
      history_get_eq_slot inv (j - 1) (by omega) (by omega), hget]
    have hne : hist_slot h1 j ≠ h1.hist_pos := by
      simp only [hist_slot]
      have := inv1.pos_lt
      split_ifs <;> omega
    rw [if_neg hne]
    congr 1
    simp only [hist_slot]
    rw [hpos, hsz]
    split_ifs <;> omega

theorem add_all_spec (ls : List (List Char)) :
    ∀ (h : History) (lines : List (Option (List Char))), HistInv h lines →
      ∃ h1 lines1, add_all h ls = some h1 ∧ HistInv h1 lines1 ∧
        h1.hist_size = h.hist_size ∧
        ∀ i : Nat, (i : Int) < h.hist_size →
          grub_history_get h1 i =
            if i < ls.length then some ((ls.reverse[i]?).map grub_strdup)
            else grub_history_get h ((i : Int) - ls.length) := by
  induction ls with
  | nil =>
    intro h lines inv
    exact ⟨h, lines, rfl, inv, rfl, fun i _ => by simp⟩
  | cons s rest ih =>
    intro h lines inv
    obtain ⟨h2, lines2, hadd, inv2, hsz2, _, hnew, hold⟩ := history_add_get inv s
    obtain ⟨h1, lines1, hall, inv1, hsz1, hget⟩ := ih h2 lines2 inv2
    refine ⟨h1, lines1, ?_, inv1, by rw [hsz1, hsz2], ?_⟩
    · simp only [add_all, hadd]
      exact hall
    · intro i hi
      rw [hget i (by rw [hsz2]; exact hi)]
      simp only [List.reverse_cons, List.length_cons]
      by_cases h1 : i < rest.length
      · rw [if_pos h1, if_pos (by omega),
          List.getElem?_append_left (by rw [List.length_reverse]; exact h1)]
      · rw [if_neg h1]
        by_cases h2 : i = rest.length
        · rw [if_pos (by omega), List.getElem?_append_right
            (by rw [List.length_reverse]; omega)]
          subst h2
          simp only [List.length_reverse, Nat.sub_self, sub_self, List.getElem?_cons_zero,
            Option.map_some']
          exact hnew
        · rw [if_neg (by omega), hold _ (by omega) (by omega)]
          congr 1
          push_cast
          omega


theorem history_replace_spec {h h1 : History} {lines : List (Option (List Char))}
    (inv : HistInv h lines) (pos : Int) (s : List Char)
    (hr : grub_history_replace h pos s = some h1) :
    ∃ lines1, HistInv h1 lines1 ∧ h1.hist_size = h.hist_size ∧
      h1.hist_used = h.hist_used ∧ h1.hist_pos = h.hist_pos ∧ h1.hist_end = h.hist_end := by
  obtain ⟨hle, hlen, hsz, hu0, hu1, hp0, hp1, he0, he1, hee, hpop⟩ := inv
  have hne : h.hist_size ≠ 0 := by omega
  unfold grub_history_replace at hr
  rw [if_neg hne, hle] at hr
  simp only at hr
  cases hf : free_slot lines ((h.hist_pos + pos).tmod h.hist_size) with
  | none => rw [hf] at hr; simp at hr
  | some lines1 =>
    rw [hf] at hr
    simp only at hr
    cases hw : array_set lines1 ((h.hist_pos + pos).tmod h.hist_size) (some (grub_strdup s)) with
    | none => rw [hw] at hr; simp at hr
    | some lines2 =>
      rw [hw] at hr
      simp only [Option.some.injEq] at hr
      subst hr
      refine ⟨lines2, ⟨rfl, ?_, hsz, hu0, hu1, hp0, hp1, he0, he1, hee, ?_⟩, rfl, rfl, rfl, rfl⟩
      · rw [array_set_length hw, array_set_length hf]; exact hlen
      · intro i hi0 hi1
        have hs : hist_slot { h with hist_lines := some lines2 } i = hist_slot h i := rfl
        rw [hs, array_set_get hw]
        split_ifs with hk
        · exact ⟨_, rfl⟩
        · rw [array_set_get hf, if_neg hk]
          exact hpop i hi0 hi1

/-- The copy phase of `grub_set_history` (lines 68-80). -/
theorem set_history_copy (h : History) (old1 : List (Option (List Char))) (c used hend : Int)
    (hc : 1 ≤ c) (hlen : (old1.length : Int) = h.hist_size)
    (hp0 : 0 ≤ h.hist_pos) (hp1 : h.hist_pos < h.hist_size)
    (hu0 : 0 ≤ used) (hu1 : used ≤ h.hist_size) (huc : used ≤ c)
    (he0 : 0 ≤ hend) (he1 : hend ≤ h.hist_size)
    (hee : hend = h.hist_pos + used ∨ hend + h.hist_size = h.hist_pos + used) :
    ∃ lines1 : List (Option (List Char)),
      (if h.hist_pos < hend then
          memmove_lines (List.replicate c.toNat none) 0 old1 h.hist_pos (hend - h.hist_pos)
        else
          if used ≠ 0 then
            match
              memmove_lines (List.replicate c.toNat none) 0 old1 h.hist_pos
                (h.hist_size - h.hist_pos) with
            | none => none
            | some part => memmove_lines part (h.hist_size - h.hist_pos) old1 0 hend
          else some (List.replicate c.toNat none)) = some lines1 ∧
      (lines1.length : Int) = c ∧
      ∀ i : Int, 0 ≤ i → i < used → array_get lines1 i = array_get old1 (hist_slot h i) := by
  have hfl : ((List.replicate c.toNat (none : Option (List Char))).length : Int) = c := by
    rw [List.length_replicate]; omega
  by_cases hlt : h.hist_pos < hend
  · rw [if_pos hlt]
    obtain ⟨r, hr⟩ := memmove_lines_some (List.replicate c.toNat (none : Option (List Char)))
      old1 0 h.hist_pos (hend - h.hist_pos) (le_refl 0) hp0 (by omega) (by omega) (by omega)
    refine ⟨r, hr, by rw [memmove_lines_length hr]; exact hfl, ?_⟩
    intro i hi0 hi1
    rw [memmove_lines_get hr i, if_pos (by omega)]
    congr 1
    simp only [hist_slot]
    split_ifs <;> omega
  · rw [if_neg hlt]
    by_cases hu : used ≠ 0
    · rw [if_pos hu]
      obtain ⟨part, hpart⟩ := memmove_lines_some
        (List.replicate c.toNat (none : Option (List Char)))
        old1 0 h.hist_pos (h.hist_size - h.hist_pos) (le_refl 0) hp0 (by omega) (by omega)
        (by omega)
      have hpl : (part.length : Int) = c := by rw [memmove_lines_length hpart]; exact hfl
      obtain ⟨r, hr⟩ := memmove_lines_some part old1 (h.hist_size - h.hist_pos) 0 hend
        (by omega) (le_refl 0) he0 (by omega) (by omega)
      refine ⟨r, ?_, by rw [memmove_lines_length hr]; exact hpl, ?_⟩
      · rw [hpart]
        exact hr
      · intro i hi0 hi1
        rw [memmove_lines_get hr i]
        by_cases hi : h.hist_size - h.hist_pos ≤ i
        · rw [if_pos (by omega)]
          congr 1
          simp only [hist_slot]
          split_ifs <;> omega
        · rw [if_neg (by omega), memmove_lines_get hpart i, if_pos (by omega)]
          congr 1
          simp only [hist_slot]
          split_ifs <;> omega
    · rw [if_neg hu]
      refine ⟨_, rfl, hfl, ?_⟩
      intro i hi0 hi1
      omega

/-- The end of `grub_set_history` (lines 68-88), once the entries that do not
fit have been released. -/
theorem set_history_finish {h : History} {lines : List (Option (List Char))}
    (inv : HistInv h lines) (old1 : List (Option (List Char))) (c used hend : Int)
    (hc : 1 ≤ c) (hlen : (old1.length : Int) = h.hist_size)
    (hused : used = min h.hist_used c)
    (he0 : 0 ≤ hend) (he1 : hend ≤ h.hist_size)
    (hee : hend = h.hist_pos + used ∨ hend + h.hist_size = h.hist_pos + used)
    (hkeep : ∀ i : Int, 0 ≤ i → i < used →
      array_get old1 (hist_slot h i) = array_get lines (hist_slot h i)) :
    ∃ h1 lines1,
      (match
          if h.hist_pos < hend then
            memmove_lines (List.replicate c.toNat none) 0 old1 h.hist_pos (hend - h.hist_pos)
          else
            if used ≠ 0 then
              match
                memmove_lines (List.replicate c.toNat none) 0 old1 h.hist_pos
                  (h.hist_size - h.hist_pos) with
              | none => none
              | some part => memmove_lines part (h.hist_size - h.hist_pos) old1 0 hend
            else some (List.replicate c.toNat none) with
        | none => none
        | some lines =>
          some { hist_size := c, hist_lines := some lines, hist_pos := 0, hist_end := used,
                 hist_used := used }) = some h1 ∧
      HistInv h1 lines1 ∧ h1.hist_size = c ∧ h1.hist_used = min h.hist_used c ∧
      ∀ i : Int, 0 ≤ i → i < min h.hist_used c →
        grub_history_get h1 i = grub_history_get h i := by
  have hu0 := inv.used_nonneg
  have hu1 := inv.used_le
  have hm : used ≤ h.hist_used ∧ used ≤ c ∧ 0 ≤ used := by
    rw [hused]; exact ⟨min_le_left _ _, min_le_right _ _, le_min hu0 (by omega)⟩
  obtain ⟨lines1, hcopy, hl1, hget⟩ := set_history_copy h old1 c used hend hc hlen
    inv.pos_nonneg inv.pos_lt hm.2.2 (by omega) hm.2.1 he0 he1 hee
  have hslot : ∀ i : Int, 0 ≤ i → i < c →
      hist_slot ⟨c, some lines1, 0, used, used⟩ i = i := by
    intro i hi0 hi1
    simp only [hist_slot]
    split_ifs <;> omega
  have inv1 : HistInv ⟨c, some lines1, 0, used, used⟩ lines1 := by
    refine ⟨rfl, hl1, hc, hm.2.2, hm.2.1, le_refl 0, by simp only; omega, hm.2.2, hm.2.1,
      Or.inl (by simp only; omega), ?_⟩
    intro i hi0 hi1
    simp only at hi1
    rw [hslot i hi0 (by omega), hget i hi0 hi1, hkeep i hi0 hi1]
    exact inv.populated i hi0 (by omega)
  refine ⟨_, lines1, by rw [hcopy], inv1, rfl, hused, ?_⟩
  intro i hi0 hi1
  rw [← hused] at hi1
  rw [history_get_eq_slot inv1 i hi0 (by simp only; omega), hslot i hi0 (by omega),
    history_get_eq_slot inv i hi0 (by omega), hget i hi0 hi1, hkeep i hi0 hi1]

theorem set_history_spec {h : History} {lines : List (Option (List Char))}
    (inv : HistInv h lines) (c : Int) (hc : 1 ≤ c) :
    ∃ h1 lines1, grub_set_history h c = some h1 ∧ HistInv h1 lines1 ∧
      h1.hist_size = c ∧ h1.hist_used = min h.hist_used c ∧
      ∀ i : Int, 0 ≤ i → i < min h.hist_used c →
        grub_history_get h1 i = grub_history_get h i := by
  obtain ⟨hle, hlen, hsz, hu0, hu1, hp0, hp1, he0, he1, hee, hpop⟩ := id inv
  have hn : ¬ (c < 0) := by omega
  unfold grub_set_history
  rw [if_neg hn, hle]
  simp only
  by_cases hsh : c < h.hist_used
  · rw [if_pos hsh]
    obtain ⟨old1, hfree, hl1, hk1⟩ := free_oldest_spec h.hist_end h.hist_size
      (h.hist_used - c).toNat 1 lines (by
        intro j hj0 hj1
        split_ifs <;> omega)
    rw [hfree]
    simp only
    refine set_history_finish inv old1 c c _ hc (by rw [hl1]; exact hlen)
      (by rw [min_eq_right (le_of_lt hsh)]) (by split_ifs <;> omega) (by split_ifs <;> omega)
      (by split_ifs <;> omega) ?_
    intro i hi0 hi1
    apply hk1
    intro j hj0 hj1
    simp only [hist_slot]
    split_ifs <;> omega
  · rw [if_neg hsh]
    simp only
    exact set_history_finish inv lines c h.hist_used h.hist_end hc hlen
      (by rw [min_eq_left (by omega)]) he0 he1 hee (fun _ _ _ => rfl)

theorem reachable_inv {h : History} (hr : Reachable h) :
    h = hist_initial ∨ ∃ lines, HistInv h lines := by
  induction hr with
  | initial => exact Or.inl rfl
  | set_history c _ hc hset ih =>
    right
    rcases ih with h0 | ⟨lines, inv⟩
    · subst h0
      obtain ⟨h2, lines2, hset2, inv2, _, _⟩ := set_history_initial c hc
      rw [hset2] at hset
      cases hset
      exact ⟨lines2, inv2⟩
    · obtain ⟨h2, lines2, hset2, inv2, _⟩ := set_history_spec inv c hc
      rw [hset2] at hset
      cases hset
      exact ⟨lines2, inv2⟩
  | add s _ hadd ih =>
    right
    rcases ih with h0 | ⟨lines, inv⟩
    · subst h0
      simp [grub_history_add, hist_initial] at hadd
    · obtain ⟨h2, lines2, hadd2, inv2, _⟩ := history_add_spec inv s
      rw [hadd2] at hadd
      cases hadd
      exact ⟨lines2, inv2⟩
  | replace pos s _ hrep ih =>
    right
    rcases ih with h0 | ⟨lines, inv⟩
    · subst h0
      simp [grub_history_replace, hist_initial] at hrep
    · obtain ⟨lines2, inv2, _⟩ := history_replace_spec inv pos s hrep
      exact ⟨lines2, inv2⟩

theorem hist_wrapped_reachable : Reachable hist_wrapped := by
  have h0 : grub_set_history hist_initial 3 =
      some ⟨3, some [none, none, none], 0, 0, 0⟩ := by decide
  have h1 : grub_history_add ⟨3, some [none, none, none], 0, 0, 0⟩ ['a'] =
      some ⟨3, some [none, none, some ['a']], 2, 0, 1⟩ := by decide
  have h2 : grub_history_add ⟨3, some [none, none, some ['a']], 2, 0, 1⟩ ['b'] =
      some ⟨3, some [none, some ['b'], some ['a']], 1, 0, 2⟩ := by decide
  have h3 : grub_history_add ⟨3, some [none, some ['b'], some ['a']], 1, 0, 2⟩ ['c'] =
      some ⟨3, some [some ['c'], some ['b'], some ['a']], 0, 0, 3⟩ := by decide
  have h4 : grub_history_add ⟨3, some [some ['c'], some ['b'], some ['a']], 0, 0, 3⟩ ['d'] =
      some hist_wrapped := by decide
  exact Reachable.add _ (Reachable.add _ (Reachable.add _ (Reachable.add _
    (Reachable.set_history 3 Reachable.initial (by decide) h0) h1) h2) h3) h4

/-- C2. Resizing a reachable store to capacity `c >= 1` succeeds, leaves
`min (used, c)` entries, resets the read position to the start of the new
array, and every recency offset below `min (used, c)` yields the line it
yielded before; after a shrink no recency offset yields any other line. -/
theorem set_history_keeps_recent (h : History) (hr : Reachable h) (c : Int) (hc : 1 ≤ c) :
    ∃ h1, grub_set_history h c = some h1 ∧ h1.hist_size = c ∧
      h1.hist_used = min h.hist_used c ∧ h1.hist_pos = 0 ∧
      (∀ i : Int, 0 ≤ i → i < min h.hist_used c →
        ∃ s, grub_history_get h i = some (some s) ∧
          grub_history_get h1 i = some (some s)) ∧
      (c < h.hist_used → ∀ p : Int, 0 ≤ p →
        ∃ i : Int, 0 ≤ i ∧ i < c ∧ grub_history_get h1 p = grub_history_get h i) := by
  rcases reachable_inv hr with h0 | ⟨lines, inv⟩
  · subst h0
    obtain ⟨h1, lines1, hset, inv1, hsz, hused, hp⟩ := set_history_initial c hc
    have hu : hist_initial.hist_used = 0 := rfl
    refine ⟨h1, hset, hsz, ?_, hp, ?_, ?_⟩
    · rw [hused, hu]
      exact (min_eq_left (by omega)).symm
    · intro i hi0 hi1
      rw [hu, min_eq_left (by omega)] at hi1
      omega
    · intro hlt
      rw [hu] at hlt
      omega
  · obtain ⟨h1, lines1, hset, inv1, hsz, hused, hget⟩ := set_history_spec inv c hc
    have hp : h1.hist_pos = 0 := by
      have := inv1.pos_nonneg
      have := inv1.end_eq
      have := inv1.end_le
      have := inv1.used_nonneg
      have hn : ¬ (c < 0) := by omega
      unfold grub_set_history at hset
      rw [if_neg hn, inv.lines_eq] at hset
      simp only at hset
      split at hset
      · exact absurd hset (by simp)
      · split at hset
        · exact absurd hset (by simp)
        · simp only [Option.some.injEq] at hset
          rw [← hset]
    refine ⟨h1, hset, hsz, hused, hp, ?_, ?_⟩
    · intro i hi0 hi1
      have hiu : i < h.hist_used := lt_of_lt_of_le hi1 (min_le_left _ _)
      obtain ⟨s, hs⟩ := inv.populated i hi0 hiu
      have hg : grub_history_get h i = some (some s) := by
        rw [history_get_eq_slot inv i hi0 (by have := inv.used_le; omega)]
        exact hs
      exact ⟨s, hg, by rw [hget i hi0 hi1]; exact hg⟩
    · intro hlt p hp0
      have hm0 : 0 ≤ p % c := Int.emod_nonneg _ (by omega)
      have hm1 : p % c < c := Int.emod_lt_of_pos _ (by omega)
      refine ⟨p % c, hm0, hm1, ?_⟩
      rw [history_get_emod inv1 p hp0, hsz]
      exact hget _ hm0 (by rw [min_eq_right (le_of_lt hlt)]; exact hm1)

/-- Shrinking the wrapped capacity-3 store to capacity 2. -/
theorem set_history_keeps_recent_witness :
    Reachable hist_wrapped ∧ (1 : Int) ≤ 2 ∧
    ∃ h1, grub_set_history hist_wrapped 2 = some h1 ∧ h1.hist_size = 2 ∧
      h1.hist_used = min hist_wrapped.hist_used 2 ∧ h1.hist_pos = 0 ∧
      (∀ i : Int, 0 ≤ i → i < min hist_wrapped.hist_used 2 →
        ∃ s, grub_history_get hist_wrapped i = some (some s) ∧
          grub_history_get h1 i = some (some s)) ∧
      ((2 : Int) < hist_wrapped.hist_used → ∀ p : Int, 0 ≤ p →
        ∃ i : Int, 0 ≤ i ∧ i < 2 ∧
          grub_history_get h1 p = grub_history_get hist_wrapped i) :=
  ⟨hist_wrapped_reachable, by decide,
    set_history_keeps_recent hist_wrapped hist_wrapped_reachable 2 (by decide)⟩

theorem set_history_reachable {h : History} (hr : Reachable h) (k : Int) (hk : 1 ≤ k) :
    ∃ h0 lines0, grub_set_history h k = some h0 ∧ HistInv h0 lines0 ∧ h0.hist_size = k := by
  rcases reachable_inv hr with hi | ⟨lines, inv⟩
  · subst hi
    obtain ⟨h0, lines0, hset, inv0, hsz, _⟩ := set_history_initial k hk
    exact ⟨h0, lines0, hset, inv0, hsz⟩
  · obtain ⟨h0, lines0, hset, inv0, hsz, _⟩ := set_history_spec inv k hk
    exact ⟨h0, lines0, hset, inv0, hsz⟩

/-- C1. On a store sized to capacity `k >= 1` by `grub_set_history` (from the
initial store, or from any state the store can be in), after adding at least
`k` lines, recency offset `i < k` yields (the stored copy of) the `(i+1)`-th
most recently added line, and every recency offset yields one of the `k` most
recent lines. -/
theorem history_add_keeps_most_recent (h : History) (hr : Reachable h) (k : Int)
    (hk : 1 ≤ k) (ls : List (List Char)) (hn : k ≤ ls.length) :
    ∃ h0 h1, grub_set_history h k = some h0 ∧ add_all h0 ls = some h1 ∧
      (∀ i : Nat, (i : Int) < k →
        ∃ s, ls.reverse[i]? = some s ∧
          grub_history_get h1 i = some (some (grub_strdup s))) ∧
      (∀ p : Int, 0 ≤ p →
        ∃ (i : Nat) (s : List Char), (i : Int) < k ∧ ls.reverse[i]? = some s ∧
          grub_history_get h1 p = some (some (grub_strdup s))) := by
  obtain ⟨h0, lines0, hset, inv0, hsz0⟩ := set_history_reachable hr k hk
  obtain ⟨h1, lines, hall, inv, hsz, hget⟩ := add_all_spec ls h0 lines0 inv0
  have hrecent : ∀ i : Nat, (i : Int) < k →
      ∃ s, ls.reverse[i]? = some s ∧
        grub_history_get h1 i = some (some (grub_strdup s)) := by
    intro i hi
    have hil : i < ls.reverse.length := by rw [List.length_reverse]; omega
    refine ⟨ls.reverse[i], List.getElem?_eq_getElem hil, ?_⟩
    rw [hget i (by rw [hsz0]; exact hi), if_pos (by omega), List.getElem?_eq_getElem hil]
    rfl
  refine ⟨h0, h1, hset, hall, hrecent, ?_⟩
  intro p hp
  have hks : h1.hist_size = k := by rw [hsz, hsz0]
  have hm0 : 0 ≤ p % k := Int.emod_nonneg _ (by omega)
  have hm1 : p % k < k := Int.emod_lt_of_pos _ (by omega)
  obtain ⟨s, hs, hg⟩ := hrecent (p % k).toNat (by omega)
  refine ⟨(p % k).toNat, s, by omega, hs, ?_⟩
  rw [history_get_emod inv p hp, hks, ← hg, Int.toNat_of_nonneg hm0]

/-- The published scenario of C1: capacity 3 and the lines a, b, c, d give
d, c, b at the recency offsets 0, 1, 2. -/
theorem history_add_keeps_most_recent_witness :
    Reachable hist_initial ∧ (1 : Int) ≤ 3 ∧
    (3 : Int) ≤ ([['a'], ['b'], ['c'], ['d']] : List (List Char)).length ∧
    (∃ h0 h1, grub_set_history hist_initial 3 = some h0 ∧
      add_all h0 [['a'], ['b'], ['c'], ['d']] = some h1 ∧
      (∀ i : Nat, (i : Int) < 3 →
        ∃ s, ([['a'], ['b'], ['c'], ['d']] : List (List Char)).reverse[i]? = some s ∧
          grub_history_get h1 i = some (some (grub_strdup s))) ∧
      (∀ p : Int, 0 ≤ p →
        ∃ (i : Nat) (s : List Char), (i : Int) < 3 ∧
          ([['a'], ['b'], ['c'], ['d']] : List (List Char)).reverse[i]? = some s ∧
          grub_history_get h1 p = some (some (grub_strdup s)))) ∧
    Option.bind (grub_set_history hist_initial 3)
        (fun h0 => add_all h0 [['a'], ['b'], ['c'], ['d']]) = some hist_wrapped ∧
    (grub_history_get hist_wrapped 0, grub_history_get hist_wrapped 1,
        grub_history_get hist_wrapped 2) =
      (some (some ['d']), some (some ['c']), some (some ['b'])) :=
  ⟨Reachable.initial, by decide, by decide,
    history_add_keeps_most_recent hist_initial Reachable.initial 3 (by decide)
      [['a'], ['b'], ['c'], ['d']] (by decide),
    by decide, by decide⟩

/-! ## C strings -/

theorem cstr_nil : cstr [] = [] := rfl

theorem cstr_cons_nul (p : List Char) : cstr (NUL :: p) = [] := by
  simp [cstr]

theorem cstr_cons_ne (c : Char) (p : List Char) (h : c ≠ NUL) :
    cstr (c :: p) = c :: cstr p := by
  simp [cstr, List.takeWhile_cons, h]

theorem cstr_nul_free (p : List Char) : NUL ∉ cstr p := by
  induction p with
  | nil => simp [cstr]
  | cons c p ih =>
    by_cases h : c = NUL
    · subst h
      simp [cstr_cons_nul]
    · rw [cstr_cons_ne c p h]
      simp only [List.mem_cons, not_or]
      exact ⟨fun hc => h hc.symm, ih⟩

theorem cstr_of_nul_free (s : List Char) (h : NUL ∉ s) : cstr s = s := by
  induction s with
  | nil => rfl
  | cons c s ih =>
    simp only [List.mem_cons, not_or] at h
    rw [cstr_cons_ne c s (fun hc => h.1 hc.symm), ih h.2]

theorem cstr_cstr (p : List Char) : cstr (cstr p) = cstr p :=
  cstr_of_nul_free _ (cstr_nul_free p)

theorem cstr_append_nul (s t : List Char) (h : NUL ∉ s) : cstr (s ++ NUL :: t) = s := by
  induction s with
  | nil => exact cstr_cons_nul t
  | cons c s ih =>
    simp only [List.mem_cons, not_or] at h
    rw [List.cons_append, cstr_cons_ne c _ (fun hc => h.1 hc.symm), ih h.2]

theorem char_toNat_inj {c d : Char} (h : c.toNat = d.toNat) : c = d := by
  rw [← Char.ofNat_toNat c, ← Char.ofNat_toNat d, h]

theorem deref_nil : deref [] = NUL := rfl

theorem deref_cons (c : Char) (p : List Char) : deref (c :: p) = c := rfl

/-! ## Matching a candidate -/

theorem strncmp_eq_zero_iff (pos : List Char) :
    ∀ comp : List Char,
      grub_strncmp pos comp (grub_strlen pos) = 0 ↔ cstr pos <+: cstr comp := by
  induction pos with
  | nil =>
    intro comp
    simp [grub_strlen, cstr_nil, grub_strncmp]
  | cons c pos ih =>
    intro comp
    by_cases hc : c = NUL
    · subst hc
      simp [grub_strlen, cstr_cons_nul, grub_strncmp]
    · have hlen : grub_strlen (c :: pos) = grub_strlen pos + 1 := by
        simp [grub_strlen, cstr_cons_ne c pos hc]
      rw [hlen, cstr_cons_ne c pos hc]
      cases comp with
      | nil =>
        have hne : deref (c :: pos) ≠ deref [] := by
          rw [deref_cons, deref_nil]; exact hc
        simp only [grub_strncmp, if_pos hne, cstr_nil, List.prefix_nil]
        constructor
        · intro h
          exfalso
          apply hne
          apply char_toNat_inj
          omega
        · intro h
          exact absurd h (by simp)
      | cons d comp =>
        simp only [grub_strncmp, deref_cons, List.tail_cons]
        by_cases hcd : c = d
        · subst hcd
          simp only [ne_eq, not_true_eq_false, if_false, if_neg hc]
          rw [cstr_cons_ne c comp hc, List.prefix_cons_inj]
          exact ih comp
        · rw [if_pos hcd]
          constructor
          · intro h
            exfalso
            apply hcd
            apply char_toNat_inj
            omega
          · intro h
            exfalso
            by_cases hd : d = NUL
            · subst hd
              rw [cstr_cons_nul] at h
              exact absurd (List.prefix_nil.mp h) (by simp)
            · rw [cstr_cons_ne d comp hd, List.cons_prefix_cons] at h
              exact hcd h.1

theorem is_match_iff (pos comp : List Char) :
    (grub_strlen pos = 0 ∨ grub_strncmp pos comp (grub_strlen pos) = 0) ↔
      cstr pos <+: cstr comp := by
  rw [strncmp_eq_zero_iff]
  constructor
  · rintro (h | h)
    · have : cstr pos = [] := List.length_eq_zero.mp h
      rw [this]
      exact List.nil_prefix
    · exact h
  · exact fun h => Or.inr h

/-! ## Shared leading characters -/

theorem common_len_le_left (s t : List Char) : common_len s t ≤ s.length := by
  induction s generalizing t with
  | nil => simp [common_len]
  | cons a s ih =>
    cases t with
    | nil => simp [common_len]
    | cons b t =>
      simp only [common_len, List.length_cons]
      split_ifs
      · have := ih t; omega
      · omega

theorem take_common_len_shared (s t : List Char) : s.take (common_len s t) <+: t := by
  induction s generalizing t with
  | nil => simp [common_len]
  | cons a s ih =>
    cases t with
    | nil => simp [common_len]
    | cons b t =>
      simp only [common_len]
      split_ifs with h
      · subst h
        rw [List.take_succ_cons, List.prefix_cons_inj]
        exact ih t
      · simp

theorem length_le_common_len {q s t : List Char} (hs : q <+: s) (ht : q <+: t) :
    q.length ≤ common_len s t := by
  induction q generalizing s t with
  | nil => simp
  | cons a q ih =>
    cases s with
    | nil => exact absurd (List.prefix_nil.mp hs) (by simp)
    | cons b s =>
      cases t with
      | nil => exact absurd (List.prefix_nil.mp ht) (by simp)
      | cons d t =>
        rw [List.cons_prefix_cons] at hs ht
        obtain ⟨h1, hs⟩ := hs
        obtain ⟨h2, ht⟩ := ht
        subst h1
        subst h2
        simp only [common_len, if_true, List.length_cons]
        have := ih hs ht
        omega

theorem count_matching_eq (e : Int) (s1 : List Char) :
    ∀ (s2 : List Char) (cnt : Int), NUL ∉ s1 → cnt ≤ e →
      count_matching e s1 s2 cnt =
        cnt + min (e - cnt).toNat (common_len s1 (cstr s2)) := by
  induction s1 with
  | nil =>
    intro s2 cnt _ _
    simp [count_matching, common_len]
  | cons c s1 ih =>
    intro s2 cnt hnul hle
    simp only [List.mem_cons, not_or] at hnul
    have hc : c ≠ NUL := fun h => hnul.1 h.symm
    cases s2 with
    | nil =>
      simp [count_matching, deref_nil, cstr_nil, common_len]
    | cons d s2 =>
      simp only [count_matching, deref_cons, List.tail_cons]
      by_cases hlt : cnt < e
      · by_cases hd : d = NUL
        · subst hd
          have : ¬ (cnt < e ∧ c ≠ NUL ∧ NUL ≠ NUL ∧ c = NUL) := by
            rintro ⟨_, _, h, _⟩; exact h rfl
          rw [if_neg this, cstr_cons_nul]
          simp [common_len]
        · rw [cstr_cons_ne d s2 hd]
          by_cases hcd : c = d
          · subst hcd
            rw [if_pos ⟨hlt, hc, hc, rfl⟩, ih s2 (cnt + 1) hnul.2 (by omega)]
            simp only [common_len, if_true]
            omega
          · have : ¬ (cnt < e ∧ c ≠ NUL ∧ d ≠ NUL ∧ c = d) := by
              rintro ⟨_, _, _, h⟩; exact hcd h
            rw [if_neg this]
            simp [common_len, hcd]
      · have : ¬ (cnt < e ∧ c ≠ NUL ∧ d ≠ NUL ∧ c = d) := by
          rintro ⟨h, _⟩; exact hlt h
        rw [if_neg this]
        have : (e - cnt).toNat = 0 := by omega
        rw [this]
        simp

/-! ## Streaming candidates through `add_completion` -/

@[simp] theorem print_completion_found (pr : Printer) (st : Completion) (comp : List Char) :
    (print_completion pr st comp).found = st.found := by
  cases pr <;> rfl

@[simp] theorem print_completion_begin (pr : Printer) (st : Completion) (comp : List Char) :
    (print_completion pr st comp).begin = st.begin := by
  cases pr <;> rfl

@[simp] theorem print_completion_end (pr : Printer) (st : Completion) (comp : List Char) :
    (print_completion pr st comp).end_ = st.end_ := by
  cases pr <;> rfl

@[simp] theorem print_completion_numfound (pr : Printer) (st : Completion)
    (comp : List Char) : (print_completion pr st comp).numfound = st.numfound := by
  cases pr <;> rfl

@[simp] theorem print_completion_matchstr (pr : Printer) (st : Completion)
    (comp : List Char) : (print_completion pr st comp).matchstr = st.matchstr := by
  cases pr <;> rfl

theorem add_candidate_no_match (pos : List Char) (st : Completion) (c : Candidate)
    (h : ¬ cstr pos <+: cstr c.comp) :
    add_candidate pos (grub_strlen pos) st c = some st := by
  unfold add_candidate add_completion
  rw [if_neg (fun hm => h ((is_match_iff pos c.comp).mp hm))]

theorem add_candidate_first (pos : List Char) (b e : Int) (st : Completion) (c : Candidate)
    (h : cstr pos <+: cstr c.comp) (hs : Streamed pos b e [] st) :
    ∃ st1, add_candidate pos (grub_strlen pos) st c = some st1 ∧
      Streamed pos b e [c] st1 := by
  obtain ⟨hn, _⟩ := hs
  simp only [List.length_nil, Nat.cast_zero] at hn
  unfold add_candidate add_completion
  rw [if_pos ((is_match_iff pos c.comp).mpr h)]
  simp only [hn, zero_add, if_true]
  have h1 : ¬ ((1 : Int) > 1) := by omega
  simp only [h1, if_false]
  refine ⟨_, rfl, ?_, ?_, rfl, rfl, ?_, ?_, ?_⟩
  · simp
  · simp [grub_strdup]
  · simp
  · simp [grub_strdup, grub_strlen, cstr_cstr]
  · simp only [grub_strdup, grub_strlen, cstr_cstr, Int.toNat_ofNat, List.take_length]
    exact ⟨fun m hm => by
        rw [List.mem_singleton] at hm
        subst hm
        exact List.prefix_refl _,
      fun q hq => hq c (List.mem_singleton.mpr rfl)⟩

theorem add_candidate_next (pos : List Char) (b e : Int) (st : Completion)
    (c0 : Candidate) (rest : List Candidate) (c : Candidate)
    (h : cstr pos <+: cstr c.comp) (hs : Streamed pos b e (c0 :: rest) st) :
    ∃ st1, add_candidate pos (grub_strlen pos) st c = some st1 ∧
      Streamed pos b e (c0 :: rest ++ [c]) st1 := by
  obtain ⟨hn, hf, hb, hm, he0, he1, hlc1, hlc2⟩ := hs
  simp only [List.length_cons, Nat.cast_add, Nat.cast_one] at hn
  have hnf := cstr_nul_free c0.comp
  have hcount : ∀ e1 : Int, e1 = st.end_ →
      count_matching e1 (cstr c0.comp) c.comp 0 =
        ((min st.end_.toNat (common_len (cstr c0.comp) (cstr c.comp)) : Nat) : Int) := by
    intro e1 he
    subst he
    rw [count_matching_eq _ _ _ 0 hnf he0]
    simp
  -- the state after the candidate
  have key : ∀ st2 : Completion, st2.found = st.found → st2.begin = st.begin →
      st2.matchstr = st.matchstr → st2.numfound = st.numfound + 1 →
      st2.end_ = ((min st.end_.toNat (common_len (cstr c0.comp) (cstr c.comp)) : Nat) : Int) →
      Streamed pos b e (c0 :: rest ++ [c]) st2 := by
    intro st2 h1 h2 h3 h4 h5
    refine ⟨?_, by rw [h1]; exact hf, by rw [h2]; exact hb, by rw [h3]; exact hm, ?_, ?_, ?_, ?_⟩
    · rw [h4, hn]
      simp
    · rw [h5]; omega
    · rw [h5]
      have := common_len_le_left (cstr c0.comp) (cstr c.comp)
      omega
    · intro m hmem
      rw [h5, Int.toNat_ofNat]
      have hpre : (cstr c0.comp).take
          (min st.end_.toNat (common_len (cstr c0.comp) (cstr c.comp))) <+:
          (cstr c0.comp).take st.end_.toNat := by
        rw [List.prefix_take_iff]
        exact ⟨List.take_prefix _ _, by
          rw [List.length_take]; omega⟩
      rw [List.cons_append, ← List.cons_append, List.mem_append] at hmem
      rcases hmem with hmem | hmem
      · exact hpre.trans (hlc1 m hmem)
      · rw [List.mem_singleton] at hmem
        subst hmem
        have hpre2 : (cstr c0.comp).take
            (min st.end_.toNat (common_len (cstr c0.comp) (cstr m.comp))) <+:
            (cstr c0.comp).take (common_len (cstr c0.comp) (cstr m.comp)) := by
          rw [List.prefix_take_iff]
          exact ⟨List.take_prefix _ _, by
            rw [List.length_take]; omega⟩
        exact hpre2.trans (take_common_len_shared _ _)
    · intro q hq
      rw [h5, Int.toNat_ofNat]
      have hq1 : q <+: (cstr c0.comp).take st.end_.toNat :=
        hlc2 q (fun m hmem => hq m (by
          rw [List.cons_append, ← List.cons_append]
          exact List.mem_append_left _ hmem))
      rw [List.prefix_take_iff] at hq1
      have hq2 : q <+: cstr c.comp := hq c (by simp)
      rw [List.prefix_take_iff]
      exact ⟨hq1.1, le_min hq1.2 (length_le_common_len hq1.1 hq2)⟩
  unfold add_candidate add_completion
  rw [if_pos ((is_match_iff pos c.comp).mpr h)]
  have hne1 : ¬ (st.numfound + 1 = 1) := by omega
  have hgt : st.numfound + 1 > 1 := by omega
  simp only [hne1, if_false]
  by_cases h2 : st.numfound + 1 = 2
  · simp only [h2, if_true, hf, print_completion_numfound, print_completion_found]
    have hgt2 : (2 : Int) > 1 := by omega
    simp only [hgt2, if_true]
    refine ⟨_, rfl, key _ ?_ ?_ ?_ ?_ ?_⟩
    · simp [hf]
    · simp
    · simp
    · simp [h2]
    · simp only
      exact hcount _ (by simp)
  · simp only [h2, if_false, hgt, if_true, hf]
    refine ⟨_, rfl, key _ ?_ ?_ ?_ ?_ ?_⟩
    · simp [hf]
    · simp
    · simp
    · simp
    · simp only
      exact hcount _ (by simp)

theorem matching_cons (pos : List Char) (c : Candidate) (cands : List Candidate) :
    matching pos (c :: cands) =
      if cstr pos <+: cstr c.comp then c :: matching pos cands else matching pos cands := by
  unfold matching
  rw [List.filter_cons]
  simp only [List.isPrefixOf_iff_prefix]

theorem mem_matching {pos : List Char} {c : Candidate} {cands : List Candidate}
    (h : c ∈ matching pos cands) : cstr pos <+: cstr c.comp := by
  unfold matching at h
  rw [List.mem_filter] at h
  exact List.isPrefixOf_iff_prefix.mp h.2

theorem streamed_start (pos : List Char) (b e : Int) (errno : Nat) :
    Streamed pos b e [] (completion_start b e errno) :=
  ⟨rfl, rfl, rfl, rfl, rfl⟩

theorem iterate_streamed (pos : List Char) (b e : Int) (cands : List Candidate) :
    ∀ (m : List Candidate) (st : Completion), Streamed pos b e m st →
      ∃ st1, iterate (add_candidate pos (grub_strlen pos)) st cands = some st1 ∧
        Streamed pos b e (m ++ matching pos cands) st1 := by
  induction cands with
  | nil =>
    intro m st hs
    refine ⟨st, rfl, ?_⟩
    simp only [matching, List.filter_nil, List.append_nil]
    exact hs
  | cons c cands ih =>
    intro m st hs
    rw [matching_cons]
    by_cases hc : cstr pos <+: cstr c.comp
    · rw [if_pos hc]
      have hstep : ∃ st1, add_candidate pos (grub_strlen pos) st c = some st1 ∧
          Streamed pos b e (m ++ [c]) st1 := by
        cases m with
        | nil => exact add_candidate_first pos b e st c hc hs
        | cons c0 rest => exact add_candidate_next pos b e st c0 rest c hc hs
      obtain ⟨st1, h1, hs1⟩ := hstep
      obtain ⟨st2, h2, hs2⟩ := ih (m ++ [c]) st1 hs1
      refine ⟨st2, ?_, ?_⟩
      · simp only [iterate, h1]
        exact h2
      · rw [List.append_assoc] at hs2
        exact hs2
    · rw [if_neg hc]
      obtain ⟨st2, h2, hs2⟩ := ih m st hs
      refine ⟨st2, ?_, hs2⟩
      simp only [iterate, add_candidate_no_match pos st c hc]
      exact h2

/-- Lines 402-427 after two or more matches: `restore` is 1 and the text
handed back is the longest common prefix of the matches without the typed
token. -/
theorem finish_multiple (pos : List Char) (b e : Int) (m : List Candidate) (st : Completion)
    (hs : Streamed pos b e m st) (hmatch : ∀ c ∈ m, cstr pos <+: cstr c.comp)
    (h : 2 ≤ m.length) :
    ∃ r p, tab_finish st = some r ∧
      r.restore = some 1 ∧ LongestCommon m p ∧
      r.insert.getD [] = p.drop (grub_strlen pos) := by
  cases m with
  | nil => simp at h
  | cons c0 rest =>
    obtain ⟨hn, hf, hb, _, he0, he1, hlc⟩ := hs
    simp only [List.length_cons] at h hn
    have hgt : st.numfound > 1 := by rw [hn]; push_cast; omega
    have hne : ¬ (st.numfound = 1) := by omega
    -- the typed token is a common prefix of the matches
    have htok : cstr pos <+: (cstr c0.comp).take st.end_.toNat := hlc.2 _ hmatch
    rw [List.prefix_take_iff] at htok
    have hlen : grub_strlen pos ≤ st.end_.toNat := htok.2
    have hfin : ∃ r, tab_finish st = some r ∧ r.restore = some 1 ∧
        r.insert.getD [] = ((cstr c0.comp).take st.end_.toNat).drop (grub_strlen pos) := by
      unfold tab_finish
      simp only [hf, hgt, if_true, hb]
      by_cases hz : st.end_ = 0
      · refine ⟨tab_fail st (some 1), by simp [hz], rfl, ?_⟩
        simp [tab_fail, hz]
      · have hbd : 0 ≤ (grub_strlen pos : Int) ∧
            (grub_strlen pos : Int) ≤ ((cstr c0.comp).length : Int) ∧
            (grub_strlen pos : Int) ≤ st.end_ := by omega
        simp only [hz, hbd, hne, ne_eq, not_false_eq_true, and_self, if_true, if_false,
          Int.toNat_ofNat]
        refine ⟨_, rfl, rfl, ?_⟩
        simp only [Option.getD_some]
        have hnf : NUL ∉ (List.drop (grub_strlen pos) (cstr c0.comp)).take
            (st.end_ - (grub_strlen pos : Int)).toNat :=
          fun hx => cstr_nul_free c0.comp
            (List.mem_of_mem_drop (List.mem_of_mem_take hx))
        rw [cstr_of_nul_free _ hnf, List.drop_take]
        congr 1
        omega
    obtain ⟨r, hr, hres, hins⟩ := hfin
    exact ⟨r, (cstr c0.comp).take st.end_.toNat, hr, hres, hlc, hins⟩

/-- Lines 402-427 after exactly one match: `restore` is 0, and the text
handed back is the rest of the candidate with its suffix, unless the candidate
is the empty string, which the test `end && found` of line 410 turns away. -/
theorem finish_unique (pos : List Char) (b e : Int) (c : Candidate) (st : Completion)
    (hs : Streamed pos b e [c] st) (htok : cstr pos <+: cstr c.comp) :
    ∃ r, tab_finish st = some r ∧
      r.restore = some 0 ∧
      (cstr c.comp ≠ [] →
        r.insert = some ((cstr c.comp).drop (grub_strlen pos) ++ cstr c.mtch)) ∧
      (cstr c.comp = [] → r.insert = none) := by
  obtain ⟨hn, hf, hb, hm, he0, he1, hlc⟩ := hs
  simp only [List.length_singleton, Nat.cast_one] at hn
  have hngt : ¬ (st.numfound > 1) := by omega
  -- the single match fixes the common length
  have hend : st.end_ = (cstr c.comp).length := by
    have hq := hlc.2 (cstr c.comp) (fun m hmem => by
      rw [List.mem_singleton] at hmem
      subst hmem
      exact List.prefix_refl _)
    have hl := hq.length_le
    rw [List.length_take] at hl
    omega
  have hlen : grub_strlen pos ≤ (cstr c.comp).length := htok.length_le
  unfold tab_finish
  simp only [hf, hngt, if_false, hb, hm, hn, if_true, hend]
  by_cases hz : cstr c.comp = []
  · refine ⟨tab_fail st (some 0), by simp [hz], rfl, fun hne => absurd hz hne, fun _ => rfl⟩
  · have hz1 : ¬ (((cstr c.comp).length : Int) = 0) := by
      intro h0
      apply hz
      apply List.length_eq_zero.mp
      omega
    have hbd : 0 ≤ (grub_strlen pos : Int) ∧
        (grub_strlen pos : Int) ≤ ((cstr c.comp).length : Int) ∧
        (grub_strlen pos : Int) ≤ ((cstr c.comp).length : Int) := by omega
    simp only [hz1, hbd, ne_eq, not_false_eq_true, and_self, if_true, Int.toNat_ofNat]
    refine ⟨_, rfl, rfl, fun _ => ?_, fun h0 => absurd h0 hz⟩
    simp only [Option.some.injEq]
    congr 1
    have hnf : NUL ∉ (List.drop (grub_strlen pos) (cstr c.comp)).take
        (((cstr c.comp).length : Int) - (grub_strlen pos : Int)).toNat :=
      fun hx => cstr_nul_free c.comp
        (List.mem_of_mem_drop (List.mem_of_mem_take hx))
    rw [cstr_of_nul_free _ hnf]
    apply List.take_of_length_le
    rw [List.length_drop]
    omega

/-- Lines 402-427 when nothing matched: a null pointer and `restore` at 0. -/
theorem finish_none (pos : List Char) (b e : Int) (st : Completion)
    (hs : Streamed pos b e [] st) : tab_finish st = some (tab_fail st (some 0)) := by
  obtain ⟨hn, hf, _⟩ := hs
  have hn0 : st.numfound = 0 := by simpa using hn
  unfold tab_finish
  simp [hf, hn0]

theorem iterate_no_match (pos : List Char) (cands : List Candidate) (st : Completion)
    (h : matching pos cands = []) :
    iterate (add_candidate pos (grub_strlen pos)) st cands = some st := by
  induction cands with
  | nil => rfl
  | cons c cands ih =>
    rw [matching_cons] at h
    by_cases hc : cstr pos <+: cstr c.comp
    · rw [if_pos hc] at h
      exact absurd h (by simp)
    · rw [if_neg hc] at h
      simp only [iterate, add_candidate_no_match pos st c hc]
      exact ih h

theorem complete_no_match (pos : List Char) (cands : List Candidate) (b e : Int)
    (errno : Nat) (h : matching pos cands = []) :
    complete_candidates pos (completion_start b e errno) cands =
      some { insert := none, restore := some 0, grub_errno := 0, out := [] } := by
  unfold complete_candidates
  rw [iterate_no_match pos cands _ h]
  simp [tab_finish, completion_start, tab_fail]

/-! ## The screen functions leave the edit buffer alone -/

theorem same_edit_refl (e : Editor) : SameEdit e e :=
  ⟨rfl, rfl, rfl, rfl, rfl, rfl, rfl, rfl, rfl, rfl, rfl, rfl, rfl⟩

theorem same_edit_trans {e e1 e2 : Editor} (h1 : SameEdit e e1) (h2 : SameEdit e1 e2) :
    SameEdit e e2 :=
  ⟨h2.prompt_eq.trans h1.prompt_eq, h2.max_len_eq.trans h1.max_len_eq,
    h2.echo_char_eq.trans h1.echo_char_eq, h2.readline_eq.trans h1.readline_eq,
    h2.lpos_eq.trans h1.lpos_eq, h2.llen_eq.trans h1.llen_eq, h2.plen_eq.trans h1.plen_eq,
    h2.buf_eq.trans h1.buf_eq, h2.histpos_eq.trans h1.histpos_eq,
    h2.kill_buf_eq.trans h1.kill_buf_eq, h2.hist_eq.trans h1.hist_eq,
    h2.grub_errno_eq.trans h1.grub_errno_eq, h2.beyond_eq.trans h1.beyond_eq⟩

theorem cl_set_pos_same (e : Editor) : SameEdit e (cl_set_pos e) :=
  ⟨rfl, rfl, rfl, rfl, rfl, rfl, rfl, rfl, rfl, rfl, rfl, rfl, rfl⟩

theorem cl_print_char_same (env : Env) (c : Char) (e : Editor) (ch : Char) :
    SameEdit e (cl_print_char env c e ch) := by
  unfold cl_print_char
  by_cases hx : e.xpos > 78
  · simp only [hx, if_true]
    by_cases hy : e.ypos = env.grub_getxy e.getxy_calls % 256
    · simp only [hy, if_true]
      exact ⟨rfl, rfl, rfl, rfl, rfl, rfl, rfl, rfl, rfl, rfl, rfl, rfl, rfl⟩
    · simp only [hy, if_false]
      exact ⟨rfl, rfl, rfl, rfl, rfl, rfl, rfl, rfl, rfl, rfl, rfl, rfl, rfl⟩
  · simp only [hx, if_false]
    exact ⟨rfl, rfl, rfl, rfl, rfl, rfl, rfl, rfl, rfl, rfl, rfl, rfl, rfl⟩

theorem foldl_print_same (env : Env) (c : Char) (chars : List Char) :
    ∀ e : Editor, SameEdit e (chars.foldl (cl_print_char env c) e) := by
  induction chars with
  | nil => exact fun e => same_edit_refl e
  | cons ch chars ih =>
    intro e
    exact same_edit_trans (cl_print_char_same env c e ch) (ih _)

theorem cl_print_same (env : Env) (e : Editor) (pos : Nat) (c : Char) :
    SameEdit e (cl_print env e pos c) :=
  foldl_print_same env c _ e

/-! ## Reading and writing the buffer -/

theorem buf_read_length (buf : List Char) (beyond : Nat → Char) (i n : Nat) :
    (buf_read buf beyond i n).length = n := by
  simp [buf_read]

theorem buf_read_take (buf : List Char) (beyond : Nat → Char) (i n k : Nat)
    (hk : k ≤ n) (hi : i + k ≤ buf.length) :
    (buf_read buf beyond i n).take k = (buf.drop i).take k := by
  apply List.ext_getElem?
  intro j
  simp only [buf_read, List.getElem?_take, List.getElem?_map, List.getElem?_drop]
  by_cases hj : j < k
  · have hjn : j < n := by omega
    have hlt : i + j < buf.length := by omega
    simp [hj, List.getElem?_range hjn, List.getD_eq_getElem?_getD,
      List.getElem?_eq_getElem hlt]
  · simp [hj]

theorem buf_read_split (buf : List Char) (beyond : Nat → Char) (i n k : Nat)
    (hk : k ≤ n) (hi : i + k ≤ buf.length) :
    ∃ junk : List Char, junk.length = n - k ∧
      buf_read buf beyond i n = (buf.drop i).take k ++ junk := by
  refine ⟨(buf_read buf beyond i n).drop k, ?_, ?_⟩
  · rw [List.length_drop, buf_read_length]
  · rw [← buf_read_take buf beyond i n k hk hi, List.take_append_drop]

theorem buf_read_eq (buf : List Char) (beyond : Nat → Char) (i n : Nat)
    (hi : i + n ≤ buf.length) :
    buf_read buf beyond i n = (buf.drop i).take n := by
  have h := buf_read_take buf beyond i n n (le_refl n) hi
  rw [List.take_of_length_le (by rw [buf_read_length])] at h
  exact h

/-- A well-formed buffer is its text, the terminator, and the bytes after it. -/
theorem buffer_split {e : Editor} (ok : BufferOK e) :
    ∃ rest : List Char, e.buf = e.text ++ NUL :: rest ∧ e.text.length = e.llen ∧
      NUL ∉ e.text ∧ e.llen + 1 + rest.length = e.max_len := by
  obtain ⟨hlen, hlt, _, hs⟩ := ok
  have htd : e.buf = e.text ++ e.buf.dropWhile (fun c => c != NUL) := by
    unfold Editor.text cstr
    exact (List.takeWhile_append_dropWhile _ _).symm
  have htl : e.text.length = e.llen := hs
  cases hd : e.buf.dropWhile (fun c => c != NUL) with
  | nil =>
    rw [hd, List.append_nil] at htd
    have : e.buf.length = e.llen := by rw [htd]; exact htl
    omega
  | cons x rest =>
    have hx : x = NUL := by
      have := List.head_dropWhile_not (fun c => c != NUL) e.buf (by rw [hd]; simp)
      simp only [hd, List.head_cons] at this
      simpa using this
    subst hx
    rw [hd] at htd
    refine ⟨rest, htd, htl, cstr_nul_free _, ?_⟩
    have hl := congrArg List.length htd
    rw [List.length_append, List.length_cons, htl, hlen] at hl
    omega

theorem buffer_ok_of_split (e : Editor) (t rest : List Char) (hb : e.buf = t ++ NUL :: rest)
    (ht : NUL ∉ t) (hl : t.length = e.llen) (hp : e.lpos ≤ e.llen)
    (hm : e.llen + 1 + rest.length = e.max_len) :
    BufferOK e ∧ e.text = t := by
  have htext : e.text = t := by
    unfold Editor.text
    rw [hb, cstr_append_nul t rest ht]
  refine ⟨⟨?_, by omega, hp, ?_⟩, htext⟩
  · rw [hb, List.length_append, List.length_cons]; omega
  · show (cstr e.buf).length = e.llen
    rw [show cstr e.buf = t from htext, hl]

/-! ## Insertion and deletion in the buffer -/

theorem same_session_refl (e : Editor) : SameSession e e :=
  ⟨rfl, rfl, rfl, rfl, rfl, rfl, rfl, rfl, rfl, rfl⟩

theorem take_strlen (str : List Char) : str.take (grub_strlen str) = cstr str := by
  unfold grub_strlen cstr
  induction str with
  | nil => rfl
  | cons c s ih =>
    by_cases hc : (c != NUL) = true
    · simp only [List.takeWhile_cons, hc, if_true, List.length_cons, List.take_succ_cons, ih]
    · simp [List.takeWhile_cons, hc]

/-- The buffer after the two `grub_memmove` calls of `cl_insert`. -/
theorem insert_buf (t rest s : List Char) (beyond : Nat → Char) (p : Nat)
    (hp : p ≤ t.length) (hs : s.length ≤ rest.length) :
    buf_write
        (buf_write (t ++ NUL :: rest) (p + s.length)
          (buf_read (t ++ NUL :: rest) beyond p (t.length - p + 1)))
        p s =
      (t.take p ++ s ++ t.drop p) ++ NUL :: rest.drop s.length := by
  have hread : buf_read (t ++ NUL :: rest) beyond p (t.length - p + 1) =
      t.drop p ++ [NUL] := by
    rw [buf_read_eq _ _ _ _ (by simp only [List.length_append, List.length_cons]; omega),
      List.drop_append_of_le_length hp, List.take_append_eq_append_take,
      List.take_of_length_le (by rw [List.length_drop]; omega)]
    simp only [List.length_drop]
    rw [show t.length - p + 1 - (t.length - p) = 1 by omega]
    rfl
  rw [hread]
  unfold buf_write
  have hlen1 : (List.take (p + s.length) (t ++ NUL :: rest)).length = p + s.length := by
    rw [List.length_take, List.length_append, List.length_cons]; omega
  have h1 : List.take p (List.take (p + s.length) (t ++ NUL :: rest) ++ (t.drop p ++ [NUL]) ++
      List.drop (p + s.length + (t.drop p ++ [NUL]).length) (t ++ NUL :: rest)) =
      t.take p := by
    rw [List.append_assoc, List.take_append_of_le_length (by rw [hlen1]; omega),
      List.take_take, min_eq_left (by omega), List.take_append_of_le_length hp]
  have h2 : List.drop (p + s.length)
      (List.take (p + s.length) (t ++ NUL :: rest) ++ (t.drop p ++ [NUL]) ++
      List.drop (p + s.length + (t.drop p ++ [NUL]).length) (t ++ NUL :: rest)) =
      (t.drop p ++ [NUL]) ++
      List.drop (p + s.length + (t.drop p ++ [NUL]).length) (t ++ NUL :: rest) := by
    rw [List.append_assoc, List.drop_append_of_le_length (by rw [hlen1])]
    rw [List.drop_of_length_le (by rw [hlen1]), List.nil_append]
  have h3 : List.drop (p + s.length + (t.drop p ++ [NUL]).length) (t ++ NUL :: rest) =
      rest.drop s.length := by
    have : p + s.length + (t.drop p ++ [NUL]).length = t.length + (1 + s.length) := by
      rw [List.length_append, List.length_drop, List.length_singleton]; omega
    rw [this, ← List.drop_drop, List.drop_left, ← List.drop_drop]
    rfl
  rw [h1, h2, h3]
  simp only [List.append_assoc, List.singleton_append]

theorem cl_insert_same_edit (env : Env) (e : Editor) (str : List Char)
    (hfit : grub_strlen str + e.llen < e.max_len) :
    SameEdit
      { e with
        buf := buf_write
          (buf_write e.buf (e.lpos + grub_strlen str)
            (buf_read e.buf e.beyond e.lpos (e.llen - e.lpos + 1)))
          e.lpos (str.take (grub_strlen str))
        llen := e.llen + grub_strlen str
        lpos := e.lpos + grub_strlen str }
      (cl_insert env e str) := by
  unfold cl_insert
  simp only [hfit, if_true]
  exact same_edit_trans (cl_print_same env _ _ _) (cl_set_pos_same _)

theorem cl_insert_ok (env : Env) (e : Editor) (str : List Char) (ok : BufferOK e)
    (hfit : grub_strlen str + e.llen < e.max_len) :
    BufferOK (cl_insert env e str) ∧
    (cl_insert env e str).text = e.text.take e.lpos ++ cstr str ++ e.text.drop e.lpos ∧
    (cl_insert env e str).llen = e.llen + grub_strlen str ∧
    (cl_insert env e str).lpos = e.lpos + grub_strlen str ∧
    SameSession e (cl_insert env e str) := by
  obtain ⟨rest, hbuf, htl, hnul, hml⟩ := buffer_split ok
  have hse := cl_insert_same_edit env e str hfit
  have hslen : (cstr str).length = grub_strlen str := rfl
  have hb : (cl_insert env e str).buf =
      (e.text.take e.lpos ++ cstr str ++ e.text.drop e.lpos) ++
        NUL :: rest.drop (cstr str).length := by
    rw [hse.buf_eq]
    simp only
    rw [take_strlen, hbuf, ← hslen, ← htl]
    exact insert_buf e.text rest (cstr str) e.beyond e.lpos (by rw [htl]; exact ok.lpos_le)
      (by rw [hslen]; omega)
  have hll : (cl_insert env e str).llen = e.llen + grub_strlen str := hse.llen_eq
  have hlp : (cl_insert env e str).lpos = e.lpos + grub_strlen str := hse.lpos_eq
  have hmx : (cl_insert env e str).max_len = e.max_len := hse.max_len_eq
  have hres := buffer_ok_of_split (cl_insert env e str) _ _ hb
    (by
      simp only [List.mem_append, not_or]
      exact ⟨⟨fun h => hnul (List.mem_of_mem_take h), cstr_nul_free str⟩,
        fun h => hnul (List.mem_of_mem_drop h)⟩)
    (by
      rw [hll, List.length_append, List.length_append, List.length_take, List.length_drop,
        hslen, htl]
      have := ok.lpos_le
      omega)
    (by rw [hll, hlp]; have := ok.lpos_le; omega)
    (by rw [hll, hmx, List.length_drop, hslen]; omega)
  refine ⟨hres.1, hres.2, hll, hlp, ?_⟩
  exact ⟨hse.prompt_eq, hse.max_len_eq, hse.echo_char_eq, hse.readline_eq, hse.plen_eq,
    hse.histpos_eq, hse.kill_buf_eq, hse.hist_eq, hse.grub_errno_eq, hse.beyond_eq⟩

theorem cl_insert_reject (env : Env) (e : Editor) (str : List Char)
    (hfull : ¬ (grub_strlen str + e.llen < e.max_len)) :
    cl_insert env e str = e := by
  unfold cl_insert
  simp only [hfull, if_false]

/-! ## Field by field: what the screen functions keep -/

@[simp] theorem cl_set_pos_prompt (e : Editor) : (cl_set_pos e).prompt = e.prompt :=
  rfl

@[simp] theorem cl_set_pos_max_len (e : Editor) : (cl_set_pos e).max_len = e.max_len :=
  rfl

@[simp] theorem cl_set_pos_echo_char (e : Editor) : (cl_set_pos e).echo_char = e.echo_char :=
  rfl

@[simp] theorem cl_set_pos_readline (e : Editor) : (cl_set_pos e).readline = e.readline :=
  rfl

@[simp] theorem cl_set_pos_lpos (e : Editor) : (cl_set_pos e).lpos = e.lpos :=
  rfl

@[simp] theorem cl_set_pos_llen (e : Editor) : (cl_set_pos e).llen = e.llen :=
  rfl

@[simp] theorem cl_set_pos_plen (e : Editor) : (cl_set_pos e).plen = e.plen :=
  rfl

@[simp] theorem cl_set_pos_buf (e : Editor) : (cl_set_pos e).buf = e.buf :=
  rfl

@[simp] theorem cl_set_pos_histpos (e : Editor) : (cl_set_pos e).histpos = e.histpos :=
  rfl

@[simp] theorem cl_set_pos_kill_buf (e : Editor) : (cl_set_pos e).kill_buf = e.kill_buf :=
  rfl

@[simp] theorem cl_set_pos_hist (e : Editor) : (cl_set_pos e).hist = e.hist :=
  rfl

@[simp] theorem cl_set_pos_grub_errno (e : Editor) : (cl_set_pos e).grub_errno = e.grub_errno :=
  rfl

@[simp] theorem cl_set_pos_beyond (e : Editor) : (cl_set_pos e).beyond = e.beyond :=
  rfl

@[simp] theorem cl_print_prompt (env : Env) (e : Editor) (pos : Nat) (c : Char) :
    (cl_print env e pos c).prompt = e.prompt :=
  (cl_print_same env e pos c).prompt_eq

@[simp] theorem cl_print_max_len (env : Env) (e : Editor) (pos : Nat) (c : Char) :
    (cl_print env e pos c).max_len = e.max_len :=
  (cl_print_same env e pos c).max_len_eq

@[simp] theorem cl_print_echo_char (env : Env) (e : Editor) (pos : Nat) (c : Char) :
    (cl_print env e pos c).echo_char = e.echo_char :=
  (cl_print_same env e pos c).echo_char_eq

@[simp] theorem cl_print_readline (env : Env) (e : Editor) (pos : Nat) (c : Char) :
    (cl_print env e pos c).readline = e.readline :=
  (cl_print_same env e pos c).readline_eq

@[simp] theorem cl_print_lpos (env : Env) (e : Editor) (pos : Nat) (c : Char) :
    (cl_print env e pos c).lpos = e.lpos :=
  (cl_print_same env e pos c).lpos_eq

@[simp] theorem cl_print_llen (env : Env) (e : Editor) (pos : Nat) (c : Char) :
    (cl_print env e pos c).llen = e.llen :=
  (cl_print_same env e pos c).llen_eq

@[simp] theorem cl_print_plen (env : Env) (e : Editor) (pos : Nat) (c : Char) :
    (cl_print env e pos c).plen = e.plen :=
  (cl_print_same env e pos c).plen_eq

@[simp] theorem cl_print_buf (env : Env) (e : Editor) (pos : Nat) (c : Char) :
    (cl_print env e pos c).buf = e.buf :=
  (cl_print_same env e pos c).buf_eq

@[simp] theorem cl_print_histpos (env : Env) (e : Editor) (pos : Nat) (c : Char) :
    (cl_print env e pos c).histpos = e.histpos :=
  (cl_print_same env e pos c).histpos_eq

@[simp] theorem cl_print_kill_buf (env : Env) (e : Editor) (pos : Nat) (c : Char) :
    (cl_print env e pos c).kill_buf = e.kill_buf :=
  (cl_print_same env e pos c).kill_buf_eq

@[simp] theorem cl_print_hist (env : Env) (e : Editor) (pos : Nat) (c : Char) :
    (cl_print env e pos c).hist = e.hist :=
  (cl_print_same env e pos c).hist_eq

@[simp] theorem cl_print_grub_errno (env : Env) (e : Editor) (pos : Nat) (c : Char) :
    (cl_print env e pos c).grub_errno = e.grub_errno :=
  (cl_print_same env e pos c).grub_errno_eq

@[simp] theorem cl_print_beyond (env : Env) (e : Editor) (pos : Nat) (c : Char) :
    (cl_print env e pos c).beyond = e.beyond :=
  (cl_print_same env e pos c).beyond_eq

/-- The buffer after the `grub_memmove` of `cl_delete`.  The call reads `len`
bytes more than the tail it moves; they land after the new terminator. -/
theorem delete_buf (t rest : List Char) (beyond : Nat → Char) (p len : Nat)
    (hp : p + len ≤ t.length) :
    ∃ junk : List Char, junk.length = len ∧
      buf_write (t ++ NUL :: rest) p
          (buf_read (t ++ NUL :: rest) beyond (p + len) (t.length - p + 1)) =
        (t.take p ++ t.drop (p + len)) ++ NUL :: (junk ++ rest) := by
  obtain ⟨junk, hjl, hread⟩ := buf_read_split (t ++ NUL :: rest) beyond (p + len)
    (t.length - p + 1) (t.length - p - len + 1) (by omega)
    (by simp only [List.length_append, List.length_cons]; omega)
  have htail : List.take (t.length - p - len + 1) (List.drop (p + len) (t ++ NUL :: rest)) =
      t.drop (p + len) ++ [NUL] := by
    rw [List.drop_append_of_le_length hp, List.take_append_eq_append_take,
      List.take_of_length_le (by rw [List.length_drop]; omega)]
    simp only [List.length_drop]
    rw [show t.length - p - len + 1 - (t.length - (p + len)) = 1 by omega]
    rfl
  rw [htail] at hread
  refine ⟨junk, by omega, ?_⟩
  rw [hread]
  unfold buf_write
  have hsl : (t.drop (p + len) ++ [NUL] ++ junk).length = t.length - p + 1 := by
    simp only [List.length_append, List.length_drop, List.length_singleton]; omega
  have hd : List.drop (t.length + 1) (t ++ NUL :: rest) = rest := by
    rw [← List.drop_drop, List.drop_left]
    rfl
  rw [hsl, List.take_append_of_le_length (by omega),
    show p + (t.length - p + 1) = t.length + 1 by omega, hd]
  simp only [List.append_assoc, List.singleton_append, List.cons_append, List.nil_append]

theorem cl_delete_fields (env : Env) (e : Editor) (len : Nat)
    (hfit : e.lpos + len ≤ e.llen) :
    (cl_delete env e len).buf = buf_write e.buf e.lpos
      (buf_read e.buf e.beyond (e.lpos + len) (e.llen - e.lpos + 1)) ∧
    (cl_delete env e len).llen = e.llen - len ∧
    (cl_delete env e len).lpos = e.lpos ∧
    SameSession e (cl_delete env e len) := by
  unfold cl_delete
  simp only [hfit, if_true]
  refine ⟨?_, ?_, ?_, ?_⟩
  · simp
  · simp
  · simp
  · constructor <;> simp

theorem cl_delete_ok (env : Env) (e : Editor) (len : Nat) (ok : BufferOK e)
    (hfit : e.lpos + len ≤ e.llen) :
    BufferOK (cl_delete env e len) ∧
    (cl_delete env e len).text = e.text.take e.lpos ++ e.text.drop (e.lpos + len) ∧
    (cl_delete env e len).llen = e.llen - len ∧
    (cl_delete env e len).lpos = e.lpos ∧
    SameSession e (cl_delete env e len) := by
  obtain ⟨rest, hbuf, htl, hnul, hml⟩ := buffer_split ok
  obtain ⟨hb, hll, hlp, hss⟩ := cl_delete_fields env e len hfit
  obtain ⟨junk, hjl, hdel⟩ := delete_buf e.text rest e.beyond e.lpos len
    (by rw [htl]; exact hfit)
  rw [hbuf, ← htl, hdel] at hb
  have hres := buffer_ok_of_split (cl_delete env e len) _ _ hb
    (by
      simp only [List.mem_append, not_or]
      exact ⟨fun h => hnul (List.mem_of_mem_take h), fun h => hnul (List.mem_of_mem_drop h)⟩)
    (by
      rw [hll, List.length_append, List.length_take, List.length_drop, htl]
      omega)
    (by rw [hll, hlp]; omega)
    (by rw [hll, hss.max_len_eq, List.length_append, hjl]; omega)
  exact ⟨hres.1, hres.2, hll, hlp, hss⟩

theorem cl_delete_reject (env : Env) (e : Editor) (len : Nat)
    (hfull : ¬ (e.lpos + len ≤ e.llen)) :
    cl_delete env e len = e := by
  unfold cl_delete
  simp only [hfull, if_false]

theorem editor_hello_ok (lpos : Nat) (kill : Option (List Char)) (h : lpos ≤ 5) :
    BufferOK (editor_hello lpos kill) :=
  ⟨rfl, by show 5 < 8; omega, h,
    by show grub_strlen ['h', 'e', 'l', 'l', 'o', NUL, 'x', 'x'] = 5; decide⟩

/-- C6. On a well-formed buffer with text `b` and cursor `p`, `cl_insert`
called with a pointer `str` to the string `s = cstr str` either inserts the
whole string at the cursor, when `|b| + |s| <= max_len - 1` (the text becomes
`b[0..p) ++ s ++ b[p..)`, the length grows by `|s|`, the cursor moves to
`p + |s|`, the buffer stays well formed), or changes nothing at all. -/
theorem cl_insert_whole_or_nothing (env : Env) (e : Editor) (str : List Char)
    (ok : BufferOK e) :
    (e.text.length + grub_strlen str ≤ e.max_len - 1 →
      (cl_insert env e str).text = e.text.take e.lpos ++ cstr str ++ e.text.drop e.lpos ∧
      (cl_insert env e str).llen = e.llen + grub_strlen str ∧
      (cl_insert env e str).lpos = e.lpos + grub_strlen str ∧
      BufferOK (cl_insert env e str)) ∧
    (¬ (e.text.length + grub_strlen str ≤ e.max_len - 1) → cl_insert env e str = e) := by
  have htl : e.text.length = e.llen := ok.strlen_eq
  have hlt := ok.llen_lt
  constructor
  · intro hfit
    obtain ⟨h1, h2, h3, h4, _⟩ := cl_insert_ok env e str ok (by omega)
    exact ⟨h2, h3, h4, h1⟩
  · intro hfull
    exact cl_insert_reject env e str (by omega)

/-- Inserting "ab" into "hello" at offset 2 of an 8-byte buffer. -/
theorem cl_insert_whole_or_nothing_witness :
    BufferOK (editor_hello 2 none) ∧
    (editor_hello 2 none).text.length + grub_strlen ['a', 'b'] ≤
      (editor_hello 2 none).max_len - 1 ∧
    (cl_insert env_plain (editor_hello 2 none) ['a', 'b']).text =
      (editor_hello 2 none).text.take (editor_hello 2 none).lpos ++ cstr ['a', 'b'] ++
        (editor_hello 2 none).text.drop (editor_hello 2 none).lpos ∧
    (cl_insert env_plain (editor_hello 2 none) ['a', 'b']).llen =
      (editor_hello 2 none).llen + grub_strlen ['a', 'b'] ∧
    (cl_insert env_plain (editor_hello 2 none) ['a', 'b']).lpos =
      (editor_hello 2 none).lpos + grub_strlen ['a', 'b'] ∧
    BufferOK (cl_insert env_plain (editor_hello 2 none) ['a', 'b']) :=
  ⟨editor_hello_ok 2 none (by decide), by decide,
    (cl_insert_whole_or_nothing env_plain (editor_hello 2 none) ['a', 'b']
      (editor_hello_ok 2 none (by decide))).1 (by decide)⟩

/-- C7. On a well-formed buffer, inserting a string that fits with
`cl_insert`, moving the cursor back to where it was (`lpos = p` and
`cl_set_pos`) and deleting as many bytes as were inserted with `cl_delete`
gives back the text, the length and the cursor. -/
theorem insert_delete_round_trip (env : Env) (e : Editor) (str : List Char)
    (ok : BufferOK e) (hfit : e.text.length + grub_strlen str ≤ e.max_len - 1) :
    (cl_delete env (cl_set_pos { cl_insert env e str with lpos := e.lpos })
        (grub_strlen str)).text = e.text ∧
    (cl_delete env (cl_set_pos { cl_insert env e str with lpos := e.lpos })
        (grub_strlen str)).llen = e.llen ∧
    (cl_delete env (cl_set_pos { cl_insert env e str with lpos := e.lpos })
        (grub_strlen str)).lpos = e.lpos ∧
    BufferOK (cl_delete env (cl_set_pos { cl_insert env e str with lpos := e.lpos })
        (grub_strlen str)) := by
  have htl : e.text.length = e.llen := ok.strlen_eq
  have hlt := ok.llen_lt
  have hp := ok.lpos_le
  obtain ⟨ok1, ht1, hl1, _, hs1⟩ := cl_insert_ok env e str ok (by omega)
  obtain ⟨e2, he2⟩ : ∃ e2, e2 = cl_set_pos { cl_insert env e str with lpos := e.lpos } :=
    ⟨_, rfl⟩
  rw [← he2]
  have ht2 : e2.text = (cl_insert env e str).text := by rw [he2]; rfl
  have hl2 : e2.llen = (cl_insert env e str).llen := by rw [he2]; rfl
  have hp2 : e2.lpos = e.lpos := by rw [he2]; rfl
  have ok2 : BufferOK e2 := by
    rw [he2]
    exact ⟨ok1.length_eq, ok1.llen_lt, by show e.lpos ≤ (cl_insert env e str).llen; omega,
      ok1.strlen_eq⟩
  obtain ⟨ok3, ht3, hl3, hp3, _⟩ := cl_delete_ok env e2 (grub_strlen str) ok2
    (by rw [hp2, hl2, hl1]; omega)
  refine ⟨?_, by rw [hl3, hl2, hl1]; omega, by rw [hp3, hp2], ok3⟩
  rw [ht3, ht2, ht1, hp2]
  have hlen : (e.text.take e.lpos).length = e.lpos := by
    rw [List.length_take, htl]; omega
  have hslen : (cstr str).length = grub_strlen str := rfl
  rw [List.append_assoc, List.take_append_of_le_length (by rw [hlen]),
    List.take_of_length_le (by rw [hlen]),
    List.drop_append_eq_append_drop,
    List.drop_of_length_le (by rw [hlen]; omega), List.nil_append,
    show e.lpos + grub_strlen str - (e.text.take e.lpos).length = (cstr str).length by
      rw [hlen, hslen]; omega,
    List.drop_left, List.take_append_drop]

/-- The round trip of "ab" inserted into "hello" at offset 2. -/
theorem insert_delete_round_trip_witness :
    BufferOK (editor_hello 2 none) ∧
    (editor_hello 2 none).text.length + grub_strlen ['a', 'b'] ≤
      (editor_hello 2 none).max_len - 1 ∧
    (cl_delete env_plain
        (cl_set_pos { cl_insert env_plain (editor_hello 2 none) ['a', 'b'] with
          lpos := (editor_hello 2 none).lpos })
        (grub_strlen ['a', 'b'])).text = (editor_hello 2 none).text ∧
    (cl_delete env_plain
        (cl_set_pos { cl_insert env_plain (editor_hello 2 none) ['a', 'b'] with
          lpos := (editor_hello 2 none).lpos })
        (grub_strlen ['a', 'b'])).llen = (editor_hello 2 none).llen ∧
    (cl_delete env_plain
        (cl_set_pos { cl_insert env_plain (editor_hello 2 none) ['a', 'b'] with
          lpos := (editor_hello 2 none).lpos })
        (grub_strlen ['a', 'b'])).lpos = (editor_hello 2 none).lpos ∧
    BufferOK (cl_delete env_plain
        (cl_set_pos { cl_insert env_plain (editor_hello 2 none) ['a', 'b'] with
          lpos := (editor_hello 2 none).lpos })
        (grub_strlen ['a', 'b'])) :=
  ⟨editor_hello_ok 2 none (by decide), by decide,
    insert_delete_round_trip env_plain (editor_hello 2 none) ['a', 'b']
      (editor_hello_ok 2 none (by decide)) (by decide)⟩

/-! ## `grub_tab_complete` always returns -/

theorem sane_start (pos : List Char) (b e : Int) (errno : Nat) (out : List TermOp) :
    Sane pos { found := none, begin := b, end_ := e, numfound := 0, matchstr := none,
               grub_errno := errno, out := out } :=
  ⟨b, e, [], ⟨rfl, rfl, rfl, rfl, rfl⟩, fun _ h => absurd h (List.not_mem_nil _)⟩

theorem sane_errno {pos : List Char} {st : Completion} (h : Sane pos st) (errno : Nat) :
    Sane pos { st with grub_errno := errno } := by
  obtain ⟨b, e, m, hs, hm⟩ := h
  refine ⟨b, e, m, ?_, hm⟩
  cases m with
  | nil => exact hs
  | cons c rest => exact hs

theorem sane_add {pos : List Char} {st : Completion} (h : Sane pos st)
    (comp mtch what : List Char) (pr : Printer) :
    ∃ st1, add_completion pos (grub_strlen pos) st comp mtch what pr = some st1 ∧
      Sane pos st1 := by
  obtain ⟨b, e, m, hs, hm⟩ := h
  by_cases hc : cstr pos <+: cstr comp
  · have hstep : ∃ st1, add_candidate pos (grub_strlen pos) st ⟨comp, mtch, what, pr⟩ =
        some st1 ∧ Streamed pos b e (m ++ [⟨comp, mtch, what, pr⟩]) st1 := by
      cases m with
      | nil => exact add_candidate_first pos b e st ⟨comp, mtch, what, pr⟩ hc hs
      | cons c0 rest => exact add_candidate_next pos b e st c0 rest ⟨comp, mtch, what, pr⟩ hc hs
    obtain ⟨st1, h1, hs1⟩ := hstep
    refine ⟨st1, h1, b, e, _, hs1, ?_⟩
    intro c hmem
    rw [List.mem_append, List.mem_singleton] at hmem
    rcases hmem with hmem | hmem
    · exact hm c hmem
    · subst hmem
      exact hc
  · exact ⟨st, add_candidate_no_match pos st ⟨comp, mtch, what, pr⟩ hc, b, e, m, hs, hm⟩

theorem sane_iterate {α : Type} (pos : List Char) (hook : Completion → α → Option Completion)
    (hh : ∀ st x, Sane pos st → ∃ st1, hook st x = some st1 ∧ Sane pos st1)
    (items : List α) :
    ∀ st, Sane pos st → ∃ st1, iterate hook st items = some st1 ∧ Sane pos st1 := by
  induction items with
  | nil => exact fun st hs => ⟨st, rfl, hs⟩
  | cons x items ih =>
    intro st hs
    obtain ⟨st1, h1, hs1⟩ := hh st x hs
    obtain ⟨st2, h2, hs2⟩ := ih st1 hs1
    exact ⟨st2, by simp only [iterate, h1]; exact h2, hs2⟩

theorem sane_finish {pos : List Char} {st : Completion} (h : Sane pos st) :
    ∃ r, tab_finish st = some r := by
  obtain ⟨b, e, m, hs, hm⟩ := h
  cases m with
  | nil =>
    obtain ⟨_, hf, _⟩ := hs
    unfold tab_finish
    simp only [hf]
    exact ⟨_, rfl⟩
  | cons c rest =>
    obtain ⟨hn, hf, hb, hms, he0, he1, hlc⟩ := hs
    have htok : cstr pos <+: (cstr c.comp).take st.end_.toNat := hlc.2 _ hm
    rw [List.prefix_take_iff] at htok
    have h1 : grub_strlen pos ≤ (cstr c.comp).length := htok.1.length_le
    have h2 : grub_strlen pos ≤ st.end_.toNat := htok.2
    have hbd : 0 ≤ (grub_strlen pos : Int) ∧
        (grub_strlen pos : Int) ≤ ((cstr c.comp).length : Int) ∧
        (grub_strlen pos : Int) ≤ st.end_ := by omega
    unfold tab_finish
    simp only [hf, hb, hms]
    by_cases hz : st.end_ = 0
    · simp only [hz, ne_eq, not_true_eq_false, if_false]
      exact ⟨_, rfl⟩
    · simp only [hz, ne_eq, not_false_eq_true, if_true, hbd, and_self]
      by_cases h1 : st.numfound = 1
      · simp only [h1, if_true]
        exact ⟨_, rfl⟩
      · simp only [h1, if_false]
        exact ⟨_, rfl⟩

theorem strchr_some {s p : List Char} {c : Char} (h : grub_strchr s c = some p) :
    ∃ rest, p = c :: rest ∧ c ≠ NUL := by
  induction s with
  | nil => simp [grub_strchr] at h
  | cons x s ih =>
    unfold grub_strchr at h
    by_cases hx : x = NUL
    · simp [hx] at h
    · rw [if_neg hx] at h
      by_cases hc : x = c
      · rw [if_pos hc] at h
        simp only [Option.some.injEq] at h
        subst hc
        exact ⟨s, h.symm, hx⟩
      · rw [if_neg hc] at h
        exact ih h

theorem strrchr_head (c : Char) (s : List Char) (hc : c ≠ NUL) :
    grub_strrchr (c :: s) c ≠ none := by
  unfold grub_strrchr
  rw [if_neg hc]
  cases grub_strrchr s c with
  | none => simp
  | some p => simp

theorem tab_finish_root (errno : Nat) (out : List TermOp) :
    ∃ r, tab_finish { found := some (grub_strdup "/".toList), begin := 0, end_ := 1,
                      numfound := 1, matchstr := some [], grub_errno := errno,
                      out := out } = some r := by
  have h : grub_strdup "/".toList = ['/'] := by decide
  rw [h]
  simp [tab_finish]

theorem tab_complete_returns (env : Env) (henv : EnvOK env) (buf : List Char) (errno : Nat) :
    ∃ r, grub_tab_complete env buf errno = some r := by
  unfold grub_tab_complete
  simp only
  cases hpath : grub_strchr (skip_spaces buf) ' ' with
  | none =>
    simp only
    obtain ⟨st1, h1, hs1⟩ := sane_iterate (skip_spaces buf)
      (iterate_commands (skip_spaces buf) (grub_strlen (skip_spaces buf)))
      (by
        intro st cmd hs
        unfold iterate_commands
        by_cases hf : cmd.flag_cmdline = true
        · rw [if_pos hf]
          exact sane_add hs _ _ _ _
        · rw [if_neg hf]
          exact ⟨st, rfl, hs⟩)
      env.grub_iterate_commands _
      (sane_start (skip_spaces buf) env.uninit_begin env.uninit_end errno [])
    rw [h1]
    exact sane_finish hs1
  | some path =>
    simp only
    by_cases hdev : deref (skip_spaces path) = '(' ∧ grub_strchr (skip_spaces path) ')' = none
    · rw [if_pos hdev]
      cases hpart : grub_strchr (skip_spaces path).tail ',' with
      | none =>
        simp only
        obtain ⟨st1, h1, hs1⟩ := sane_iterate (skip_spaces path).tail
          (iterate_dev env (skip_spaces path).tail (grub_strlen (skip_spaces path).tail))
          (by
            intro st devname hs
            unfold iterate_dev
            simp only
            cases (env.grub_device_open (some devname) st.grub_errno).1 with
            | none =>
              simp only
              exact ⟨_, rfl, sane_errno (sane_errno hs _) 0⟩
            | some dev =>
              simp only
              split_ifs
              · obtain ⟨st2, h2, hs2⟩ := sane_add (sane_errno hs
                  (env.grub_device_open (some devname) st.grub_errno).2)
                  devname ",".toList "disks".toList Printer.simple
                rw [h2]
                exact ⟨_, rfl, sane_errno hs2 0⟩
              · obtain ⟨st2, h2, hs2⟩ := sane_add (sane_errno hs
                  (env.grub_device_open (some devname) st.grub_errno).2)
                  devname ")".toList "disks".toList Printer.simple
                rw [h2]
                exact ⟨_, rfl, sane_errno hs2 0⟩)
          env.grub_disk_dev_iterate _
          (sane_start (skip_spaces path).tail env.uninit_begin env.uninit_end errno [])
        rw [h1]
        simp only
        split_ifs
        · exact ⟨_, rfl⟩
        · exact sane_finish hs1
      | some partition =>
        simp only
        cases (env.grub_device_open
            (some (cut_before (skip_spaces path).tail partition)) errno).1 with
        | none => exact ⟨_, rfl⟩
        | some partdev =>
          simp only
          cases partdev.disk with
          | none =>
            exact sane_finish (sane_start partition.tail env.uninit_begin env.uninit_end 0 [])
          | some disk =>
            simp only
            split_ifs
            · obtain ⟨st1, h1, hs1⟩ := sane_iterate partition.tail
                (iterate_part partition.tail (grub_strlen partition.tail))
                (fun st name hs => sane_add hs _ _ _ _)
                disk.partitions _
                (sane_start partition.tail env.uninit_begin env.uninit_end 0 [])
              rw [h1]
              exact sane_finish (sane_errno hs1 0)
            · exact sane_finish
                (sane_start partition.tail env.uninit_begin env.uninit_end 0 [])
    · rw [if_neg hdev]
      cases hopen : (env.grub_device_open
          (env.grub_file_get_device_name (skip_spaces path) errno).1
          (env.grub_file_get_device_name (skip_spaces path) errno).2).1 with
      | none => exact ⟨_, rfl⟩
      | some dev =>
        simp only
        by_cases herr : (env.grub_fs_probe dev (env.grub_device_open
            (env.grub_file_get_device_name (skip_spaces path) errno).1
            (env.grub_file_get_device_name (skip_spaces path) errno).2).2).2 ≠ 0
        · rw [if_pos herr]
          exact ⟨_, rfl⟩
        · rw [if_neg herr]
          cases hslash : grub_strrchr (skip_spaces path) '/' with
          | none =>
            simp only
            exact tab_finish_root _ _
          | some slash =>
            simp only
            cases hdir : grub_strchr path '/' with
            | none => exact ⟨_, rfl⟩
            | some dir =>
              simp only
              obtain ⟨drest, hd, hne⟩ := strchr_some hdir
              have hcd : grub_strdup dir = '/' :: cstr drest := by
                rw [hd]
                exact cstr_cons_ne '/' drest hne
              cases hdf : grub_strrchr (grub_strdup dir) '/' with
              | none =>
                rw [hcd] at hdf
                exact absurd hdf (strrchr_head '/' _ hne)
              | some dirfile =>
                simp only
                cases hfs : (env.grub_fs_probe dev (env.grub_device_open
                    (env.grub_file_get_device_name (skip_spaces path) errno).1
                    (env.grub_file_get_device_name (skip_spaces path) errno).2).2).1 with
                | none => exact absurd (henv _ _ hfs) herr
                | some fs =>
                  simp only
                  obtain ⟨st1, h1, hs1⟩ := sane_iterate slash.tail
                    (iterate_dir slash.tail (grub_strlen slash.tail))
                    (by
                      intro st entry hs
                      unfold iterate_dir
                      split_ifs
                      · exact sane_add hs _ _ _ _
                      · exact sane_add hs _ _ _ _)
                    (fs.dir dev (cut_before (grub_strdup dir) dirfile.tail)
                      (env.grub_fs_probe dev (env.grub_device_open
                        (env.grub_file_get_device_name (skip_spaces path) errno).1
                        (env.grub_file_get_device_name (skip_spaces path) errno).2).2).2).1 _
                    (sane_start slash.tail env.uninit_begin env.uninit_end _ [])
                  rw [h1]
                  simp only
                  split_ifs
                  · exact ⟨_, rfl⟩
                  · exact sane_finish (sane_errno hs1 _)

/-! ## Single keys -/

theorem cl_insert_keeps (env : Env) (e : Editor) (str : List Char) (ok : BufferOK e) :
    BufferOK (cl_insert env e str) ∧ SameSession e (cl_insert env e str) := by
  by_cases hfit : grub_strlen str + e.llen < e.max_len
  · obtain ⟨h1, _, _, _, h5⟩ := cl_insert_ok env e str ok hfit
    exact ⟨h1, h5⟩
  · rw [cl_insert_reject env e str hfit]
    exact ⟨ok, same_session_refl e⟩

theorem cl_delete_keeps (env : Env) (e : Editor) (len : Nat) (ok : BufferOK e) :
    BufferOK (cl_delete env e len) ∧ SameSession e (cl_delete env e len) := by
  by_cases hfit : e.lpos + len ≤ e.llen
  · obtain ⟨h1, _, _, _, h5⟩ := cl_delete_ok env e len ok hfit
    exact ⟨h1, h5⟩
  · rw [cl_delete_reject env e len hfit]
    exact ⟨ok, same_session_refl e⟩

theorem buf_read_start {e : Editor} (ok : BufferOK e) (n : Nat) (hn : n ≤ e.llen) :
    buf_read e.buf e.beyond 0 n = e.text.take n := by
  obtain ⟨rest, hbuf, htl, _, _⟩ := buffer_split ok
  rw [buf_read_eq _ _ _ _ (by rw [ok.length_eq]; have := ok.llen_lt; omega), List.drop_zero,
    hbuf, List.take_append_of_le_length (by omega)]

theorem common_key_control (env : Env) (e : Editor) (key : Nat) (h27 : key ≠ 27)
    (h8 : key ≠ 8) (h4 : key ≠ 4) (hp : key < 32) :
    common_key env e key = Step.next e := by
  unfold common_key
  have : grub_isprint key = false := by
    unfold grub_isprint
    simp only [Bool.and_eq_false_imp, decide_eq_true_eq, decide_eq_false_iff_not]
    omega
  simp [h27, h8, h4, this]

theorem process_key_yank (env : Env) (e : Editor) (hr : e.readline = true) :
    process_key env e 25 = some (Step.next
      (match e.kill_buf with
      | some kill => cl_insert env e kill
      | none => e)) := by
  unfold process_key readline_key
  simp only [hr, if_true]
  cases e.kill_buf with
  | none => simp [common_key_control]
  | some kill => simp [common_key_control]

theorem process_key_kill_to_start (env : Env) (e : Editor) (hr : e.readline = true) :
    process_key env e 21 = some (Step.next
      (if e.lpos > 0 then
        cl_delete env
          (cl_set_pos { e with
            kill_buf :=
              if env.grub_malloc (e.lpos + 1) then some (buf_read e.buf e.beyond 0 e.lpos ++ [NUL])
              else none
            grub_errno := 0, lpos := 0 }) e.lpos
      else e)) := by
  unfold process_key readline_key
  simp only [hr, if_true]
  by_cases h : e.lpos > 0
  · simp [h, common_key_control]
  · simp [h, common_key_control]

theorem process_key_plain (env : Env) (e : Editor) (key : Nat) (hr : e.readline = false)
    (h27 : key ≠ 27) (h8 : key ≠ 8) (h4 : key ≠ 4) (hp : key < 32) :
    process_key env e key = some (Step.next e) := by
  unfold process_key
  simp [hr, common_key_control env e key h27 h8 h4 hp]

/-! ## Kill and yank -/

theorem kill_to_start_state (env : Env) (e : Editor) (ok : BufferOK e)
    (kill : Option (List Char)) :
    BufferOK (cl_delete env
      (cl_set_pos { e with kill_buf := kill, grub_errno := 0, lpos := 0 }) e.lpos) ∧
    (cl_delete env
      (cl_set_pos { e with kill_buf := kill, grub_errno := 0, lpos := 0 }) e.lpos).text =
        e.text.drop e.lpos ∧
    (cl_delete env
      (cl_set_pos { e with kill_buf := kill, grub_errno := 0, lpos := 0 }) e.lpos).lpos = 0 ∧
    (cl_delete env
      (cl_set_pos { e with kill_buf := kill, grub_errno := 0, lpos := 0 }) e.lpos).llen =
        e.llen - e.lpos ∧
    (cl_delete env
      (cl_set_pos { e with kill_buf := kill, grub_errno := 0, lpos := 0 }) e.lpos).kill_buf =
        kill ∧
    (cl_delete env
      (cl_set_pos { e with kill_buf := kill, grub_errno := 0, lpos := 0 }) e.lpos).readline =
        e.readline ∧
    (cl_delete env
      (cl_set_pos { e with kill_buf := kill, grub_errno := 0, lpos := 0 }) e.lpos).max_len =
        e.max_len := by
  have hpl := ok.lpos_le
  obtain ⟨e0, he0⟩ : ∃ e0 : Editor, e0 = cl_set_pos
      { e with kill_buf := kill, grub_errno := 0, lpos := 0 } := ⟨_, rfl⟩
  have ok0 : BufferOK e0 := by
    rw [he0]; exact ⟨ok.length_eq, ok.llen_lt, Nat.zero_le _, ok.strlen_eq⟩
  have ht0 : e0.text = e.text := by rw [he0]; rfl
  have hl0 : e0.llen = e.llen := by rw [he0]; rfl
  have hp0 : e0.lpos = 0 := by rw [he0]; rfl
  have hm0 : e0.max_len = e.max_len := by rw [he0]; rfl
  have hk0 : e0.kill_buf = kill := by rw [he0]; rfl
  have hr0 : e0.readline = e.readline := by rw [he0]; rfl
  rw [← he0]
  obtain ⟨ok1, ht1, hl1, hp1, hs1⟩ := cl_delete_ok env e0 e.lpos ok0
    (by rw [hl0, hp0]; omega)
  refine ⟨ok1, ?_, by rw [hp1, hp0], by rw [hl1, hl0], by rw [hs1.kill_buf_eq, hk0],
    by rw [hs1.readline_eq, hr0], by rw [hs1.max_len_eq, hm0]⟩
  rw [ht1, hp0, ht0, List.take_zero, List.nil_append, Nat.zero_add]

/-- C9. With the readline key bindings in force (`readline` set, as the
first `switch` of the loop requires) and the cursor at `p > 0`: when the
`grub_malloc` of line 684 returns a block, Ctrl-u leaves the text `b[p..)`
with the cursor at 0 and `b[0..p)` in the kill buffer, and Ctrl-y then gives
back the text `b` with the cursor at `p`; when it returns a null pointer,
Ctrl-u leaves the text `b[p..)` with the cursor at 0 and a null kill buffer,
and Ctrl-y changes nothing. -/
theorem kill_to_start_then_yank (env : Env) (e : Editor) (ok : BufferOK e)
    (hr : e.readline = true) (hp : 0 < e.lpos) :
    (env.grub_malloc (e.lpos + 1) = true →
      ∃ e1 e2, process_key env e 21 = some (Step.next e1) ∧
        e1.text = e.text.drop e.lpos ∧ e1.lpos = 0 ∧
        e1.kill_buf.map cstr = some (e.text.take e.lpos) ∧
        process_key env e1 25 = some (Step.next e2) ∧
        e2.text = e.text ∧ e2.lpos = e.lpos ∧ e2.llen = e.llen ∧ BufferOK e2) ∧
    (env.grub_malloc (e.lpos + 1) = false →
      ∃ e1, process_key env e 21 = some (Step.next e1) ∧
        e1.text = e.text.drop e.lpos ∧ e1.lpos = 0 ∧ e1.kill_buf = none ∧
        process_key env e1 25 = some (Step.next e1)) := by
  have htl : e.text.length = e.llen := ok.strlen_eq
  have hlt := ok.llen_lt
  have hpl := ok.lpos_le
  constructor
  · intro hmem
    obtain ⟨ok1, ht1, hp1, hl1, hk1, hr1, hm1⟩ :=
      kill_to_start_state env e ok (some (buf_read e.buf e.beyond 0 e.lpos ++ [NUL]))
    obtain ⟨e1, he1⟩ : ∃ e1 : Editor, e1 = cl_delete env (cl_set_pos
        { e with kill_buf := some (buf_read e.buf e.beyond 0 e.lpos ++ [NUL]),
                 grub_errno := 0, lpos := 0 }) e.lpos := ⟨_, rfl⟩
    rw [← he1] at ok1 ht1 hp1 hl1 hk1 hr1 hm1
    rw [buf_read_start ok e.lpos hpl] at hk1
    have hnf : NUL ∉ e.text.take e.lpos :=
      fun h => cstr_nul_free e.buf (List.mem_of_mem_take h)
    have hck : cstr (e.text.take e.lpos ++ [NUL]) = e.text.take e.lpos :=
      cstr_append_nul _ [] hnf
    have hslen : grub_strlen (e.text.take e.lpos ++ [NUL]) = e.lpos := by
      rw [grub_strlen, hck, List.length_take, htl]; omega
    obtain ⟨ok2, ht2, hl2, hp2, _⟩ := cl_insert_ok env e1 (e.text.take e.lpos ++ [NUL]) ok1
      (by rw [hslen, hm1, hl1]; omega)
    refine ⟨e1, cl_insert env e1 (e.text.take e.lpos ++ [NUL]),
      ?_, ht1, hp1, ?_, ?_, ?_, ?_, ?_, ok2⟩
    · rw [process_key_kill_to_start env e hr, if_pos hp, hmem, if_pos rfl, he1]
    · rw [hk1, Option.map_some', hck]
    · rw [process_key_yank env _ (hr1.trans hr), hk1]
    · rw [ht2, hp1, ht1, hck, List.take_zero, List.nil_append, List.drop_zero,
        List.take_append_drop]
    · rw [hp2, hp1, hslen]; omega
    · rw [hl2, hl1, hslen]; omega
  · intro hmem
    obtain ⟨ok1, ht1, hp1, hl1, hk1, hr1, hm1⟩ := kill_to_start_state env e ok none
    refine ⟨_, ?_, ht1, hp1, hk1, ?_⟩
    · rw [process_key_kill_to_start env e hr, if_pos hp, hmem]
      rfl
    · rw [process_key_yank env _ (hr1.trans hr), hk1]

/-- The published scenario of C9: "hello" with the cursor at offset 5. -/
theorem kill_to_start_then_yank_witness :
    BufferOK (editor_hello 5 none) ∧ (editor_hello 5 none).readline = true ∧
    0 < (editor_hello 5 none).lpos ∧
    env_plain.grub_malloc ((editor_hello 5 none).lpos + 1) = true ∧
    (∃ e1 e2, process_key env_plain (editor_hello 5 none) 21 = some (Step.next e1) ∧
      e1.text = (editor_hello 5 none).text.drop (editor_hello 5 none).lpos ∧ e1.lpos = 0 ∧
      e1.kill_buf.map cstr =
        some ((editor_hello 5 none).text.take (editor_hello 5 none).lpos) ∧
      process_key env_plain e1 25 = some (Step.next e2) ∧
      e2.text = (editor_hello 5 none).text ∧ e2.lpos = (editor_hello 5 none).lpos ∧
      e2.llen = (editor_hello 5 none).llen ∧ BufferOK e2) ∧
    Option.map (fun o => (o.editor.text, o.editor.lpos))
        (key_loop env_plain (editor_hello 5 none) [21, 25]) =
      some ("hello".toList, 5) :=
  ⟨editor_hello_ok 5 none (by decide), rfl, by decide, rfl,
    (kill_to_start_then_yank env_plain (editor_hello 5 none)
      (editor_hello_ok 5 none (by decide)) rfl (by decide)).1 rfl,
    by decide⟩

/-- C9, counterexample. When the `grub_malloc` of line 684 returns a null
pointer, Ctrl-u on "hello" with the cursor at offset 5 empties the line and
leaves the kill buffer null, and Ctrl-y gives nothing back: the text stays
empty with the cursor at 0, also inside a whole call of `grub_cmdline_get`. -/
theorem kill_to_start_then_yank_counterexample :
    ((editor_hello 5 none).text, (editor_hello 5 none).lpos) = ("hello".toList, 5) ∧
    Option.map (fun o => (o.editor.text, o.editor.lpos, o.editor.kill_buf))
        (key_loop { env_plain with grub_malloc := fun _ => false } (editor_hello 5 none)
          [21]) = some ([], 0, none) ∧
    Option.map (fun o => (o.editor.text, o.editor.lpos, o.editor.kill_buf))
        (key_loop { env_plain with grub_malloc := fun _ => false } (editor_hello 5 none)
          [21, 25]) = some ([], 0, none) ∧
    Option.map (fun o => (o.editor.text, o.editor.lpos))
        (grub_cmdline_get { env_plain with grub_malloc := fun _ => false } "grub> ".toList
          "hello".toList 8 NUL true hist_wrapped none 0 (fun _ => 'z') [21, 25]) =
      some ([], 0) := by
  refine ⟨by decide, by decide, by decide, by decide⟩

/-! ## The enumerations as candidate streams -/

theorem iterate_commands_eq (pos : List Char) (len : Nat) (cmds : List Command) :
    ∀ st : Completion,
      iterate (iterate_commands pos len) st cmds =
        iterate (add_candidate pos len) st
          ((cmds.filter (fun c => c.flag_cmdline)).map
            (fun c => ⟨c.name, " ".toList, "commands".toList, Printer.simple⟩)) := by
  induction cmds with
  | nil => exact fun _ => rfl
  | cons c cmds ih =>
    intro st
    by_cases hf : c.flag_cmdline = true
    · simp only [List.filter_cons, hf, if_true, List.map_cons, iterate, iterate_commands,
        add_candidate]
      cases add_completion pos len st c.name " ".toList "commands".toList Printer.simple with
      | none => rfl
      | some st1 => exact ih st1
    · simp only [List.filter_cons, hf, iterate, iterate_commands]
      exact ih st

theorem iterate_part_eq (pos : List Char) (len : Nat) (disk : Disk) :
    ∀ st : Completion,
      iterate (iterate_part pos len) st disk.partitions =
        iterate (add_candidate pos len) st (partition_candidates disk) := by
  unfold partition_candidates
  induction disk.partitions with
  | nil => exact fun _ => rfl
  | cons name names ih =>
    intro st
    simp only [List.map_cons, iterate, iterate_part, add_candidate]
    cases add_completion pos len st name ")".toList "partitions".toList Printer.partition with
    | none => rfl
    | some st1 => exact ih st1

theorem iterate_dir_eq (pos : List Char) (len : Nat) (entries : List (List Char × Bool)) :
    ∀ st : Completion,
      iterate (iterate_dir pos len) st entries =
        iterate (add_candidate pos len) st (file_candidates entries) := by
  unfold file_candidates
  induction entries with
  | nil => exact fun _ => rfl
  | cons entry entries ih =>
    intro st
    have h1 : iterate_dir pos len st entry =
        add_candidate pos len st
          (if ¬ entry.2 then ⟨entry.1, " ".toList, "files".toList, Printer.simple⟩
           else ⟨cstr entry.1 ++ ['/'], [], "files".toList, Printer.simple⟩) := by
      unfold iterate_dir add_candidate
      split_ifs <;> rfl
    simp only [List.map_cons, iterate, h1]
    cases add_candidate pos len st
        (if ¬ entry.2 then ⟨entry.1, " ".toList, "files".toList, Printer.simple⟩
         else ⟨cstr entry.1 ++ ['/'], [], "files".toList, Printer.simple⟩) with
    | none => rfl
    | some st1 => exact ih st1

/-- On a line without a second word, `grub_tab_complete` is the completion of
the word against the command table. -/
theorem tab_complete_command (env : Env) (buf : List Char) (errno : Nat)
    (h : grub_strchr (skip_spaces buf) ' ' = none) :
    grub_tab_complete env buf errno =
      complete_candidates (skip_spaces buf)
        (completion_start env.uninit_begin env.uninit_end errno) (command_candidates env) := by
  unfold grub_tab_complete complete_candidates command_candidates completion_start
  simp only [h]
  rw [iterate_commands_eq]

/-! ## The TAB key -/

theorem set_same {α : Type} (l : List α) (n : Nat) (a : α) (h : l[n]? = some a) :
    l.set n a = l := by
  apply List.ext_getElem?
  intro i
  rw [List.getElem?_set]
  by_cases hi : n = i
  · subst hi
    obtain ⟨hl, _⟩ := List.getElem?_eq_some.mp h
    rw [if_pos rfl, if_pos hl, h]
  · rw [if_neg hi]

theorem key_tab_spec (env : Env) (e : Editor) (r : TabResult) (backup : Char)
    (hb : e.buf[e.lpos]? = some backup)
    (hr : grub_tab_complete env (e.buf.set e.lpos NUL) e.grub_errno = some r) :
    ∃ e2 : Editor, e2.buf = e.buf ∧ e2.llen = e.llen ∧ e2.lpos = e.lpos ∧
      e2.max_len = e.max_len ∧ e2.hist = e.hist ∧ e2.histpos = e.histpos ∧
      e2.readline = e.readline ∧
      (r.restore = some 0 →
        e2.xpos = e.xpos ∧ e2.ypos = e.ypos ∧ e2.ystart = e.ystart) ∧
      key_tab env e =
        some (match r.insert with
          | some insert => cl_insert env e2 insert
          | none => e2) := by
  have hbuf : (e.buf.set e.lpos NUL).set e.lpos backup = e.buf := by
    rw [List.set_set]
    exact set_same e.buf e.lpos backup hb
  refine ⟨if r.restore.getD env.uninit_restore ≠ 0 then
      { e with buf := (e.buf.set e.lpos NUL).set e.lpos backup, grub_errno := r.grub_errno,
               out := e.out ++ r.out ++
                 [TermOp.printf "\n%s%s".toList
                   [cstr e.prompt, cstr ((e.buf.set e.lpos NUL).set e.lpos backup)]],
               xpos := wrap32 e.plen, ystart := env.grub_getxy e.getxy_calls % 256,
               ypos := env.grub_getxy e.getxy_calls % 256,
               getxy_calls := e.getxy_calls + 1 }
    else
      { e with buf := (e.buf.set e.lpos NUL).set e.lpos backup, grub_errno := r.grub_errno,
               out := e.out ++ r.out },
    ?_, ?_, ?_, ?_, ?_, ?_, ?_, ?_, ?_⟩
  · split_ifs <;> exact hbuf
  · split_ifs <;> rfl
  · split_ifs <;> rfl
  · split_ifs <;> rfl
  · split_ifs <;> rfl
  · split_ifs <;> rfl
  · split_ifs <;> rfl
  · intro h0
    have hz : ¬ (r.restore.getD env.uninit_restore ≠ 0) := by
      rw [h0]
      exact fun h => h rfl
    rw [if_neg hz]
    exact ⟨rfl, rfl, rfl⟩
  · unfold key_tab
    simp only [hb, hr]
    cases r.insert <;> rfl

theorem process_key_tab (env : Env) (e : Editor) (hr : e.readline = true) :
    process_key env e 9 = Option.map Step.next (key_tab env e) := by
  unfold process_key readline_key
  simp only [hr, if_true]
  cases key_tab env e with
  | none => simp
  | some e1 => simp [common_key_control]

theorem key_tab_keeps_text (env : Env) (ed : Editor) (r : TabResult) (ok : BufferOK ed)
    (hr : grub_tab_complete env (ed.buf.set ed.lpos NUL) ed.grub_errno = some r)
    (hins : r.insert = none) :
    ∃ e1, process_key env ed 9 = some (Step.next e1) ∧
      e1.buf = ed.buf ∧ e1.text = ed.text ∧ e1.llen = ed.llen ∧ e1.lpos = ed.lpos ∧
      (r.restore = some 0 ∨ ed.readline = false →
        e1.xpos = ed.xpos ∧ e1.ypos = ed.ypos ∧ e1.ystart = ed.ystart) := by
  cases hrl : ed.readline with
  | false =>
    exact ⟨ed, process_key_plain env ed 9 hrl (by decide) (by decide) (by decide) (by decide),
      rfl, rfl, rfl, rfl, fun _ => ⟨rfl, rfl, rfl⟩⟩
  | true =>
    have hlt : ed.lpos < ed.buf.length := by
      rw [ok.length_eq]
      have := ok.lpos_le
      have := ok.llen_lt
      omega
    obtain ⟨e2, h1, h2, h3, _, _, _, _, hpos, hkey⟩ := key_tab_spec env ed r ed.buf[ed.lpos]
      (List.getElem?_eq_getElem hlt) hr
    rw [hins] at hkey
    refine ⟨e2, ?_, h1, ?_, h2, h3, ?_⟩
    · rw [process_key_tab env ed hrl, hkey]
      rfl
    · show cstr e2.buf = cstr ed.buf
      rw [h1]
    · intro h
      rcases h with h | h
      · exact hpos h
      · cases h

/-! ## The invariant of the editing loop -/

theorem session_of {e e1 : Editor} (s : SessionOK e) (ok : BufferOK e1)
    (hh : e1.hist = e.hist) (hp : e1.histpos = e.histpos) : SessionOK e1 :=
  ⟨ok, by rw [hh]; exact s.history, by rw [hp]; exact s.histpos_nonneg,
    by rw [hp, hh]; exact s.histpos_lt⟩

theorem session_insert (env : Env) (e : Editor) (str : List Char) (s : SessionOK e) :
    SessionOK (cl_insert env e str) ∧ (cl_insert env e str).max_len = e.max_len := by
  obtain ⟨ok, hs⟩ := cl_insert_keeps env e str s.buffer
  exact ⟨session_of s ok hs.hist_eq hs.histpos_eq, hs.max_len_eq⟩

theorem session_delete (env : Env) (e : Editor) (len : Nat) (s : SessionOK e) :
    SessionOK (cl_delete env e len) ∧ (cl_delete env e len).max_len = e.max_len := by
  obtain ⟨ok, hs⟩ := cl_delete_keeps env e len s.buffer
  exact ⟨session_of s ok hs.hist_eq hs.histpos_eq, hs.max_len_eq⟩

theorem session_tab (env : Env) (henv : EnvOK env) (e : Editor) (s : SessionOK e) :
    ∃ e1, key_tab env e = some e1 ∧ SessionOK e1 ∧ e1.max_len = e.max_len := by
  have ok := s.buffer
  have hlt : e.lpos < e.buf.length := by
    rw [ok.length_eq]
    have := ok.lpos_le
    have := ok.llen_lt
    omega
  obtain ⟨r, hr⟩ := tab_complete_returns env henv (e.buf.set e.lpos NUL) e.grub_errno
  obtain ⟨e2, h1, h2, h3, h4, h5, h6, _, _, hkey⟩ := key_tab_spec env e r e.buf[e.lpos]
    (List.getElem?_eq_getElem hlt) hr
  have ok2 : BufferOK e2 :=
    ⟨by rw [h1, h4]; exact ok.length_eq, by rw [h2, h4]; exact ok.llen_lt,
      by rw [h2, h3]; exact ok.lpos_le, by rw [h1, h2]; exact ok.strlen_eq⟩
  have s2 : SessionOK e2 := session_of s ok2 h5 h6
  rw [hkey]
  cases r.insert with
  | none => exact ⟨e2, rfl, s2, h4⟩
  | some insert =>
    obtain ⟨s3, hm⟩ := session_insert env e2 insert s2
    exact ⟨_, rfl, s3, by rw [hm, h4]⟩

theorem history_replace_defined {h : History} {lines : List (Option (List Char))}
    (inv : HistInv h lines) (pos : Int) (hp : 0 ≤ pos) (s : List Char) :
    ∃ h1, grub_history_replace h pos s = some h1 := by
  have hp0 := inv.pos_nonneg
  have hsz := inv.size_pos
  have hne : h.hist_size ≠ 0 := by omega
  have hm0 : 0 ≤ (h.hist_pos + pos) % h.hist_size := Int.emod_nonneg _ hne
  have hm1 : (h.hist_pos + pos) % h.hist_size < h.hist_size :=
    Int.emod_lt_of_pos _ (by omega)
  unfold grub_history_replace
  rw [if_neg hne, inv.lines_eq]
  simp only
  rw [Int.tmod_eq_emod (by omega) (by omega)]
  have hlen := inv.length_eq
  have hf : free_slot lines ((h.hist_pos + pos) % h.hist_size) =
      some (lines.set ((h.hist_pos + pos) % h.hist_size).toNat none) :=
    array_set_some lines _ none hm0 (by omega)
  rw [hf]
  simp only
  rw [array_set_some _ _ _ hm0 (by rw [List.length_set]; omega)]
  exact ⟨_, rfl⟩

theorem session_show_history (env : Env) (e : Editor) (s : SessionOK e) :
    ∃ e1, show_history env e = some e1 ∧ SessionOK e1 ∧ e1.max_len = e.max_len := by
  obtain ⟨s1, hm1⟩ := session_delete env e e.llen s
  obtain ⟨lines, inv⟩ := s1.history
  have hu := inv.used_le
  obtain ⟨str, hstr⟩ := inv.populated _ s1.histpos_nonneg s1.histpos_lt
  have hget : grub_history_get (cl_delete env e e.llen).hist
      (cl_delete env e e.llen).histpos = some (some str) := by
    rw [history_get_eq_slot inv _ s1.histpos_nonneg (by have := s1.histpos_lt; omega)]
    exact hstr
  obtain ⟨s2, hm2⟩ := session_insert env (cl_delete env e e.llen) str s1
  refine ⟨cl_insert env (cl_delete env e e.llen) str, ?_, s2, by rw [hm2, hm1]⟩
  unfold show_history
  simp only [hget]

theorem session_move (e : Editor) (s : SessionOK e) (p : Nat) (hp : p ≤ e.llen) :
    SessionOK (cl_set_pos { e with lpos := p }) :=
  ⟨⟨s.buffer.length_eq, s.buffer.llen_lt, hp, s.buffer.strlen_eq⟩, s.history,
    s.histpos_nonneg, s.histpos_lt⟩

theorem session_browse (env : Env) (e : Editor) (s : SessionOK e) (pos : Int)
    (h0 : 0 ≤ pos) (h1 : pos < e.hist.hist_used) :
    ∃ e1,
      (match grub_history_replace e.hist e.histpos e.buf with
        | none => none
        | some h => show_history env { e with lpos := 0, hist := h, histpos := pos }) =
        some e1 ∧
      SessionOK e1 ∧ e1.max_len = e.max_len := by
  obtain ⟨lines, inv⟩ := s.history
  obtain ⟨h, hr⟩ := history_replace_defined inv e.histpos s.histpos_nonneg e.buf
  obtain ⟨lines1, inv1, _, hu, _⟩ := history_replace_spec inv e.histpos e.buf hr
  rw [hr]
  simp only
  have s1 : SessionOK { e with lpos := 0, hist := h, histpos := pos } :=
    ⟨⟨s.buffer.length_eq, s.buffer.llen_lt, Nat.zero_le _, s.buffer.strlen_eq⟩,
      ⟨lines1, inv1⟩, h0, by show pos < h.hist_used; rw [hu]; exact h1⟩
  exact session_show_history env _ s1

theorem session_readline_key (env : Env) (henv : EnvOK env) (e : Editor) (s : SessionOK e)
    (key : Nat) :
    ∃ e1, readline_key env e key = some e1 ∧ SessionOK e1 ∧ e1.max_len = e.max_len := by
  have ok := s.buffer
  have hpl := ok.lpos_le
  unfold readline_key
  by_cases k1 : key = 1
  · rw [if_pos k1]
    exact ⟨_, rfl, session_move e s 0 (Nat.zero_le _), rfl⟩
  rw [if_neg k1]
  by_cases k2 : key = 2
  · rw [if_pos k2]
    by_cases hp : e.lpos > 0
    · rw [if_pos hp]
      exact ⟨_, rfl, session_move e s (e.lpos - 1) (by omega), rfl⟩
    · rw [if_neg hp]
      exact ⟨e, rfl, s, rfl⟩
  rw [if_neg k2]
  by_cases k5 : key = 5
  · rw [if_pos k5]
    exact ⟨_, rfl, session_move e s e.llen (le_refl _), rfl⟩
  rw [if_neg k5]
  by_cases k6 : key = 6
  · rw [if_pos k6]
    by_cases hp : e.lpos < e.llen
    · rw [if_pos hp]
      exact ⟨_, rfl, session_move e s (e.lpos + 1) (by omega), rfl⟩
    · rw [if_neg hp]
      exact ⟨e, rfl, s, rfl⟩
  rw [if_neg k6]
  by_cases k9 : key = 9
  · rw [if_pos k9]
    exact session_tab env henv e s
  rw [if_neg k9]
  by_cases k11 : key = 11
  · rw [if_pos k11]
    by_cases hp : e.lpos < e.llen
    · rw [if_pos hp]
      have s1 : SessionOK { e with kill_buf := some (grub_strdup (e.buf.drop e.lpos)),
                                   grub_errno := 0 } :=
        ⟨⟨ok.length_eq, ok.llen_lt, ok.lpos_le, ok.strlen_eq⟩, s.history,
          s.histpos_nonneg, s.histpos_lt⟩
      obtain ⟨s2, hm⟩ := session_delete env _ (e.llen - e.lpos) s1
      exact ⟨_, rfl, s2, hm⟩
    · rw [if_neg hp]
      exact ⟨e, rfl, s, rfl⟩
  rw [if_neg k11]
  by_cases k14 : key = 14
  · rw [if_pos k14]
    simp only
    by_cases hp : e.histpos > 0
    · rw [if_pos hp]
      exact session_browse env e s (e.histpos - 1) (by omega)
        (by have := s.histpos_lt; omega)
    · rw [if_neg hp]
      exact session_show_history env _
        ⟨⟨ok.length_eq, ok.llen_lt, Nat.zero_le _, ok.strlen_eq⟩, s.history,
          s.histpos_nonneg, s.histpos_lt⟩
  rw [if_neg k14]
  by_cases k16 : key = 16
  · rw [if_pos k16]
    simp only
    by_cases hp : e.histpos < e.hist.hist_used - 1
    · rw [if_pos hp]
      exact session_browse env e s (e.histpos + 1)
        (by have := s.histpos_nonneg; omega) (by omega)
    · rw [if_neg hp]
      exact session_show_history env _
        ⟨⟨ok.length_eq, ok.llen_lt, Nat.zero_le _, ok.strlen_eq⟩, s.history,
          s.histpos_nonneg, s.histpos_lt⟩
  rw [if_neg k16]
  by_cases k21 : key = 21
  · rw [if_pos k21]
    by_cases hp : e.lpos > 0
    · rw [if_pos hp]
      simp only
      have s1 : SessionOK (cl_set_pos
          { e with
            kill_buf :=
              if env.grub_malloc (e.lpos + 1) then some (buf_read e.buf e.beyond 0 e.lpos ++ [NUL])
              else none
            grub_errno := 0, lpos := 0 }) :=
        ⟨⟨ok.length_eq, ok.llen_lt, Nat.zero_le _, ok.strlen_eq⟩, s.history,
          s.histpos_nonneg, s.histpos_lt⟩
      obtain ⟨s2, hm⟩ := session_delete env _ e.lpos s1
      exact ⟨_, rfl, s2, hm⟩
    · rw [if_neg hp]
      exact ⟨e, rfl, s, rfl⟩
  rw [if_neg k21]
  by_cases k25 : key = 25
  · rw [if_pos k25]
    cases hk : e.kill_buf with
    | none => exact ⟨e, rfl, s, rfl⟩
    | some kill =>
      obtain ⟨s2, hm⟩ := session_insert env e kill s
      exact ⟨_, rfl, s2, hm⟩
  rw [if_neg k25]
  exact ⟨e, rfl, s, rfl⟩

theorem session_common_key (env : Env) (e : Editor) (s : SessionOK e) (key : Nat) :
    SessionOK (common_key env e key).editor ∧
      (common_key env e key).editor.max_len = e.max_len := by
  have ok := s.buffer
  have hpl := ok.lpos_le
  unfold common_key
  by_cases k27 : key = 27
  · rw [if_pos k27]
    exact ⟨s, rfl⟩
  rw [if_neg k27]
  by_cases k8 : key = 8
  · rw [if_pos k8]
    simp only
    by_cases hp : e.lpos > 0
    · simp only [hp, if_true]
      have s1 := session_move e s (e.lpos - 1) (by omega)
      split_ifs
      · obtain ⟨s2, hm⟩ := session_delete env _ 1 s1
        exact ⟨s2, hm⟩
      · exact ⟨s1, rfl⟩
    · simp only [hp, if_false]
      split_ifs
      · exact session_delete env e 1 s
      · exact ⟨s, rfl⟩
  rw [if_neg k8]
  by_cases k4 : key = 4
  · rw [if_pos k4]
    split_ifs
    · exact session_delete env e 1 s
    · exact ⟨s, rfl⟩
  rw [if_neg k4]
  split_ifs
  · exact session_insert env e _ s
  · exact ⟨s, rfl⟩

theorem session_process_key (env : Env) (henv : EnvOK env) (e : Editor) (s : SessionOK e)
    (key : Nat) :
    ∃ st, process_key env e key = some st ∧ SessionOK st.editor ∧
      st.editor.max_len = e.max_len := by
  unfold process_key
  cases hr : e.readline with
  | false =>
    obtain ⟨s1, hm⟩ := session_common_key env e s key
    exact ⟨_, by simp, s1, hm⟩
  | true =>
    obtain ⟨e1, h1, s1, hm1⟩ := session_readline_key env henv e s key
    obtain ⟨s2, hm2⟩ := session_common_key env e1 s1 key
    exact ⟨_, by simp [h1], s2, by rw [hm2, hm1]⟩

/-! ## The whole of `grub_cmdline_get` -/

theorem skip_leading_spaces_le (l : List Char) :
    ∀ n : Nat, skip_leading_spaces l n ≤ n + grub_strlen l := by
  induction l with
  | nil => intro n; simp [skip_leading_spaces]
  | cons x l ih =>
    intro n
    unfold skip_leading_spaces
    by_cases hx : x = ' '
    · rw [if_pos hx]
      have hne : x ≠ NUL := by rw [hx]; decide
      have hl : grub_strlen (x :: l) = grub_strlen l + 1 := by
        simp [grub_strlen, cstr_cons_ne x l hne]
      have := ih (n + 1)
      omega
    · rw [if_neg hx]
      omega

theorem session_start (env : Env) (prompt cmdline : List Char) (max_len : Nat)
    (echo_char : Char) (readline : Bool) (hist : History) (kill_buf : Option (List Char))
    (errno : Nat) (beyond : Nat → Char) (hmax : 1 ≤ max_len)
    (lines : List (Option (List Char))) (inv : HistInv hist lines) :
    ∃ e, cmdline_start env prompt cmdline max_len echo_char readline hist kill_buf errno
        beyond = some e ∧ SessionOK e ∧ e.max_len = max_len := by
  obtain ⟨n, hn⟩ : ∃ n, max_len = n + 1 := ⟨max_len - 1, by omega⟩
  have hbuf : ((List.range max_len).map env.uninit_buf).set 0 NUL =
      NUL :: ((List.range n).map Nat.succ).map env.uninit_buf := by
    rw [hn, List.range_succ_eq_map]
    rfl
  obtain ⟨e0, he0⟩ : ∃ e0 : Editor, e0 =
      { prompt := prompt, max_len := max_len, echo_char := echo_char, readline := readline,
        xpos := wrap32 (grub_strlen prompt), ypos := env.grub_getxy 1 % 256,
        ystart := env.grub_getxy 1 % 256, lpos := 0, llen := 0, plen := grub_strlen prompt,
        buf := ((List.range max_len).map env.uninit_buf).set 0 NUL, histpos := 0,
        kill_buf := kill_buf, hist := hist, grub_errno := errno,
        out := (if env.grub_getxy 0 / 256 ≠ 0 then [TermOp.putchar '\n'] else []) ++
          [TermOp.printf (cstr prompt) []],
        getxy_calls := 2, beyond := beyond } := ⟨_, rfl⟩
  have ok0 : BufferOK e0 := by
    rw [he0]
    refine ⟨?_, by show 0 < max_len; omega, le_refl _, ?_⟩
    · show (((List.range max_len).map env.uninit_buf).set 0 NUL).length = max_len
      simp
    · show grub_strlen (((List.range max_len).map env.uninit_buf).set 0 NUL) = 0
      rw [hbuf, grub_strlen, cstr_cons_nul]
      rfl
  have hh0 : e0.hist = hist := by rw [he0]
  have hp0 : e0.histpos = 0 := by rw [he0]
  have hm0 : e0.max_len = max_len := by rw [he0]
  obtain ⟨ok1, hs1⟩ := cl_insert_keeps env e0 cmdline ok0
  have hh1 : (cl_insert env e0 cmdline).hist = hist := by rw [hs1.hist_eq, hh0]
  have hp1 : (cl_insert env e0 cmdline).histpos = 0 := by rw [hs1.histpos_eq, hp0]
  have hm1 : (cl_insert env e0 cmdline).max_len = max_len := by rw [hs1.max_len_eq, hm0]
  unfold cmdline_start
  rw [if_neg (by omega)]
  simp only
  rw [← he0]
  by_cases hu : (cl_insert env e0 cmdline).hist.hist_used = 0
  · rw [if_pos hu]
    rw [hh1] at hu
    obtain ⟨h1, lines1, hadd, inv1, _, hused, _⟩ :=
      history_add_spec inv (cl_insert env e0 cmdline).buf
    rw [hh1, hadd]
    have hsz := inv.size_pos
    have hu1 : h1.hist_used = 1 := by
      rw [hused, if_neg (by omega), hu]
      rfl
    exact ⟨_, rfl, ⟨⟨ok1.length_eq, ok1.llen_lt, ok1.lpos_le, ok1.strlen_eq⟩,
      ⟨lines1, inv1⟩, by show 0 ≤ (cl_insert env e0 cmdline).histpos; rw [hp1],
      by show (cl_insert env e0 cmdline).histpos < h1.hist_used; rw [hp1, hu1]; decide⟩,
      hm1⟩
  · rw [if_neg hu]
    rw [hh1] at hu
    have := inv.used_nonneg
    exact ⟨_, rfl, ⟨ok1, ⟨lines, by rw [hh1]; exact inv⟩, by rw [hp1],
      by rw [hp1, hh1]; omega⟩, hm1⟩

theorem session_commit (e : Editor) (s : SessionOK e) :
    ∃ o, cmdline_commit e = some o ∧ SessionOK o.editor ∧ o.editor.max_len = e.max_len := by
  have ok := s.buffer
  obtain ⟨lines, inv⟩ := s.history
  have hlp : (if e.echo_char = NUL then skip_leading_spaces e.buf 0 else 0) ≤ e.llen := by
    split_ifs
    · have := skip_leading_spaces_le e.buf 0
      rw [ok.strlen_eq] at this
      omega
    · exact Nat.zero_le _
  have hused : 0 < e.hist.hist_used := by
    have := s.histpos_nonneg
    have := s.histpos_lt
    omega
  unfold cmdline_commit
  simp only
  by_cases hlen : grub_strlen e.buf > 0
  · rw [if_pos hlen]
    obtain ⟨h1, hr⟩ := history_replace_defined inv 0 (le_refl 0) e.buf
    obtain ⟨lines1, inv1, _, hu1, _⟩ := history_replace_spec inv 0 e.buf hr
    obtain ⟨h2, lines2, hadd, inv2, _, hu2, _⟩ := history_add_spec inv1 []
    rw [hr]
    simp only
    rw [hadd]
    refine ⟨_, rfl, ⟨⟨ok.length_eq, ok.llen_lt, hlp, ok.strlen_eq⟩, ⟨lines2, inv2⟩,
      le_refl 0, ?_⟩, rfl⟩
    show (0 : Int) < h2.hist_used
    rw [hu2]
    split_ifs <;> omega
  · rw [if_neg hlen]
    exact ⟨_, rfl, ⟨⟨ok.length_eq, ok.llen_lt, hlp, ok.strlen_eq⟩, ⟨lines, inv⟩,
      le_refl 0, hused⟩, rfl⟩

theorem session_key_loop (env : Env) (henv : EnvOK env) (keys : List Nat) :
    ∀ e : Editor, SessionOK e →
      ∃ o, key_loop env e keys = some o ∧ SessionOK o.editor ∧
        o.editor.max_len = e.max_len := by
  induction keys with
  | nil => exact fun e s => ⟨Outcome.waiting e, rfl, s, rfl⟩
  | cons key keys ih =>
    intro e s
    unfold key_loop
    by_cases hk : key = 10 ∨ key = 13
    · rw [if_pos hk]
      exact session_commit e s
    · rw [if_neg hk]
      obtain ⟨st, hst, s1, hm1⟩ := session_process_key env henv e s key
      rw [hst]
      cases st with
      | escape e1 => exact ⟨Outcome.aborted e1, rfl, s1, hm1⟩
      | next e1 =>
        obtain ⟨o, ho, s2, hm2⟩ := ih e1 s1
        exact ⟨o, ho, s2, by rw [hm2]; exact hm1⟩

theorem buffer_terminated {e : Editor} (ok : BufferOK e) :
    e.buf[e.llen]? = some NUL ∧ ∀ i : Nat, i < e.llen → e.buf[i]? ≠ some NUL := by
  obtain ⟨rest, hbuf, htl, hnul, _⟩ := buffer_split ok
  constructor
  · rw [hbuf, List.getElem?_append_right (by omega), htl, Nat.sub_self,
      List.getElem?_cons_zero]
  · intro i hi h
    rw [hbuf, List.getElem?_append_left (by omega)] at h
    exact hnul (List.getElem?_mem h)

theorem env_plain_ok : EnvOK env_plain := by
  intro dev errno _
  show (1 : Nat) ≠ 0
  decide

/-- C10. For a buffer size `max_len >= 1`, any initial content of `cmdline`,
a reachable history store of capacity at least one, collaborators whose
`grub_fs_probe` returns a null pointer only with `grub_errno` set, and any
sequence of keys, `grub_cmdline_get` is defined and the state it is in once
the keys are processed satisfies `lpos <= llen <= max_len - 1`, with `buf` of
`max_len` bytes holding its first NUL at offset `llen`.  The state after each
key is the one this gives for the keys up to it. -/
theorem cmdline_keeps_buffer_bounds (env : Env) (henv : EnvOK env)
    (prompt cmdline : List Char) (max_len : Nat) (echo_char : Char) (readline : Bool)
    (hist : History) (kill_buf : Option (List Char)) (errno : Nat) (beyond : Nat → Char)
    (keys : List Nat) (hmax : 1 ≤ max_len) (hreach : Reachable hist)
    (hcap : 1 ≤ hist.hist_size) :
    ∃ o, grub_cmdline_get env prompt cmdline max_len echo_char readline hist kill_buf errno
        beyond keys = some o ∧
      o.editor.lpos ≤ o.editor.llen ∧ o.editor.llen ≤ max_len - 1 ∧
      o.editor.buf.length = max_len ∧
      o.editor.buf[o.editor.llen]? = some NUL ∧
      ∀ i : Nat, i < o.editor.llen → o.editor.buf[i]? ≠ some NUL := by
  obtain ⟨lines, inv⟩ : ∃ lines, HistInv hist lines := by
    rcases reachable_inv hreach with h0 | h
    · rw [h0] at hcap
      exact absurd hcap (by decide)
    · exact h
  obtain ⟨e, hstart, s, hm⟩ := session_start env prompt cmdline max_len echo_char readline
    hist kill_buf errno beyond hmax lines inv
  obtain ⟨o, ho, s1, hm1⟩ := session_key_loop env henv keys e s
  have ok := s1.buffer
  have hterm := buffer_terminated ok
  have hlt := ok.llen_lt
  rw [hm1, hm] at hlt
  refine ⟨o, ?_, ok.lpos_le, by omega, by rw [ok.length_eq, hm1, hm], hterm.1, hterm.2⟩
  unfold grub_cmdline_get
  rw [hstart]
  exact ho

/-- An 8-byte buffer seeded with "hi", the wrapped capacity-3 history, and
the keys x, Ctrl-a, Ctrl-k, Ctrl-y, Ctrl-p, TAB, backspace, y. -/
theorem cmdline_keeps_buffer_bounds_witness :
    EnvOK env_plain ∧ 1 ≤ 8 ∧ Reachable hist_wrapped ∧ 1 ≤ hist_wrapped.hist_size ∧
    (∃ o, grub_cmdline_get env_plain "grub> ".toList "hi".toList 8 NUL true hist_wrapped none 0
        (fun _ => 'z') [120, 1, 11, 25, 16, 9, 8, 121] = some o ∧
      o.editor.lpos ≤ o.editor.llen ∧ o.editor.llen ≤ 8 - 1 ∧
      o.editor.buf.length = 8 ∧
      o.editor.buf[o.editor.llen]? = some NUL ∧
      ∀ i : Nat, i < o.editor.llen → o.editor.buf[i]? ≠ some NUL) ∧
    Option.map (fun o => (o.editor.buf, o.editor.lpos, o.editor.llen))
        (grub_cmdline_get env_plain "grub> ".toList "hi".toList 8 NUL true hist_wrapped none 0
          (fun _ => 'z') [120, 1, 11, 25, 16, 9, 8, 121]) =
      some (['y', NUL, 'x', 'x', 'x', 'x', 'x', 'x'], 1, 1) :=
  ⟨env_plain_ok, by decide, hist_wrapped_reachable, by decide,
    cmdline_keeps_buffer_bounds env_plain env_plain_ok "grub> ".toList "hi".toList 8 NUL true
      hist_wrapped none 0 (fun _ => 'z') [120, 1, 11, 25, 16, 9, 8, 121] (by decide)
      hist_wrapped_reachable (by decide),
    by decide⟩

/-! ## What the editor stores in the history and hands to its caller -/

theorem history_replace_get {h h1 : History} {lines : List (Option (List Char))}
    (inv : HistInv h lines) (pos : Int) (s : List Char)
    (hr : grub_history_replace h pos s = some h1) :
    grub_history_get h1 pos = some (some (grub_strdup s)) := by
  have hsz := inv.size_pos
  have hne : h.hist_size ≠ 0 := by omega
  unfold grub_history_replace at hr
  rw [if_neg hne, inv.lines_eq] at hr
  simp only at hr
  cases hf : free_slot lines ((h.hist_pos + pos).tmod h.hist_size) with
  | none => rw [hf] at hr; simp at hr
  | some lines1 =>
    rw [hf] at hr
    simp only at hr
    cases hw : array_set lines1 ((h.hist_pos + pos).tmod h.hist_size) (some (grub_strdup s)) with
    | none => rw [hw] at hr; simp at hr
    | some lines2 =>
      rw [hw] at hr
      simp only [Option.some.injEq] at hr
      subst hr
      unfold grub_history_get
      simp only
      rw [if_neg hne, array_set_get hw, if_pos rfl]

theorem skip_leading_spaces_split (t rest : List Char) (ht : NUL ∉ t) :
    ∀ n : Nat, skip_leading_spaces (t ++ NUL :: rest) n =
      n + (t.length - (t.dropWhile (fun c => c == ' ')).length) := by
  induction t with
  | nil =>
    intro n
    simp only [List.nil_append, skip_leading_spaces]
    rw [if_neg (by decide)]
    rfl
  | cons x t ih =>
    intro n
    have ht1 : NUL ∉ t := fun hm => ht (List.mem_cons_of_mem _ hm)
    rw [List.cons_append, skip_leading_spaces]
    by_cases hx : x = ' '
    · rw [if_pos hx, ih ht1, List.dropWhile_cons_of_pos (by simpa using hx)]
      have := (List.dropWhile_sublist (fun c => c == ' ') (l := t)).length_le
      simp only [List.length_cons]
      omega
    · rw [if_neg hx, List.dropWhile_cons_of_neg (by simpa using hx)]
      simp

theorem drop_length_sub_dropWhile (t : List Char) (p : Char → Bool) :
    t.drop (t.length - (t.dropWhile p).length) = t.dropWhile p := by
  induction t with
  | nil => rfl
  | cons x t ih =>
    by_cases hx : p x = true
    · rw [List.dropWhile_cons_of_pos hx]
      have := (List.dropWhile_sublist p (l := t)).length_le
      have h1 : (x :: t).length - (t.dropWhile p).length =
          (t.length - (t.dropWhile p).length) + 1 := by
        simp only [List.length_cons]; omega
      rw [h1, List.drop_succ_cons, ih]
    · rw [List.dropWhile_cons_of_neg hx]
      simp

/-- The bytes line 752 copies to the caller after a newline: the text of the
buffer from its first non-space character on (from its start under an echo
character), and the terminator. -/
theorem commit_spec (e : Editor) (s : SessionOK e) :
    ∃ e1 cmdline, cmdline_commit e = some (Outcome.committed e1 cmdline) ∧
      cmdline = (if e.echo_char = NUL then e.text.dropWhile (fun c => c == ' ')
        else e.text) ++ [NUL] ∧
      (e.text ≠ [] → ∃ h0, grub_history_replace e.hist 0 e.buf = some h0 ∧
        grub_history_add h0 [] = some e1.hist) ∧
      (e.text = [] → e1.hist = e.hist) := by
  have ok := s.buffer
  obtain ⟨lines, inv⟩ := s.history
  obtain ⟨rest, hb, htl, htn, hm⟩ := buffer_split ok
  -- the bytes copied out
  have hread : buf_read e.buf e.beyond
      (if e.echo_char = NUL then skip_leading_spaces e.buf 0 else 0)
      (e.llen - (if e.echo_char = NUL then skip_leading_spaces e.buf 0 else 0) + 1) =
      (if e.echo_char = NUL then e.text.dropWhile (fun c => c == ' ') else e.text) ++
        [NUL] := by
    have hdl := (List.dropWhile_sublist (fun c => c == ' ') (l := e.text)).length_le
    have hblen : e.buf.length = e.text.length + 1 + rest.length := by
      rw [hb]; simp; omega
    by_cases he : e.echo_char = NUL
    · simp only [if_pos he]
      have hk : skip_leading_spaces e.buf 0 =
          e.text.length - (e.text.dropWhile (fun c => c == ' ')).length := by
        rw [hb, skip_leading_spaces_split _ _ htn 0, Nat.zero_add]
      rw [hk, buf_read_eq _ _ _ _ (by omega)]
      rw [hb, List.drop_append_of_le_length (by omega), drop_length_sub_dropWhile,
        List.take_append_eq_append_take]
      have h1 : e.llen - (e.text.length -
          (List.dropWhile (fun c => c == ' ') e.text).length) + 1 -
          (List.dropWhile (fun c => c == ' ') e.text).length = 1 := by omega
      rw [h1, List.take_of_length_le (by omega)]
      rfl
    · simp only [if_neg he]
      rw [buf_read_eq _ _ _ _ (by omega), List.drop_zero, hb,
        List.take_append_eq_append_take]
      have h1 : e.llen - 0 + 1 - e.text.length = 1 := by omega
      rw [h1, List.take_of_length_le (by omega)]
      rfl
  have hzero : (grub_strlen e.buf > 0) ↔ e.text ≠ [] := by
    show (e.text.length > 0) ↔ e.text ≠ []
    rw [gt_iff_lt, List.length_pos]
  unfold cmdline_commit
  simp only
  by_cases hlen : grub_strlen e.buf > 0
  · rw [if_pos hlen]
    obtain ⟨h1, hr⟩ := history_replace_defined inv 0 (le_refl 0) e.buf
    obtain ⟨lines1, inv1, _⟩ := history_replace_spec inv 0 e.buf hr
    obtain ⟨h2, lines2, hadd, _⟩ := history_add_spec inv1 []
    rw [hr]
    simp only
    rw [hadd]
    refine ⟨_, _, rfl, hread, fun _ => ⟨h1, rfl, hadd⟩, fun hnil => ?_⟩
    exact absurd hnil (hzero.mp hlen)
  · rw [if_neg hlen]
    refine ⟨_, _, rfl, hread, fun hne => ?_, fun _ => rfl⟩
    exact absurd (hzero.mpr hne) hlen

theorem hist_wrapped_inv : ∃ lines, HistInv hist_wrapped lines := by
  rcases reachable_inv hist_wrapped_reachable with h0 | h
  · exact absurd h0 (by decide)
  · exact h

theorem editor_hello_session (lpos : Nat) (kill : Option (List Char)) (h : lpos ≤ 5) :
    SessionOK (editor_hello lpos kill) :=
  ⟨editor_hello_ok lpos kill h, hist_wrapped_inv, le_refl 0, show (0 : Int) < 3 by decide⟩

theorem key_loop_newline (env : Env) (e : Editor) (key : Nat) (rest : List Nat)
    (hk : key = 10 ∨ key = 13) : key_loop env e (key :: rest) = cmdline_commit e := by
  unfold key_loop
  rw [if_pos hk]

/-! ## Browsing the history -/

theorem show_history_spec (env : Env) (e : Editor) (s : SessionOK e) (hl : e.lpos = 0) :
    ∃ e1 entry, show_history env e = some e1 ∧ e1.hist = e.hist ∧ e1.histpos = e.histpos ∧
      grub_history_get e.hist e.histpos = some (some entry) ∧
      (grub_strlen entry ≤ e.max_len - 1 → e1.text = cstr entry) ∧
      (¬ grub_strlen entry ≤ e.max_len - 1 → e1.text = []) := by
  have ok := s.buffer
  have hlen : e.text.length = e.llen := ok.strlen_eq
  have hmax := ok.llen_lt
  obtain ⟨okd, htd, hld, hpd, ssd⟩ := cl_delete_ok env e e.llen ok (by omega)
  have htd0 : (cl_delete env e e.llen).text = [] := by
    rw [htd, hl, List.take_zero, List.nil_append, List.drop_eq_nil_iff]
    omega
  have hld0 : (cl_delete env e e.llen).llen = 0 := by rw [hld]; omega
  obtain ⟨lines, inv⟩ := s.history
  have hu := inv.used_le
  obtain ⟨entry, hentry⟩ := inv.populated _ s.histpos_nonneg s.histpos_lt
  have hget : grub_history_get e.hist e.histpos = some (some entry) := by
    rw [history_get_eq_slot inv _ s.histpos_nonneg (by have := s.histpos_lt; omega)]
    exact hentry
  have hshow : show_history env e = some (cl_insert env (cl_delete env e e.llen) entry) := by
    unfold show_history
    simp only [ssd.hist_eq, ssd.histpos_eq, hget]
  by_cases hfit : grub_strlen entry ≤ e.max_len - 1
  · have hfit1 : grub_strlen entry + (cl_delete env e e.llen).llen <
        (cl_delete env e e.llen).max_len := by
      rw [hld0, ssd.max_len_eq]; omega
    obtain ⟨_, hti, _, _, ssi⟩ := cl_insert_ok env (cl_delete env e e.llen) entry okd hfit1
    refine ⟨_, entry, hshow, by rw [ssi.hist_eq, ssd.hist_eq],
      by rw [ssi.histpos_eq, ssd.histpos_eq], hget, fun _ => ?_, fun hn => absurd hfit hn⟩
    rw [hti, htd0]
    simp
  · have hfit1 : ¬ (grub_strlen entry + (cl_delete env e e.llen).llen <
        (cl_delete env e e.llen).max_len) := by
      rw [hld0, ssd.max_len_eq]; omega
    rw [cl_insert_reject env _ entry hfit1] at hshow
    exact ⟨_, entry, hshow, ssd.hist_eq, ssd.histpos_eq, hget, fun h => absurd h hfit,
      fun _ => htd0⟩

theorem browse_move (env : Env) (e : Editor) (s : SessionOK e) (pos : Int)
    (h0 : 0 ≤ pos) (h1 : pos < e.hist.hist_used) :
    ∃ e1 entry,
      (match grub_history_replace e.hist e.histpos e.buf with
        | none => none
        | some h => show_history env { e with lpos := 0, hist := h, histpos := pos }) =
        some e1 ∧
      grub_history_get e1.hist e.histpos = some (some e.text) ∧ e1.histpos = pos ∧
      grub_history_get e1.hist e1.histpos = some (some entry) ∧
      (grub_strlen entry ≤ e.max_len - 1 → e1.text = cstr entry) ∧
      (¬ grub_strlen entry ≤ e.max_len - 1 → e1.text = []) := by
  obtain ⟨lines, inv⟩ := s.history
  obtain ⟨h, hr⟩ := history_replace_defined inv e.histpos s.histpos_nonneg e.buf
  obtain ⟨lines1, inv1, _, hu, _⟩ := history_replace_spec inv e.histpos e.buf hr
  have hg : grub_history_get h e.histpos = some (some e.text) :=
    history_replace_get inv e.histpos e.buf hr
  rw [hr]
  simp only
  have s1 : SessionOK { e with lpos := 0, hist := h, histpos := pos } :=
    ⟨⟨s.buffer.length_eq, s.buffer.llen_lt, Nat.zero_le _, s.buffer.strlen_eq⟩,
      ⟨lines1, inv1⟩, h0, by show pos < h.hist_used; rw [hu]; exact h1⟩
  obtain ⟨e1, entry, hshow, hh, hp, hget, hfit, hnofit⟩ := show_history_spec env _ s1 rfl
  refine ⟨e1, entry, hshow, by rw [hh]; exact hg, hp, by rw [hh, hp]; exact hget, hfit, hnofit⟩

theorem browse_stay (env : Env) (e : Editor) (s : SessionOK e) :
    ∃ e1 entry, show_history env { e with lpos := 0 } = some e1 ∧
      e1.hist = e.hist ∧ e1.histpos = e.histpos ∧
      grub_history_get e1.hist e1.histpos = some (some entry) ∧
      (grub_strlen entry ≤ e.max_len - 1 → e1.text = cstr entry) ∧
      (¬ grub_strlen entry ≤ e.max_len - 1 → e1.text = []) := by
  have s1 : SessionOK { e with lpos := 0 } :=
    ⟨⟨s.buffer.length_eq, s.buffer.llen_lt, Nat.zero_le _, s.buffer.strlen_eq⟩,
      s.history, s.histpos_nonneg, s.histpos_lt⟩
  obtain ⟨e1, entry, hshow, hh, hp, hget, hfit, hnofit⟩ := show_history_spec env _ s1 rfl
  exact ⟨e1, entry, hshow, hh, hp, by rw [hh, hp]; exact hget, hfit, hnofit⟩

theorem process_key_browse (env : Env) (e : Editor) (hr : e.readline = true) :
    process_key env e 16 = Option.map Step.next
      (if e.histpos < e.hist.hist_used - 1 then
        match grub_history_replace e.hist e.histpos e.buf with
        | none => none
        | some h => show_history env { e with lpos := 0, hist := h, histpos := e.histpos + 1 }
      else show_history env { e with lpos := 0 }) ∧
    process_key env e 14 = Option.map Step.next
      (if e.histpos > 0 then
        match grub_history_replace e.hist e.histpos e.buf with
        | none => none
        | some h => show_history env { e with lpos := 0, hist := h, histpos := e.histpos - 1 }
      else show_history env { e with lpos := 0 }) := by
  constructor
  · have hk : readline_key env e 16 =
        (if e.histpos < e.hist.hist_used - 1 then
          match grub_history_replace e.hist e.histpos e.buf with
          | none => none
          | some h => show_history env { e with lpos := 0, hist := h, histpos := e.histpos + 1 }
        else show_history env { e with lpos := 0 }) := rfl
    rw [← hk]
    unfold process_key
    simp only [hr, if_true]
    cases readline_key env e 16 with
    | none => simp
    | some e1 => simp [common_key_control]
  · have hk : readline_key env e 14 =
        (if e.histpos > 0 then
          match grub_history_replace e.hist e.histpos e.buf with
          | none => none
          | some h => show_history env { e with lpos := 0, hist := h, histpos := e.histpos - 1 }
        else show_history env { e with lpos := 0 }) := rfl
    rw [← hk]
    unfold process_key
    simp only [hr, if_true]
    cases readline_key env e 14 with
    | none => simp
    | some e1 => simp [common_key_control]

/-- C11. With the readline bindings in force, browse offset `h` and buffer
text `b`: Ctrl-p with `h < used - 1`, and Ctrl-n with `h > 0`, store `b` as
the history entry at recency offset `h` and move the browse offset to `h + 1`,
respectively `h - 1`; at the boundary (Ctrl-p with `h = used - 1`, Ctrl-n with
`h = 0`) the store and the browse offset stay as they are.  In every case the
buffer afterwards holds the text of the entry at the new browse offset when
that text fits in `max_len - 1` bytes, and is empty when it does not. -/
theorem history_browse (env : Env) (e : Editor) (s : SessionOK e) (hr : e.readline = true) :
    (∃ e1 entry, process_key env e 16 = some (Step.next e1) ∧
      (e.histpos < e.hist.hist_used - 1 →
        grub_history_get e1.hist e.histpos = some (some e.text) ∧
        e1.histpos = e.histpos + 1) ∧
      (¬ e.histpos < e.hist.hist_used - 1 → e1.hist = e.hist ∧ e1.histpos = e.histpos) ∧
      grub_history_get e1.hist e1.histpos = some (some entry) ∧
      (grub_strlen entry ≤ e.max_len - 1 → e1.text = cstr entry) ∧
      (¬ grub_strlen entry ≤ e.max_len - 1 → e1.text = [])) ∧
    (∃ e1 entry, process_key env e 14 = some (Step.next e1) ∧
      (e.histpos > 0 →
        grub_history_get e1.hist e.histpos = some (some e.text) ∧
        e1.histpos = e.histpos - 1) ∧
      (¬ e.histpos > 0 → e1.hist = e.hist ∧ e1.histpos = e.histpos) ∧
      grub_history_get e1.hist e1.histpos = some (some entry) ∧
      (grub_strlen entry ≤ e.max_len - 1 → e1.text = cstr entry) ∧
      (¬ grub_strlen entry ≤ e.max_len - 1 → e1.text = [])) := by
  have hp0 := s.histpos_nonneg
  have hp1 := s.histpos_lt
  obtain ⟨hprev, hnext⟩ := process_key_browse env e hr
  constructor
  · rw [hprev]
    by_cases hm : e.histpos < e.hist.hist_used - 1
    · rw [if_pos hm]
      obtain ⟨e1, entry, h1, h2, h3, h4, h5, h6⟩ :=
        browse_move env e s (e.histpos + 1) (by omega) (by omega)
      exact ⟨e1, entry, by rw [h1]; rfl, fun _ => ⟨h2, h3⟩, fun hn => absurd hm hn, h4, h5, h6⟩
    · rw [if_neg hm]
      obtain ⟨e1, entry, h1, h2, h3, h4, h5, h6⟩ := browse_stay env e s
      exact ⟨e1, entry, by rw [h1]; rfl, fun h => absurd h hm, fun _ => ⟨h2, h3⟩, h4, h5, h6⟩
  · rw [hnext]
    by_cases hm : e.histpos > 0
    · rw [if_pos hm]
      obtain ⟨e1, entry, h1, h2, h3, h4, h5, h6⟩ :=
        browse_move env e s (e.histpos - 1) (by omega) (by omega)
      exact ⟨e1, entry, by rw [h1]; rfl, fun _ => ⟨h2, h3⟩, fun hn => absurd hm hn, h4, h5, h6⟩
    · rw [if_neg hm]
      obtain ⟨e1, entry, h1, h2, h3, h4, h5, h6⟩ := browse_stay env e s
      exact ⟨e1, entry, by rw [h1]; rfl, fun h => absurd h hm, fun _ => ⟨h2, h3⟩, h4, h5, h6⟩

theorem history_browse_witness :
    SessionOK (editor_hello 5 none) ∧ (editor_hello 5 none).readline = true ∧
    ((∃ e1 entry, process_key env_plain (editor_hello 5 none) 16 = some (Step.next e1) ∧
      ((editor_hello 5 none).histpos < (editor_hello 5 none).hist.hist_used - 1 →
        grub_history_get e1.hist (editor_hello 5 none).histpos =
          some (some (editor_hello 5 none).text) ∧
        e1.histpos = (editor_hello 5 none).histpos + 1) ∧
      (¬ (editor_hello 5 none).histpos < (editor_hello 5 none).hist.hist_used - 1 →
        e1.hist = (editor_hello 5 none).hist ∧ e1.histpos = (editor_hello 5 none).histpos) ∧
      grub_history_get e1.hist e1.histpos = some (some entry) ∧
      (grub_strlen entry ≤ (editor_hello 5 none).max_len - 1 → e1.text = cstr entry) ∧
      (¬ grub_strlen entry ≤ (editor_hello 5 none).max_len - 1 → e1.text = [])) ∧
    (∃ e1 entry, process_key env_plain (editor_hello 5 none) 14 = some (Step.next e1) ∧
      ((editor_hello 5 none).histpos > 0 →
        grub_history_get e1.hist (editor_hello 5 none).histpos =
          some (some (editor_hello 5 none).text) ∧
        e1.histpos = (editor_hello 5 none).histpos - 1) ∧
      (¬ (editor_hello 5 none).histpos > 0 →
        e1.hist = (editor_hello 5 none).hist ∧ e1.histpos = (editor_hello 5 none).histpos) ∧
      grub_history_get e1.hist e1.histpos = some (some entry) ∧
      (grub_strlen entry ≤ (editor_hello 5 none).max_len - 1 → e1.text = cstr entry) ∧
      (¬ grub_strlen entry ≤ (editor_hello 5 none).max_len - 1 → e1.text = []))) ∧
    Option.map (fun o => (o.editor.text, o.editor.histpos, grub_history_get o.editor.hist 0,
          grub_history_get o.editor.hist 1))
        (key_loop env_plain (editor_hello 5 none) [16]) =
      some (['c'], 1, some (some "hello".toList), some (some ['c'])) ∧
    Option.map (fun o => (o.editor.text, o.editor.histpos, grub_history_get o.editor.hist 0,
          grub_history_get o.editor.hist 1))
        (key_loop env_plain (editor_hello 5 none) [16, 120, 14]) =
      some ("hello".toList, 0, some (some "hello".toList), some (some "cx".toList)) :=
  ⟨editor_hello_session 5 none (by decide), rfl,
    history_browse env_plain (editor_hello 5 none) (editor_hello_session 5 none (by decide)) rfl,
    by decide, by decide⟩

/-- C11, counterexample. With "hello" in the buffer and the browse offset at
the newest entry "d" of a full store of three, Ctrl-n leaves the entry at
offset 0 as "d" and replaces the buffer with it; with the browse offset at
the oldest entry "b", Ctrl-p does the same with offset 2.  With a store whose
entry at offset 1 is longer than the buffer, Ctrl-p stores "hello" at offset
0, moves to offset 1 and leaves the buffer empty. -/
theorem history_browse_counterexample :
    Option.map (fun o => (o.editor.text, o.editor.histpos, grub_history_get o.editor.hist 0))
        (grub_cmdline_get env_plain "grub> ".toList "hello".toList 8 NUL true hist_wrapped
          none 0 (fun _ => 'z') [14]) =
      some (['d'], 0, some (some ['d'])) ∧
    Option.map (fun o => (o.editor.text, o.editor.histpos, grub_history_get o.editor.hist 2))
        (key_loop env_plain { editor_hello 5 none with histpos := 2 } [16]) =
      some (['b'], 2, some (some ['b'])) ∧
    Option.map (fun o => (o.editor.text, o.editor.histpos, grub_history_get o.editor.hist 0,
          grub_history_get o.editor.hist 1))
        (grub_cmdline_get env_plain "grub> ".toList "hello".toList 8 NUL true
          ⟨2, some [some ['x'], some "set root=(hd0)".toList], 0, 0, 2⟩
          none 0 (fun _ => 'z') [16]) =
      some ([], 1, some (some "hello".toList), some (some "set root=(hd0)".toList)) := by
  refine ⟨by decide, by decide, by decide⟩

/-! ## The history after a committed line -/

/-- C12. On a newline or carriage return, with a history store of capacity
at least two, `grub_cmdline_get` returns, and with `B` the text of the edit
buffer as it stands, before the leading spaces are skipped: when `B` is not
empty, `grub_history_get (1)` is `B` and `grub_history_get (0)` is the empty
string afterwards; when `B` is empty the store is as before.  `B` is the line
handed to the caller when the echo character is set or `B` does not start
with a space. -/
theorem commit_stores_buffer_text (env : Env) (e : Editor) (s : SessionOK e)
    (hcap : 2 ≤ e.hist.hist_size) (key : Nat) (rest : List Nat) (hk : key = 10 ∨ key = 13) :
    ∃ e1 cmdline, key_loop env e (key :: rest) = some (Outcome.committed e1 cmdline) ∧
      (e.text ≠ [] → grub_history_get e1.hist 1 = some (some e.text) ∧
        grub_history_get e1.hist 0 = some (some [])) ∧
      (e.text = [] → e1.hist = e.hist) ∧
      (e.echo_char ≠ NUL ∨ e.text.head? ≠ some ' ' → cstr cmdline = e.text) := by
  obtain ⟨e1, cmdline, hc, hcm, hfull, hempty⟩ := commit_spec e s
  obtain ⟨lines, inv⟩ := s.history
  have htn : NUL ∉ e.text := cstr_nul_free _
  refine ⟨e1, cmdline, by rw [key_loop_newline env e key rest hk]; exact hc, ?_, hempty, ?_⟩
  · intro hne
    obtain ⟨h0, hr, hadd⟩ := hfull hne
    obtain ⟨lines0, inv0, hsz0, _⟩ := history_replace_spec inv 0 e.buf hr
    have hg0 : grub_history_get h0 0 = some (some e.text) := history_replace_get inv 0 e.buf hr
    obtain ⟨h1, _, hadd1, _, _, _, hnew, hold⟩ := history_add_get inv0 []
    rw [hadd] at hadd1
    cases hadd1
    refine ⟨?_, hnew⟩
    rw [hold 1 (le_refl 1) (by omega)]
    exact hg0
  · intro hsame
    rw [hcm]
    rcases hsame with he | hh
    · rw [if_neg he]
      exact cstr_append_nul _ _ htn
    · have hd : e.text.dropWhile (fun c => c == ' ') = e.text := by
        cases ht : e.text with
        | nil => rfl
        | cons x tl =>
          rw [ht] at hh
          have hx : x ≠ ' ' := by
            intro hx
            rw [hx] at hh
            exact hh rfl
          exact List.dropWhile_cons_of_neg (by simpa using hx)
      split_ifs
      · rw [hd]
        exact cstr_append_nul _ _ htn
      · exact cstr_append_nul _ _ htn

theorem commit_stores_buffer_text_witness :
    SessionOK (editor_hello 5 none) ∧ 2 ≤ (editor_hello 5 none).hist.hist_size ∧
    ((10 : Nat) = 10 ∨ (10 : Nat) = 13) ∧
    (∃ e1 cmdline, key_loop env_plain (editor_hello 5 none) [10] =
        some (Outcome.committed e1 cmdline) ∧
      ((editor_hello 5 none).text ≠ [] →
        grub_history_get e1.hist 1 = some (some (editor_hello 5 none).text) ∧
        grub_history_get e1.hist 0 = some (some [])) ∧
      ((editor_hello 5 none).text = [] → e1.hist = (editor_hello 5 none).hist) ∧
      ((editor_hello 5 none).echo_char ≠ NUL ∨ (editor_hello 5 none).text.head? ≠ some ' ' →
        cstr cmdline = (editor_hello 5 none).text)) ∧
    Option.map (fun o => (o.written, grub_history_get o.editor.hist 1,
          grub_history_get o.editor.hist 0, grub_history_get o.editor.hist 2))
        (key_loop env_plain (editor_hello 5 none) [10]) =
      some (some ("hello".toList ++ [NUL]), some (some "hello".toList), some (some []),
        some (some ['c'])) :=
  ⟨editor_hello_session 5 none (by decide), by decide, Or.inl rfl,
    commit_stores_buffer_text env_plain (editor_hello 5 none)
      (editor_hello_session 5 none (by decide)) (by decide) 10 [] (Or.inl rfl),
    by decide⟩

/-- C12, counterexample. With an echo character of zero the keys space, l,
s, newline hand "ls" to the caller, and `grub_history_get (1)` is " ls", the
text with its leading space; the keys space, space, newline hand the empty
line to the caller, and the store has changed: its newest entries are now
the empty string and the two spaces. -/
theorem commit_stores_buffer_text_counterexample :
    Option.map (fun o => (o.written.map cstr, grub_history_get o.editor.hist 1,
          grub_history_get o.editor.hist 0))
        (grub_cmdline_get env_plain "grub> ".toList [NUL] 8 NUL true hist_wrapped none 0
          (fun _ => 'z') [32, 108, 115, 10]) =
      some (some "ls".toList, some (some " ls".toList), some (some [])) ∧
    Option.map (fun o => (o.written.map cstr, decide (o.editor.hist = hist_wrapped),
          grub_history_get o.editor.hist 1, grub_history_get o.editor.hist 0))
        (grub_cmdline_get env_plain "grub> ".toList [NUL] 8 NUL true hist_wrapped none 0
          (fun _ => 'z') [32, 32, 10]) =
      some (some [], false, some (some "  ".toList), some (some [])) := by
  refine ⟨by decide, by decide⟩

/-! ## The value `grub_cmdline_get` returns -/

theorem common_key_escape (env : Env) (e : Editor) (key : Nat) :
    (key = 27 → common_key env e key = Step.escape e) ∧
    (key ≠ 27 → ∃ e1, common_key env e key = Step.next e1) := by
  constructor
  · intro h
    unfold common_key
    rw [if_pos h]
  · intro h
    unfold common_key
    rw [if_neg h]
    by_cases h8 : key = 8
    · rw [if_pos h8]
      dsimp only
      by_cases hp : e.lpos > 0
      · rw [if_pos hp]
        split_ifs <;> exact ⟨_, rfl⟩
      · rw [if_neg hp]
        split_ifs <;> exact ⟨_, rfl⟩
    · rw [if_neg h8]
      split_ifs <;> exact ⟨_, rfl⟩

theorem process_key_escape (env : Env) (e : Editor) (key : Nat) (st : Step)
    (h : process_key env e key = some st) :
    (key = 27 → ∃ e1, st = Step.escape e1) ∧ (key ≠ 27 → ∃ e1, st = Step.next e1) := by
  unfold process_key at h
  cases hr : e.readline with
  | false =>
    rw [hr] at h
    simp only [Bool.false_eq_true, if_false, Option.some.injEq] at h
    subst h
    exact ⟨fun hk => ⟨_, (common_key_escape env e key).1 hk⟩,
      fun hk => (common_key_escape env e key).2 hk⟩
  | true =>
    rw [hr] at h
    simp only [if_true] at h
    cases hk1 : readline_key env e key with
    | none => rw [hk1] at h; cases h
    | some e1 =>
      rw [hk1] at h
      simp only [Option.some.injEq] at h
      subst h
      exact ⟨fun hk => ⟨_, (common_key_escape env e1 key).1 hk⟩,
        fun hk => (common_key_escape env e1 key).2 hk⟩

theorem key_loop_result (env : Env) (henv : EnvOK env) (keys : List Nat) :
    ∀ e : Editor, SessionOK e →
      ∃ o, key_loop env e keys = some o ∧
        o.result = (keys.find? ends_input).map (fun k => if k = 27 then 0 else 1) ∧
        (o.result = some 0 → o.written = none) := by
  induction keys with
  | nil => exact fun e _ => ⟨Outcome.waiting e, rfl, rfl, fun _ => rfl⟩
  | cons key keys ih =>
    intro e s
    by_cases hk : key = 10 ∨ key = 13
    · obtain ⟨e1, cmdline, hc, _⟩ := commit_spec e s
      have hend : ends_input key = true := by
        rcases hk with hk | hk <;> subst hk <;> rfl
      have h27 : key ≠ 27 := by
        rcases hk with hk | hk <;> subst hk <;> decide
      refine ⟨_, by rw [key_loop_newline env e key keys hk]; exact hc, ?_, ?_⟩
      · rw [List.find?_cons_of_pos _ hend]
        simp [Outcome.result, h27]
      · intro h
        cases h
    · obtain ⟨st, hst, s1, _⟩ := session_process_key env henv e s key
      obtain ⟨hesc, hnext⟩ := process_key_escape env e key st hst
      unfold key_loop
      rw [if_neg hk, hst]
      by_cases h27 : key = 27
      · obtain ⟨e1, he1⟩ := hesc h27
        subst he1
        subst h27
        exact ⟨_, rfl, rfl, fun _ => rfl⟩
      · obtain ⟨e1, he1⟩ := hnext h27
        subst he1
        have hend : ¬ (ends_input key = true) := by
          simp only [ends_input, Bool.or_eq_true, beq_iff_eq]
          omega
        rw [List.find?_cons_of_neg _ hend]
        exact ih e1 s1

/-- C13. For every sequence of keys, `grub_cmdline_get` returns zero exactly
when ESC is the first of the keys ESC, newline and carriage return in the
sequence, and it has then stored nothing in the caller's array; it returns
one exactly when a newline or a carriage return is the first of them; with
none of them in the sequence it has not returned. -/
theorem escape_returns_zero (env : Env) (henv : EnvOK env)
    (prompt cmdline : List Char) (max_len : Nat) (echo_char : Char) (readline : Bool)
    (hist : History) (kill_buf : Option (List Char)) (errno : Nat) (beyond : Nat → Char)
    (keys : List Nat) (hmax : 1 ≤ max_len) (hreach : Reachable hist)
    (hcap : 1 ≤ hist.hist_size) :
    ∃ o, grub_cmdline_get env prompt cmdline max_len echo_char readline hist kill_buf errno
        beyond keys = some o ∧
      (o.result = some 0 ↔ keys.find? ends_input = some 27) ∧
      (o.result = some 0 → o.written = none) ∧
      (o.result = some 1 ↔
        (keys.find? ends_input = some 10 ∨ keys.find? ends_input = some 13)) ∧
      (o.result = none ↔ keys.find? ends_input = none) := by
  obtain ⟨lines, inv⟩ : ∃ lines, HistInv hist lines := by
    rcases reachable_inv hreach with h0 | h
    · rw [h0] at hcap
      exact absurd hcap (by decide)
    · exact h
  obtain ⟨e, hstart, s, _⟩ := session_start env prompt cmdline max_len echo_char readline
    hist kill_buf errno beyond hmax lines inv
  obtain ⟨o, ho, hres, hwr⟩ := key_loop_result env henv keys e s
  refine ⟨o, by unfold grub_cmdline_get; rw [hstart]; exact ho, ?_, hwr, ?_, ?_⟩
  all_goals
    rw [hres]
    cases hf : keys.find? ends_input with
    | none => simp
    | some k =>
      have hk : ends_input k = true := List.find?_some hf
      simp only [ends_input, Bool.or_eq_true, beq_iff_eq] at hk
      simp only [Option.map_some', Option.some.injEq]
      rcases hk with (hk | hk) | hk <;> subst hk <;> simp

theorem escape_returns_zero_witness :
    EnvOK env_plain ∧ 1 ≤ 8 ∧ Reachable hist_wrapped ∧ 1 ≤ hist_wrapped.hist_size ∧
    (∃ o, grub_cmdline_get env_plain "grub> ".toList "hi".toList 8 NUL true hist_wrapped none 0
        (fun _ => 'z') [120, 27, 121, 10] = some o ∧
      (o.result = some 0 ↔ [120, 27, 121, 10].find? ends_input = some 27) ∧
      (o.result = some 0 → o.written = none) ∧
      (o.result = some 1 ↔
        ([120, 27, 121, 10].find? ends_input = some 10 ∨
          [120, 27, 121, 10].find? ends_input = some 13)) ∧
      (o.result = none ↔ [120, 27, 121, 10].find? ends_input = none)) ∧
    Option.map (fun o => (o.result, o.written))
        (grub_cmdline_get env_plain "grub> ".toList "hi".toList 8 NUL true hist_wrapped none 0
          (fun _ => 'z') [120, 27, 121, 10]) = some (some 0, none) ∧
    Option.map (fun o => (o.result, o.written))
        (grub_cmdline_get env_plain "grub> ".toList "hi".toList 8 NUL true hist_wrapped none 0
          (fun _ => 'z') [120, 13, 27]) = some (some 1, some ['h', 'i', 'x', NUL]) ∧
    Option.map (fun o => (o.result, o.written))
        (grub_cmdline_get env_plain "grub> ".toList "hi".toList 8 NUL false hist_wrapped none 0
          (fun _ => 'z') [120, 121]) = some (none, none) :=
  ⟨env_plain_ok, by decide, hist_wrapped_reachable, by decide,
    escape_returns_zero env_plain env_plain_ok "grub> ".toList "hi".toList 8 NUL true
      hist_wrapped none 0 (fun _ => 'z') [120, 27, 121, 10] (by decide)
      hist_wrapped_reachable (by decide),
    by decide, by decide, by decide⟩

/-! ## The line handed to the caller -/

/-- C14. On a newline or carriage return `grub_cmdline_get` returns after
storing in the caller's array the text of the edit buffer without its leading
spaces when the echo character is zero, the text as it is when the echo
character is set, and a terminating NUL in both cases; what it stores is no
longer than the text of the buffer and fits in `max_len` bytes. -/
theorem commit_copies_text (env : Env) (e : Editor) (s : SessionOK e) (key : Nat)
    (rest : List Nat) (hk : key = 10 ∨ key = 13) :
    ∃ e1 cmdline, key_loop env e (key :: rest) = some (Outcome.committed e1 cmdline) ∧
      cmdline = (if e.echo_char = NUL then e.text.dropWhile (fun c => c == ' ')
        else e.text) ++ [NUL] ∧
      cstr cmdline = (if e.echo_char = NUL then e.text.dropWhile (fun c => c == ' ')
        else e.text) ∧
      (cstr cmdline).length ≤ e.text.length ∧ cmdline.length ≤ e.max_len := by
  obtain ⟨e1, cmdline, hc, hcm, _⟩ := commit_spec e s
  have htn : NUL ∉ e.text := cstr_nul_free _
  have hlen : e.text.length = e.llen := s.buffer.strlen_eq
  have hlt := s.buffer.llen_lt
  have hdl := (List.dropWhile_sublist (fun c => c == ' ') (l := e.text)).length_le
  have hdn : NUL ∉ e.text.dropWhile (fun c => c == ' ') :=
    fun hm => htn ((List.dropWhile_sublist _).subset hm)
  refine ⟨e1, cmdline, by rw [key_loop_newline env e key rest hk]; exact hc, hcm, ?_, ?_, ?_⟩
  · rw [hcm]
    split_ifs
    · exact cstr_append_nul _ _ hdn
    · exact cstr_append_nul _ _ htn
  · rw [hcm]
    split_ifs
    · rw [cstr_append_nul _ _ hdn]; exact hdl
    · rw [cstr_append_nul _ _ htn]
  · rw [hcm]
    split_ifs <;> simp only [List.length_append, List.length_singleton] <;> omega

theorem commit_copies_text_witness :
    SessionOK (editor_hello 5 none) ∧ ((13 : Nat) = 10 ∨ (13 : Nat) = 13) ∧
    (∃ e1 cmdline, key_loop env_plain (editor_hello 5 none) [13, 120] =
        some (Outcome.committed e1 cmdline) ∧
      cmdline = (if (editor_hello 5 none).echo_char = NUL
        then (editor_hello 5 none).text.dropWhile (fun c => c == ' ')
        else (editor_hello 5 none).text) ++ [NUL] ∧
      cstr cmdline = (if (editor_hello 5 none).echo_char = NUL
        then (editor_hello 5 none).text.dropWhile (fun c => c == ' ')
        else (editor_hello 5 none).text) ∧
      (cstr cmdline).length ≤ (editor_hello 5 none).text.length ∧
      cmdline.length ≤ (editor_hello 5 none).max_len) ∧
    Option.map (fun o => (o.editor.text, o.written))
        (grub_cmdline_get env_plain "grub> ".toList [NUL] 8 NUL true hist_wrapped none 0
          (fun _ => 'z') [32, 32, 108, 32, 115, 10]) =
      some ("  l s".toList, some ['l', ' ', 's', NUL]) ∧
    Option.map (fun o => (o.editor.text, o.written))
        (grub_cmdline_get env_plain "grub> ".toList [NUL] 8 '*' true hist_wrapped none 0
          (fun _ => 'z') [32, 32, 108, 32, 115, 10]) =
      some ("  l s".toList, some [' ', ' ', 'l', ' ', 's', NUL]) :=
  ⟨editor_hello_session 5 none (by decide), Or.inr rfl,
    commit_copies_text env_plain (editor_hello 5 none)
      (editor_hello_session 5 none (by decide)) 13 [120] (Or.inr rfl),
    by decide, by decide⟩

/-! ## The completion context -/

theorem space_ne_nul : ' ' ≠ NUL := by decide

theorem cstr_skip_spaces (p : List Char) :
    cstr (skip_spaces p) = (cstr p).dropWhile (fun c => c == ' ') := by
  induction p with
  | nil => rfl
  | cons x rest ih =>
    by_cases hx : x = ' '
    · subst hx
      rw [skip_spaces, if_pos rfl, ih, cstr_cons_ne _ _ space_ne_nul]
      rfl
    · rw [skip_spaces, if_neg hx]
      by_cases hn : x = NUL
      · subst hn
        rw [cstr_cons_nul]
        rfl
      · rw [cstr_cons_ne _ _ hn, List.dropWhile_cons_of_neg (by simpa using hx)]

theorem strchr_none_iff (p : List Char) (c : Char) :
    grub_strchr p c = none ↔ c ∉ cstr p := by
  induction p with
  | nil => simp [grub_strchr, cstr_nil]
  | cons x rest ih =>
    by_cases hn : x = NUL
    · subst hn
      simp [grub_strchr, cstr_cons_nul]
    · rw [grub_strchr, if_neg hn, cstr_cons_ne _ _ hn]
      by_cases hc : x = c
      · subst hc
        simp
      · rw [if_neg hc, ih, List.mem_cons]
        constructor
        · intro h hm
          rcases hm with hm | hm
          · exact hc hm.symm
          · exact h hm
        · intro h hm
          exact h (Or.inr hm)

theorem strchr_split (c : Char) (p : List Char) :
    ∀ q : List Char, grub_strchr p c = some q →
      q.head? = some c ∧ c ≠ NUL ∧ q.length ≤ p.length ∧
      cstr q = (cstr p).dropWhile (fun x => x != c) ∧
      cut_before p q = (cstr p).takeWhile (fun x => x != c) := by
  induction p with
  | nil => intro q h; simp [grub_strchr] at h
  | cons x rest ih =>
    intro q h
    by_cases hn : x = NUL
    · subst hn
      simp [grub_strchr] at h
    · rw [grub_strchr, if_neg hn] at h
      rw [cstr_cons_ne _ _ hn]
      by_cases hc : x = c
      · subst hc
        rw [if_pos rfl] at h
        cases h
        refine ⟨rfl, hn, le_refl _, ?_, ?_⟩
        · rw [cstr_cons_ne _ _ hn, List.dropWhile_cons_of_neg (by simp)]
        · rw [List.takeWhile_cons_of_neg (by simp)]
          simp [cut_before]
      · rw [if_neg hc] at h
        obtain ⟨h1, h2, h3, h4, h5⟩ := ih q h
        refine ⟨h1, h2, ?_, ?_, ?_⟩
        · simp only [List.length_cons]; omega
        · rw [List.dropWhile_cons_of_pos (by simpa using hc)]
          exact h4
        · rw [List.takeWhile_cons_of_pos (by simpa using hc), ← h5]
          unfold cut_before
          have : (x :: rest).length - q.length = (rest.length - q.length) + 1 := by
            simp only [List.length_cons]; omega
          rw [this, List.take_succ_cons]

theorem cstr_tail_of_head {q : List Char} {c : Char} (h : q.head? = some c) (hc : c ≠ NUL) :
    cstr q.tail = (cstr q).drop 1 := by
  cases q with
  | nil => simp at h
  | cons x tl =>
    simp only [List.head?_cons, Option.some.injEq] at h
    subst h
    rw [cstr_cons_ne _ _ hc]
    rfl

theorem deref_eq_iff_head (p : List Char) (c : Char) (hc : c ≠ NUL) :
    deref p = c ↔ (cstr p).head? = some c := by
  cases p with
  | nil =>
    rw [deref_nil, cstr_nil]
    simp only [List.head?_nil]
    constructor
    · intro h; exact absurd h.symm hc
    · intro h; cases h
  | cons x tl =>
    rw [deref_cons]
    by_cases hn : x = NUL
    · subst hn
      rw [cstr_cons_nul]
      simp only [List.head?_nil]
      constructor
      · intro h; exact absurd h.symm hc
      · intro h; cases h
    · rw [cstr_cons_ne _ _ hn]
      simp

theorem tab_complete_runs_branch (env : Env) (buf : List Char) (errno : Nat) :
    grub_tab_complete env buf errno =
      tab_run env (completion_start env.uninit_begin env.uninit_end errno) (tab_branch buf) := by
  unfold grub_tab_complete tab_branch completion_start
  simp only
  cases h1 : grub_strchr (skip_spaces buf) ' ' with
  | none => rfl
  | some path =>
    simp only
    by_cases h2 : deref (skip_spaces path) = '(' ∧ grub_strchr (skip_spaces path) ')' = none
    · rw [if_pos h2, if_pos h2]
      cases h3 : grub_strchr (skip_spaces path).tail ',' with
      | none => rfl
      | some partition => rfl
    · rw [if_neg h2, if_neg h2]
      rfl

theorem branch_context_eq (buf : List Char) :
    (tab_branch buf).context = classify (cstr buf) := by
  unfold tab_branch classify
  simp only
  rw [← cstr_skip_spaces]
  cases h1 : grub_strchr (skip_spaces buf) ' ' with
  | none =>
    rw [if_pos ((strchr_none_iff _ _).mp h1)]
    rfl
  | some path =>
    have hmem : ¬ (' ' ∉ cstr (skip_spaces buf)) := by
      intro h
      rw [← strchr_none_iff, h1] at h
      cases h
    rw [if_neg hmem]
    obtain ⟨hh, _, _, hd, _⟩ := strchr_split ' ' (skip_spaces buf) path h1
    simp only
    -- the argument after the first space
    have ha : cstr (skip_spaces path) =
        (((cstr (skip_spaces buf)).dropWhile (fun c => c != ' ')).drop 1).dropWhile
          (fun c => c == ' ') := by
      rw [← hd, ← cstr_tail_of_head hh space_ne_nul, ← cstr_skip_spaces]
      cases path with
      | nil => simp at hh
      | cons x tl =>
        simp only [List.head?_cons, Option.some.injEq] at hh
        subst hh
        rw [skip_spaces, if_pos rfl]
        rfl
    rw [← ha]
    by_cases h2 : deref (skip_spaces path) = '(' ∧ grub_strchr (skip_spaces path) ')' = none
    · have h2s : (cstr (skip_spaces path)).head? = some '(' ∧ ')' ∉ cstr (skip_spaces path) :=
        ⟨(deref_eq_iff_head _ _ (by decide)).mp h2.1, (strchr_none_iff _ _).mp h2.2⟩
      rw [if_pos h2, if_pos h2s]
      have hp : (skip_spaces path).head? = some '(' := by
        cases hq : skip_spaces path with
        | nil => rw [hq] at h2; exact absurd h2.1 (by decide)
        | cons x tl => rw [hq, deref_cons] at h2; rw [List.head?_cons, h2.1]
      have ht : cstr (skip_spaces path).tail = (cstr (skip_spaces path)).drop 1 :=
        cstr_tail_of_head hp (by decide)
      rw [← ht]
      cases h3 : grub_strchr (skip_spaces path).tail ',' with
      | none =>
        rw [if_pos ((strchr_none_iff _ _).mp h3)]
        rfl
      | some partition =>
        have hmem3 : ¬ (',' ∉ cstr (skip_spaces path).tail) := by
          intro h
          rw [← strchr_none_iff, h3] at h
          cases h
        rw [if_neg hmem3]
        obtain ⟨hh3, _, _, hd3, hc3⟩ := strchr_split ',' _ partition h3
        simp only [Branch.context]
        rw [hc3, cstr_tail_of_head hh3 (by decide), hd3]
        congr 1
        apply cstr_of_nul_free
        intro hm
        exact cstr_nul_free _ ((List.takeWhile_sublist _).subset hm)
    · have h2s : ¬ ((cstr (skip_spaces path)).head? = some '(' ∧
          ')' ∉ cstr (skip_spaces path)) := by
        intro h
        exact h2 ⟨(deref_eq_iff_head _ _ (by decide)).mpr h.1, (strchr_none_iff _ _).mpr h.2⟩
      rw [if_neg h2, if_neg h2s]
      rfl

/-- C15. On the text before the cursor, `grub_tab_complete` runs exactly one
of its four branches, and that branch is the context the design document
names: with `r` the text without leading spaces, Command with token `r` when
`r` has no space; otherwise, with `a` the text after the first space of `r`
without further leading spaces, DeviceName with the text after the
parenthesis as token when `a` starts with an open parenthesis, has no closing
one and no comma, PartitionName for the device named before the first comma
with the text after that comma as token when it has a comma, and Path in
every other case. -/
theorem tab_complete_selects_context (env : Env) (buf : List Char) (errno : Nat) :
    grub_tab_complete env buf errno =
      tab_run env (completion_start env.uninit_begin env.uninit_end errno) (tab_branch buf) ∧
    (tab_branch buf).context = classify (cstr buf) :=
  ⟨tab_complete_runs_branch env buf errno, branch_context_eq buf⟩

theorem tab_context_examples :
    classify "bo".toList = Context.Command "bo".toList ∧
    classify "  ls (hd".toList = Context.DeviceName "hd".toList ∧
    classify "ls  (hd0,ms".toList = Context.PartitionName "hd0".toList "ms".toList ∧
    classify "ls (hd0)/bo".toList = Context.Path ∧
    classify "ls ".toList = Context.Path ∧
    (tab_branch ("ls  (hd0,ms".toList ++ [NUL, 'x'])).context =
      Context.PartitionName "hd0".toList "ms".toList := by
  refine ⟨by decide, by decide, by decide, by decide, by decide, by decide⟩

/-! ## The counters of the history store stay in range -/

theorem hist_end_congruent {h : History} {lines : List (Option (List Char))}
    (inv : HistInv h lines) :
    h.hist_end % h.hist_size = (h.hist_pos + h.hist_used) % h.hist_size := by
  rcases inv.end_eq with he | he
  · rw [he]
  · have : h.hist_pos + h.hist_used = h.hist_end + 1 * h.hist_size := by omega
    rw [this, Int.add_mul_emod_self]

/-- C16. Every state of the history store that calls of `grub_set_history`
(with a capacity of at least one), `grub_history_add` and
`grub_history_replace` lead to from the static initialisers has
`0 <= hist_used <= hist_size`, `0 <= hist_pos < hist_size` and `hist_end`
congruent to `hist_pos + hist_used` modulo `hist_size`; in such a state
`grub_history_add` leaves `hist_used` as it is when it equals `hist_size` and
adds one to it otherwise.  The static initialisers themselves, with a
capacity of zero, are the state before the first `grub_set_history`. -/
theorem history_counters_in_range (h : History) (hr : Reachable h) (hset : h ≠ hist_initial) :
    0 ≤ h.hist_used ∧ h.hist_used ≤ h.hist_size ∧
    0 ≤ h.hist_pos ∧ h.hist_pos < h.hist_size ∧
    h.hist_end % h.hist_size = (h.hist_pos + h.hist_used) % h.hist_size ∧
    ∀ s : List Char, ∃ h1, grub_history_add h s = some h1 ∧
      h1.hist_used = (if h.hist_used = h.hist_size then h.hist_used else h.hist_used + 1) := by
  rcases reachable_inv hr with h0 | ⟨lines, inv⟩
  · exact absurd h0 hset
  · refine ⟨inv.used_nonneg, inv.used_le, inv.pos_nonneg, inv.pos_lt, hist_end_congruent inv, ?_⟩
    intro s
    obtain ⟨h1, _, hadd, _, _, hused, _⟩ := history_add_spec inv s
    refine ⟨h1, hadd, ?_⟩
    rw [hused]
    have hu := inv.used_le
    split_ifs <;> omega

theorem history_counters_in_range_witness :
    Reachable hist_wrapped ∧ hist_wrapped ≠ hist_initial ∧
    (0 ≤ hist_wrapped.hist_used ∧ hist_wrapped.hist_used ≤ hist_wrapped.hist_size ∧
      0 ≤ hist_wrapped.hist_pos ∧ hist_wrapped.hist_pos < hist_wrapped.hist_size ∧
      hist_wrapped.hist_end % hist_wrapped.hist_size =
        (hist_wrapped.hist_pos + hist_wrapped.hist_used) % hist_wrapped.hist_size ∧
      ∀ s : List Char, ∃ h1, grub_history_add hist_wrapped s = some h1 ∧
        h1.hist_used = (if hist_wrapped.hist_used = hist_wrapped.hist_size
          then hist_wrapped.hist_used else hist_wrapped.hist_used + 1)) ∧
    Option.map (fun h1 => (h1.hist_used, h1.hist_pos, h1.hist_end))
        (grub_history_add hist_wrapped ['e']) = some (3, 1, 1) ∧
    Option.map (fun h1 => (h1.hist_used, h1.hist_pos, h1.hist_end))
        (grub_history_add ⟨3, some [none, none, some ['a']], 2, 0, 1⟩ ['b']) = some (2, 1, 0) :=
  ⟨hist_wrapped_reachable, by decide,
    history_counters_in_range hist_wrapped hist_wrapped_reachable (by decide),
    by decide, by decide⟩

/-! ## The delete primitive -/

/-- C17. With the cursor at `p` inside the text `b`: when `p + n <= |b|`,
`cl_delete (n)` leaves the text `b[0..p) ++ b[p+n..)` of length `|b| - n` with
the cursor still at `p`; when `p + n > |b|` it changes nothing. -/
theorem cl_delete_removes_span (env : Env) (e : Editor) (n : Nat) (ok : BufferOK e) :
    (e.lpos + n ≤ e.text.length →
      (cl_delete env e n).text = e.text.take e.lpos ++ e.text.drop (e.lpos + n) ∧
      (cl_delete env e n).text.length = e.text.length - n ∧
      (cl_delete env e n).llen = e.llen - n ∧
      (cl_delete env e n).lpos = e.lpos ∧
      BufferOK (cl_delete env e n)) ∧
    (e.text.length < e.lpos + n → cl_delete env e n = e) := by
  have hlen : e.text.length = e.llen := ok.strlen_eq
  constructor
  · intro hfit
    obtain ⟨ok1, ht, hl, hp, _⟩ := cl_delete_ok env e n ok (by omega)
    refine ⟨ht, ?_, hl, hp, ok1⟩
    have h1 : (cl_delete env e n).text.length = (cl_delete env e n).llen := ok1.strlen_eq
    omega
  · intro hover
    exact cl_delete_reject env e n (by omega)

theorem cl_delete_removes_span_witness :
    BufferOK (editor_hello 1 none) ∧
    (editor_hello 1 none).lpos + 3 ≤ (editor_hello 1 none).text.length ∧
    ((cl_delete env_plain (editor_hello 1 none) 3).text =
        (editor_hello 1 none).text.take (editor_hello 1 none).lpos ++
          (editor_hello 1 none).text.drop ((editor_hello 1 none).lpos + 3) ∧
      (cl_delete env_plain (editor_hello 1 none) 3).text.length =
        (editor_hello 1 none).text.length - 3 ∧
      (cl_delete env_plain (editor_hello 1 none) 3).llen = (editor_hello 1 none).llen - 3 ∧
      (cl_delete env_plain (editor_hello 1 none) 3).lpos = (editor_hello 1 none).lpos ∧
      BufferOK (cl_delete env_plain (editor_hello 1 none) 3)) ∧
    ((cl_delete env_plain (editor_hello 1 none) 3).text,
        (cl_delete env_plain (editor_hello 1 none) 3).llen,
        (cl_delete env_plain (editor_hello 1 none) 3).lpos) = ("ho".toList, 2, 1) ∧
    ((cl_delete env_plain (editor_hello 1 none) 5).text,
        (cl_delete env_plain (editor_hello 1 none) 5).llen,
        (cl_delete env_plain (editor_hello 1 none) 5).lpos) = ("hello".toList, 5, 1) :=
  ⟨editor_hello_ok 1 none (by decide), by decide,
    (cl_delete_removes_span env_plain (editor_hello 1 none) 3
      (editor_hello_ok 1 none (by decide))).1 (by decide),
    by decide, by decide⟩

/-! ## Rendering follows the position formula -/

theorem cstr_drop (n : Nat) :
    ∀ p : List Char, n ≤ grub_strlen p → cstr (p.drop n) = (cstr p).drop n := by
  induction n with
  | zero => intro p _; rfl
  | succ n ih =>
    intro p hn
    cases p with
    | nil => rfl
    | cons x rest =>
      by_cases hx : x = NUL
      · subst hx
        simp [grub_strlen, cstr_cons_nul] at hn
      · have hl : grub_strlen (x :: rest) = grub_strlen rest + 1 := by
          simp [grub_strlen, cstr_cons_ne x rest hx]
        rw [List.drop_succ_cons, cstr_cons_ne x rest hx, List.drop_succ_cons]
        exact ih rest (by omega)

theorem print_char_step (env : Env) (c : Char) (e : Editor) (ch : Char) :
    (e.xpos > 78 →
      (cl_print_char env c e ch).xpos = 1 ∧
      (cl_print_char env c e ch).out =
        e.out ++ [TermOp.putchar '\n', TermOp.putchar (if c ≠ NUL then c else ch)] ∧
      (((cl_print_char env c e ch).ystart = wrap32 (e.ystart + 4294967295) ∧
          (cl_print_char env c e ch).ypos = e.ypos) ∨
        ((cl_print_char env c e ch).ystart = e.ystart ∧
          (cl_print_char env c e ch).ypos = wrap32 (e.ypos + 1)))) ∧
    (¬ e.xpos > 78 →
      (cl_print_char env c e ch).xpos = wrap32 (e.xpos + 1) ∧
      (cl_print_char env c e ch).out =
        e.out ++ [TermOp.putchar (if c ≠ NUL then c else ch)] ∧
      (cl_print_char env c e ch).ystart = e.ystart ∧
      (cl_print_char env c e ch).ypos = e.ypos) := by
  by_cases hx : e.xpos > 78
  · by_cases hy : e.ypos = env.grub_getxy e.getxy_calls % 256
    · simp [cl_print_char, hx, ← hy]
    · simp [cl_print_char, hx, hy]
  · simp [cl_print_char, hx]

theorem print_fold (env : Env) (c : Char) (chars : List Char) :
    ∀ e : Editor, e.xpos ≤ 79 → e.ystart < 4294967296 → e.ypos < 4294967296 →
      ∃ (marks : List Bool) (down : Nat),
        marks.length = chars.length ∧
        (chars.foldl (cl_print_char env c) e).out =
          e.out ++ shown marks (chars.map (fun ch => if c ≠ NUL then c else ch)) ∧
        marks.count true = (e.xpos + chars.length - 1) / 79 ∧
        down ≤ marks.count true ∧
        (chars.foldl (cl_print_char env c) e).ystart =
          wrap32 (e.ystart + down * 4294967295) ∧
        (chars.foldl (cl_print_char env c) e).ypos =
          wrap32 (e.ypos + (marks.count true - down)) := by
  induction chars with
  | nil =>
    intro e hx hs hy
    refine ⟨[], 0, rfl, by simp [shown], ?_, le_refl _, ?_, ?_⟩
    · simp only [List.count_nil, List.length_nil]; omega
    · simp only [List.foldl_nil, wrap32]; omega
    · simp only [List.foldl_nil, wrap32, List.count_nil]; omega
  | cons ch rest ih =>
    intro e hx hs hy
    obtain ⟨hwrap, hstay⟩ := print_char_step env c e ch
    rw [List.foldl_cons]
    by_cases hw : e.xpos > 78
    · obtain ⟨h1x, h1o, h1y⟩ := hwrap hw
      have hb : (cl_print_char env c e ch).ystart < 4294967296 ∧
          (cl_print_char env c e ch).ypos < 4294967296 := by
        rcases h1y with ⟨ha, hb⟩ | ⟨ha, hb⟩
        · rw [ha, hb]; unfold wrap32; omega
        · rw [ha, hb]; unfold wrap32; omega
      obtain ⟨marks, down, hm, ho, hc, hd, hys, hyp⟩ :=
        ih (cl_print_char env c e ch) (by omega) hb.1 hb.2
      rw [h1x] at hc
      have hcount : (true :: marks).count true = marks.count true + 1 :=
        List.count_cons_self _ _
      rcases h1y with ⟨ha, hb⟩ | ⟨ha, hb⟩
      · refine ⟨true :: marks, down + 1, by simp [hm], ?_, ?_, ?_, ?_, ?_⟩
        · rw [ho, h1o]; simp [shown]
        · rw [hcount, hc]; simp only [List.length_cons]; omega
        · rw [hcount]; omega
        · rw [hys, ha]; unfold wrap32; omega
        · rw [hyp, hb, hcount]
          have : marks.count true + 1 - (down + 1) = marks.count true - down := by omega
          rw [this]
      · refine ⟨true :: marks, down, by simp [hm], ?_, ?_, ?_, ?_, ?_⟩
        · rw [ho, h1o]; simp [shown]
        · rw [hcount, hc]; simp only [List.length_cons]; omega
        · rw [hcount]; omega
        · rw [hys, ha]
        · rw [hyp, hb, hcount]; unfold wrap32; omega
    · obtain ⟨h1x, h1o, h1s, h1y⟩ := hstay hw
      have h1x1 : (cl_print_char env c e ch).xpos = e.xpos + 1 := by
        rw [h1x]; unfold wrap32; omega
      obtain ⟨marks, down, hm, ho, hc, hd, hys, hyp⟩ :=
        ih (cl_print_char env c e ch) (by omega) (by rw [h1s]; exact hs)
          (by rw [h1y]; exact hy)
      rw [h1x1] at hc
      have hcount : (false :: marks).count true = marks.count true :=
        List.count_cons_of_ne (by decide) _
      refine ⟨false :: marks, down, by simp [hm], ?_, ?_, ?_, ?_, ?_⟩
      · rw [ho, h1o]; simp [shown]
      · rw [hcount, hc]; simp only [List.length_cons]; omega
      · rw [hcount]; exact hd
      · rw [hys, h1s]
      · rw [hyp, h1y, hcount]

/-- C18. When `cl_print` starts at the offset `from_` inside a text of
length `llen` with `xpos` and `ypos` as `cl_set_pos` computes them for that
offset, it sends the `llen - from_` characters from there on in order (the
echo character in their place when one is given), with a newline before
exactly `(plen + llen - 1) / 79 - (plen + from_) / 79` of them; `down` of the
newlines take one from `ystart` and the others add one to `ypos`, and in the
end `ypos - ystart` is `(plen + llen - 1) / 79` modulo `2^32`, whatever rows
the terminal reports.  In a single round, a newline is sent exactly when
`xpos` exceeds 78, and then either `ystart` goes down by one or `ypos` goes up
by one, the other staying as it is. -/
theorem cl_print_follows_formula (env : Env) (e : Editor) (from_ : Nat) (c : Char)
    (hlen : grub_strlen e.buf = e.llen) (hfrom : from_ < e.llen)
    (hx : e.xpos = (e.plen + from_) % 79)
    (hy : e.ypos = wrap32 (e.ystart + (e.plen + from_) / 79))
    (hs : e.ystart < 4294967296) :
    (∃ (marks : List Bool) (down : Nat),
      marks.length = e.llen - from_ ∧
      (cl_print env e from_ c).out =
        e.out ++ shown marks ((e.text.drop from_).map (fun ch => if c ≠ NUL then c else ch)) ∧
      (e.text.drop from_).length = e.llen - from_ ∧
      marks.count true = (e.plen + e.llen - 1) / 79 - (e.plen + from_) / 79 ∧
      down ≤ marks.count true ∧
      (cl_print env e from_ c).ystart = wrap32 (e.ystart + down * 4294967295) ∧
      (cl_print env e from_ c).ypos = wrap32 (e.ypos + (marks.count true - down)) ∧
      wrap32 ((cl_print env e from_ c).ypos + 4294967296 - (cl_print env e from_ c).ystart) =
        wrap32 ((e.plen + e.llen - 1) / 79)) ∧
    (∀ (e0 : Editor) (ch : Char),
      (e0.xpos > 78 →
        (cl_print_char env c e0 ch).out =
          e0.out ++ [TermOp.putchar '\n', TermOp.putchar (if c ≠ NUL then c else ch)] ∧
        (((cl_print_char env c e0 ch).ystart = wrap32 (e0.ystart + 4294967295) ∧
            (cl_print_char env c e0 ch).ypos = e0.ypos) ∨
          ((cl_print_char env c e0 ch).ystart = e0.ystart ∧
            (cl_print_char env c e0 ch).ypos = wrap32 (e0.ypos + 1)))) ∧
      (¬ e0.xpos > 78 →
        (cl_print_char env c e0 ch).out =
          e0.out ++ [TermOp.putchar (if c ≠ NUL then c else ch)] ∧
        (cl_print_char env c e0 ch).ystart = e0.ystart ∧
        (cl_print_char env c e0 ch).ypos = e0.ypos)) := by
  constructor
  · have hchars : cstr (e.buf.drop from_) = e.text.drop from_ :=
      cstr_drop from_ e.buf (by omega)
    have hn : (e.text.drop from_).length = e.llen - from_ := by
      rw [List.length_drop]
      show grub_strlen e.buf - from_ = _
      rw [hlen]
    have hyb : e.ypos < 4294967296 := by rw [hy]; unfold wrap32; omega
    obtain ⟨marks, down, hm, ho, hc, hd, hys, hyp⟩ :=
      print_fold env c (e.text.drop from_) e (by omega) hs hyb
    have hcount : marks.count true =
        (e.plen + e.llen - 1) / 79 - (e.plen + from_) / 79 := by
      rw [hc, hn, hx]; omega
    have hfold : cl_print env e from_ c =
        (e.text.drop from_).foldl (cl_print_char env c) e := by
      unfold cl_print
      rw [hchars]
    rw [hfold]
    refine ⟨marks, down, by rw [hm, hn], ho, hn, hcount, hd, hys, hyp, ?_⟩
    rw [hys, hyp, hy, hcount]
    rw [hcount] at hd
    unfold wrap32
    omega
  · intro e0 ch
    obtain ⟨hwrap, hstay⟩ := print_char_step env c e0 ch
    exact ⟨fun h => ⟨(hwrap h).2.1, (hwrap h).2.2⟩,
      fun h => ⟨(hstay h).2.1, (hstay h).2.2.1, (hstay h).2.2.2⟩⟩

theorem cl_print_follows_formula_witness :
    grub_strlen editor_wide.buf = editor_wide.llen ∧ 0 < editor_wide.llen ∧
    editor_wide.xpos = (editor_wide.plen + 0) % 79 ∧
    editor_wide.ypos = wrap32 (editor_wide.ystart + (editor_wide.plen + 0) / 79) ∧
    editor_wide.ystart < 4294967296 ∧
    (∃ (marks : List Bool) (down : Nat),
      marks.length = editor_wide.llen - 0 ∧
      (cl_print env_plain editor_wide 0 NUL).out =
        editor_wide.out ++ shown marks
          ((editor_wide.text.drop 0).map (fun ch => if NUL ≠ NUL then NUL else ch)) ∧
      (editor_wide.text.drop 0).length = editor_wide.llen - 0 ∧
      marks.count true =
        (editor_wide.plen + editor_wide.llen - 1) / 79 - (editor_wide.plen + 0) / 79 ∧
      down ≤ marks.count true ∧
      (cl_print env_plain editor_wide 0 NUL).ystart =
        wrap32 (editor_wide.ystart + down * 4294967295) ∧
      (cl_print env_plain editor_wide 0 NUL).ypos =
        wrap32 (editor_wide.ypos + (marks.count true - down)) ∧
      wrap32 ((cl_print env_plain editor_wide 0 NUL).ypos + 4294967296 -
          (cl_print env_plain editor_wide 0 NUL).ystart) =
        wrap32 ((editor_wide.plen + editor_wide.llen - 1) / 79)) ∧
    ((cl_print env_plain editor_wide 0 NUL).out,
        (cl_print env_plain editor_wide 0 NUL).ystart,
        (cl_print env_plain editor_wide 0 NUL).ypos) =
      ([TermOp.putchar 'h', TermOp.putchar 'e', TermOp.putchar '\n', TermOp.putchar 'l',
        TermOp.putchar 'l', TermOp.putchar 'o'], 4, 5) ∧
    ((cl_print { env_plain with grub_getxy := fun _ => 24 } editor_wide 0 '*').out,
        (cl_print { env_plain with grub_getxy := fun _ => 24 } editor_wide 0 '*').ystart,
        (cl_print { env_plain with grub_getxy := fun _ => 24 } editor_wide 0 '*').ypos) =
      ([TermOp.putchar '*', TermOp.putchar '*', TermOp.putchar '\n', TermOp.putchar '*',
        TermOp.putchar '*', TermOp.putchar '*'], 5, 6) :=
  ⟨by decide, by decide, by decide, by decide, by decide,
    (cl_print_follows_formula env_plain editor_wide 0 NUL (by decide) (by decide) (by decide)
      (by decide) (by decide)).1,
    by decide, by decide⟩

/-! ## The Backspace key -/

/-- With the cursor after the start of the text, Backspace removes the
character before the cursor and nothing else. -/
theorem backspace_inside (env : Env) (e : Editor) (ok : BufferOK e) (hp : 0 < e.lpos) :
    ∃ e1, common_key env e 8 = Step.next e1 ∧
      e1.text = e.text.take (e.lpos - 1) ++ e.text.drop e.lpos ∧
      e1.lpos = e.lpos - 1 ∧ e1.llen = e.llen - 1 := by
  have hl := ok.lpos_le
  have ok1 : BufferOK (cl_set_pos { e with lpos := e.lpos - 1 }) :=
    ⟨ok.length_eq, ok.llen_lt, show e.lpos - 1 ≤ e.llen by omega, ok.strlen_eq⟩
  obtain ⟨_, ht, hll, hlp, _⟩ :=
    cl_delete_ok env (cl_set_pos { e with lpos := e.lpos - 1 }) 1 ok1
      (show e.lpos - 1 + 1 ≤ e.llen by omega)
  have hlt : (cl_set_pos { e with lpos := e.lpos - 1 }).lpos <
      (cl_set_pos { e with lpos := e.lpos - 1 }).llen := show e.lpos - 1 < e.llen by omega
  refine ⟨cl_delete env (cl_set_pos { e with lpos := e.lpos - 1 }) 1, ?_, ?_, hlp, hll⟩
  · unfold common_key
    rw [if_neg (by decide), if_pos rfl, if_pos hp]
    simp only
    rw [if_pos hlt]
  · rw [ht]
    show e.text.take (e.lpos - 1) ++ e.text.drop (e.lpos - 1 + 1) = _
    rw [Nat.sub_add_cancel hp]

/-- C19. With the cursor at offset 0 of the text "hello", Backspace removes the
character under the cursor: the guard `if (lpos > 0)` of line 711 only skips
the move to the left, and control falls through to the deletion of `case 4`.
The same happens inside a whole call of `grub_cmdline_get`: "ab", Ctrl-a,
Backspace, Enter hands "b" to the caller. -/
theorem backspace_at_start_deletes :
    ((editor_hello 0 none).text, (editor_hello 0 none).lpos) = ("hello".toList, 0) ∧
    Option.map (fun st => (st.editor.text, st.editor.llen, st.editor.lpos))
        (process_key env_plain (editor_hello 0 none) 8) = some ("ello".toList, 4, 0) ∧
    Option.map (fun st => (st.editor.text, st.editor.llen, st.editor.lpos))
        (process_key env_plain { editor_hello 0 none with readline := false } 8) =
      some ("ello".toList, 4, 0) ∧
    (match grub_cmdline_get env_plain "grub> ".toList "ab".toList 8 NUL true hist_wrapped none 0
        (fun _ => 'z') [1, 8, 10] with
      | some (Outcome.committed _ cmdline) => some cmdline
      | _ => none) = some ['b', NUL] := by
  refine ⟨by decide, by decide, by decide, by decide⟩

/-! ## What `grub_tab_complete` hands back -/

theorem streamed_errno {pos : List Char} {b e : Int} {m : List Candidate} {st : Completion}
    (h : Streamed pos b e m st) (errno : Nat) :
    Streamed pos b e m { st with grub_errno := errno } := by
  cases m with
  | nil => exact h
  | cons c rest => exact h

theorem matching_append (pos : List Char) (xs ys : List Candidate) :
    matching pos (xs ++ ys) = matching pos xs ++ matching pos ys := by
  unfold matching
  rw [List.filter_append]

theorem streamed_add (pos : List Char) (b e : Int) (m : List Candidate) (st : Completion)
    (c : Candidate) (hs : Streamed pos b e m st) :
    ∃ st1, add_candidate pos (grub_strlen pos) st c = some st1 ∧
      Streamed pos b e (m ++ matching pos [c]) st1 := by
  obtain ⟨st1, hit, hs1⟩ := iterate_streamed pos b e [c] m st hs
  refine ⟨st1, ?_, hs1⟩
  simp only [iterate] at hit
  cases hadd : add_candidate pos (grub_strlen pos) st c with
  | none => rw [hadd] at hit; cases hit
  | some st2 =>
    rw [hadd] at hit
    exact hit

theorem iterate_dev_step (env : Env) (pos : List Char) (len : Nat) (st : Completion)
    (devname : List Char) :
    iterate_dev env pos len st devname =
      match device_candidate env st.grub_errno devname with
      | some c =>
        (add_candidate pos len
          { st with grub_errno := (env.grub_device_open (some devname) st.grub_errno).2 }
          c).map (fun s => { s with grub_errno := 0 })
      | none => some { st with grub_errno := 0 } := by
  unfold iterate_dev device_candidate add_candidate
  simp only
  cases (env.grub_device_open (some devname) st.grub_errno).1 with
  | none => rfl
  | some dev =>
    simp only
    by_cases hp : (match dev.disk with
        | some disk => disk.has_partitions
        | none => false) = true
    · simp only [hp, if_true]
      cases add_completion pos len
        { st with grub_errno := (env.grub_device_open (some devname) st.grub_errno).2 }
        devname ",".toList "disks".toList Printer.simple <;> rfl
    · simp only [hp, Bool.false_eq_true, if_false]
      cases add_completion pos len
        { st with grub_errno := (env.grub_device_open (some devname) st.grub_errno).2 }
        devname ")".toList "disks".toList Printer.simple <;> rfl

theorem iterate_dev_streamed (env : Env) (pos : List Char) (b e : Int)
    (devs : List (List Char)) :
    ∀ (m : List Candidate) (st : Completion), Streamed pos b e m st →
      ∃ st1, iterate (iterate_dev env pos (grub_strlen pos)) st devs = some st1 ∧
        Streamed pos b e (m ++ matching pos (device_candidates env st.grub_errno devs)) st1 ∧
        st1.grub_errno = (if devs = [] then st.grub_errno else 0) := by
  induction devs with
  | nil =>
    intro m st hs
    refine ⟨st, rfl, ?_, rfl⟩
    simpa [device_candidates, matching] using hs
  | cons d devs ih =>
    intro m st hs
    simp only [iterate, device_candidates]
    rw [iterate_dev_step, matching_append, ← List.append_assoc]
    have hneq : (if d :: devs = [] then st.grub_errno else 0) = 0 := by simp
    rw [hneq]
    cases hc : device_candidate env st.grub_errno d with
    | none =>
      simp only [Option.toList_none]
      have hs0 : Streamed pos b e (m ++ matching pos []) { st with grub_errno := 0 } := by
        simpa [matching] using streamed_errno hs 0
      obtain ⟨st1, hit, hs1, he1⟩ := ih _ _ hs0
      refine ⟨st1, hit, hs1, ?_⟩
      rw [he1]
      split_ifs <;> rfl
    | some c =>
      simp only [Option.toList_some]
      obtain ⟨st2, hadd, hs2⟩ := streamed_add pos b e m _ c
        (streamed_errno hs (env.grub_device_open (some d) st.grub_errno).2)
      rw [hadd]
      simp only [Option.map_some']
      obtain ⟨st1, hit, hs1, he1⟩ := ih _ _ (streamed_errno hs2 0)
      refine ⟨st1, hit, hs1, ?_⟩
      rw [he1]
      split_ifs <;> rfl

theorem streamed_root (b e : Int) (st : Completion) :
    Streamed [] b e
      (matching [] [⟨"/".toList, [], "files".toList, Printer.simple⟩])
      { st with found := some (grub_strdup "/".toList), matchstr := some [], numfound := 1,
                begin := 0, end_ := 1 } := by
  have hm : matching [] [⟨"/".toList, [], "files".toList, Printer.simple⟩] =
      [⟨"/".toList, [], "files".toList, Printer.simple⟩] := by decide
  rw [hm]
  refine ⟨rfl, rfl, rfl, rfl, show (0 : Int) ≤ 1 by decide,
    show (1 : Int) ≤ ((cstr "/".toList).length : Int) by decide, ?_, ?_⟩
  · intro c hc
    rw [List.mem_singleton] at hc
    subst hc
    exact List.prefix_refl _
  · intro q hq
    exact hq _ (List.mem_singleton.mpr rfl)

theorem tab_run_commands (env : Env) (errno : Nat) (pos : List Char) :
    ∃ st, Streamed pos env.uninit_begin env.uninit_end
        (matching pos (command_candidates env)) st ∧
      tab_run env (completion_start env.uninit_begin env.uninit_end errno)
        (Branch.commands pos) = tab_finish st := by
  obtain ⟨st, hit, hs⟩ := iterate_streamed pos env.uninit_begin env.uninit_end
    (command_candidates env) [] _ (streamed_start pos _ _ errno)
  rw [List.nil_append] at hs
  refine ⟨st, hs, ?_⟩
  unfold tab_run
  simp only
  rw [iterate_commands_eq]
  unfold command_candidates at hit
  rw [hit]

theorem tab_run_disks (env : Env) (errno : Nat) (pos : List Char) :
    ∃ st, Streamed pos env.uninit_begin env.uninit_end
        (matching pos (device_candidates env errno env.grub_disk_dev_iterate)) st ∧
      tab_run env (completion_start env.uninit_begin env.uninit_end errno)
        (Branch.disks pos) =
        (if (env.grub_disk_dev_iterate.isEmpty && errno != 0) = true
          then some (tab_fail st none) else tab_finish st) := by
  obtain ⟨st, hit, hs, he⟩ := iterate_dev_streamed env pos env.uninit_begin env.uninit_end
    env.grub_disk_dev_iterate [] _ (streamed_start pos _ _ errno)
  rw [List.nil_append] at hs
  have herr : (completion_start env.uninit_begin env.uninit_end errno).grub_errno = errno := rfl
  rw [herr] at hs he
  refine ⟨st, hs, ?_⟩
  unfold tab_run
  simp only
  rw [hit]
  simp only
  cases hd : env.grub_disk_dev_iterate with
  | nil =>
    rw [hd] at he
    simp only [if_true] at he
    rw [he]
    by_cases h0 : errno = 0
    · simp [h0]
    · simp [h0]
  | cons d rest =>
    rw [hd] at he
    have he0 : st.grub_errno = 0 := by simpa using he
    simp [he0]

theorem tab_run_partitions (env : Env) (errno : Nat) (devname pos : List Char)
    (en : Enumeration)
    (h : tab_enumeration env errno (Branch.partitions devname pos) = some en) :
    ∃ st, Streamed en.pos env.uninit_begin env.uninit_end (matching en.pos en.cands) st ∧
      en.failed = false ∧
      tab_run env (completion_start env.uninit_begin env.uninit_end errno)
        (Branch.partitions devname pos) = tab_finish st := by
  have hs0 : Streamed pos env.uninit_begin env.uninit_end []
      { completion_start env.uninit_begin env.uninit_end errno with grub_errno := 0 } :=
    streamed_errno (streamed_start pos _ _ errno) 0
  have herr : (completion_start env.uninit_begin env.uninit_end errno).grub_errno = errno := rfl
  simp only [tab_enumeration] at h
  simp only [tab_run, herr]
  cases ho : (env.grub_device_open (some devname) errno).1 with
  | none => rw [ho] at h; cases h
  | some partdev =>
    rw [ho] at h
    simp only at h ⊢
    cases hd : partdev.disk with
    | none =>
      rw [hd] at h
      simp only [Option.some.injEq] at h
      subst h
      exact ⟨_, hs0, rfl, rfl⟩
    | some disk =>
      rw [hd] at h
      simp only at h ⊢
      by_cases hp : disk.has_partitions = true
      · rw [if_pos hp] at h
        simp only [Option.some.injEq] at h
        subst h
        rw [if_pos hp]
        obtain ⟨st, hit, hs⟩ := iterate_streamed pos env.uninit_begin env.uninit_end
          (partition_candidates disk) [] _ hs0
        rw [List.nil_append] at hs
        refine ⟨{ st with grub_errno := 0 }, streamed_errno hs 0, rfl, ?_⟩
        rw [iterate_part_eq, hit]
      · rw [if_neg hp] at h
        simp only [Option.some.injEq] at h
        subst h
        rw [if_neg hp]
        exact ⟨_, hs0, rfl, rfl⟩

theorem tab_run_files (env : Env) (errno : Nat) (path pos : List Char) (en : Enumeration)
    (h : tab_enumeration env errno (Branch.files path pos) = some en) :
    ∃ st, Streamed en.pos env.uninit_begin env.uninit_end (matching en.pos en.cands) st ∧
      tab_run env (completion_start env.uninit_begin env.uninit_end errno)
        (Branch.files path pos) =
        (if en.failed = true then some (tab_fail st none) else tab_finish st) := by
  have herr : (completion_start env.uninit_begin env.uninit_end errno).grub_errno = errno := rfl
  simp only [tab_enumeration] at h
  simp only [tab_run, herr]
  cases ho : (env.grub_device_open (env.grub_file_get_device_name pos errno).1
      (env.grub_file_get_device_name pos errno).2).1 with
  | none => rw [ho] at h; cases h
  | some dev =>
    rw [ho] at h
    simp only at h ⊢
    by_cases hp : (env.grub_fs_probe dev (env.grub_device_open
        (env.grub_file_get_device_name pos errno).1
        (env.grub_file_get_device_name pos errno).2).2).2 ≠ 0
    · rw [if_pos hp] at h; cases h
    · rw [if_neg hp] at h
      rw [if_neg hp]
      have hp0 : (env.grub_fs_probe dev (env.grub_device_open
          (env.grub_file_get_device_name pos errno).1
          (env.grub_file_get_device_name pos errno).2).2).2 = 0 := by
        simpa using hp
      have hs0 : ∀ p : List Char, Streamed p env.uninit_begin env.uninit_end []
          { completion_start env.uninit_begin env.uninit_end errno with
            grub_errno := (env.grub_fs_probe dev (env.grub_device_open
              (env.grub_file_get_device_name pos errno).1
              (env.grub_file_get_device_name pos errno).2).2).2 } :=
        fun p => streamed_errno (streamed_start p _ _ errno) _
      cases hsl : grub_strrchr pos '/' with
      | none =>
        rw [hsl] at h
        simp only [Option.some.injEq] at h
        subst h
        refine ⟨_, streamed_root env.uninit_begin env.uninit_end
          { completion_start env.uninit_begin env.uninit_end errno with
            grub_errno := (env.grub_fs_probe dev (env.grub_device_open
              (env.grub_file_get_device_name pos errno).1
              (env.grub_file_get_device_name pos errno).2).2).2 }, ?_⟩
        simp only [Bool.false_eq_true, if_false]
      | some slash =>
        rw [hsl] at h
        simp only at h ⊢
        cases hdir : grub_strchr path '/' with
        | none =>
          rw [hdir] at h
          simp only [Option.some.injEq] at h
          subst h
          refine ⟨_, hs0 slash.tail, ?_⟩
          simp only [Bool.false_eq_true, if_false]
          rw [finish_none _ _ _ _ (hs0 slash.tail), hp0]
          rfl
        | some dir =>
          rw [hdir] at h
          simp only at h ⊢
          cases hdf : grub_strrchr (grub_strdup dir) '/' with
          | none => rw [hdf] at h; cases h
          | some dirfile =>
            rw [hdf] at h
            simp only at h ⊢
            cases hfs : (env.grub_fs_probe dev (env.grub_device_open
                (env.grub_file_get_device_name pos errno).1
                (env.grub_file_get_device_name pos errno).2).2).1 with
            | none => rw [hfs] at h; cases h
            | some fs =>
              rw [hfs] at h
              simp only [Option.some.injEq] at h
              subst h
              simp only
              obtain ⟨st, hit, hs⟩ := iterate_streamed slash.tail env.uninit_begin
                env.uninit_end (file_candidates (fs.dir dev
                  (cut_before (grub_strdup dir) dirfile.tail)
                  (env.grub_fs_probe dev (env.grub_device_open
                    (env.grub_file_get_device_name pos errno).1
                    (env.grub_file_get_device_name pos errno).2).2).2).1) [] _
                (hs0 slash.tail)
              rw [List.nil_append] at hs
              rw [iterate_dir_eq, hit]
              simp only
              refine ⟨{ st with grub_errno := (fs.dir dev
                  (cut_before (grub_strdup dir) dirfile.tail)
                  (env.grub_fs_probe dev (env.grub_device_open
                    (env.grub_file_get_device_name pos errno).1
                    (env.grub_file_get_device_name pos errno).2).2).2).2 },
                streamed_errno hs _, ?_⟩
              by_cases hl : (fs.dir dev (cut_before (grub_strdup dir) dirfile.tail)
                  (env.grub_fs_probe dev (env.grub_device_open
                    (env.grub_file_get_device_name pos errno).1
                    (env.grub_file_get_device_name pos errno).2).2).2).2 = 0
              · simp [hl]
              · simp [hl]

/-- The result of `grub_tab_complete` in terms of the enumeration it runs:
the shared locals `st` are those the matching candidates of the enumeration
lead to, and the function leaves through `fail` when `grub_errno` is found
set after the enumeration, and through lines 402-427 otherwise. -/
theorem tab_complete_streamed (env : Env) (buf : List Char) (errno : Nat) (en : Enumeration)
    (h : tab_enumeration env errno (tab_branch buf) = some en) :
    ∃ st, Streamed en.pos env.uninit_begin env.uninit_end (matching en.pos en.cands) st ∧
      grub_tab_complete env buf errno =
        (if en.failed = true then some (tab_fail st none) else tab_finish st) := by
  rw [tab_complete_runs_branch]
  cases hb : tab_branch buf with
  | commands pos =>
    rw [hb] at h
    simp only [tab_enumeration, Option.some.injEq] at h
    subst h
    obtain ⟨st, hs, hr⟩ := tab_run_commands env errno pos
    exact ⟨st, hs, by rw [hr]; simp⟩
  | disks pos =>
    rw [hb] at h
    simp only [tab_enumeration, Option.some.injEq] at h
    subst h
    exact tab_run_disks env errno pos
  | partitions devname pos =>
    rw [hb] at h
    obtain ⟨st, hs, hf, hr⟩ := tab_run_partitions env errno devname pos en h
    exact ⟨st, hs, by rw [hr, hf]; simp⟩
  | files path pos =>
    rw [hb] at h
    exact tab_run_files env errno path pos en h

/-- Only the enumeration of a directory can end with `grub_errno` set after
it has handed over a candidate. -/
theorem failed_in_files (env : Env) (errno : Nat) (br : Branch) (en : Enumeration)
    (h : tab_enumeration env errno br = some en) (hf : en.failed = true)
    (hne : en.cands ≠ []) : ∃ path pos, br = Branch.files path pos := by
  cases br with
  | commands pos =>
    simp only [tab_enumeration, Option.some.injEq] at h
    subst h
    cases hf
  | disks pos =>
    simp only [tab_enumeration, Option.some.injEq] at h
    subst h
    simp only [Bool.and_eq_true, List.isEmpty_iff] at hf
    simp only [hf.1, device_candidates, ne_eq, not_true_eq_false] at hne
  | partitions devname pos =>
    obtain ⟨_, _, hff, _⟩ := tab_run_partitions env errno devname pos en h
    rw [hff] at hf
    cases hf
  | files path pos => exact ⟨path, pos, rfl⟩

/-- C3. When at least two of the candidates an enumeration of
`grub_tab_complete` streams through `add_completion` have the typed token as
a prefix: if `grub_errno` is clear once the enumeration is over (as it always
is for commands, devices and partitions), `grub_tab_complete` stores 1 through
`restore` and hands back the longest common prefix `p` of the matching
candidates without its first `grub_strlen pos` characters (nothing, when that
is empty), with no suffix appended; if `grub_errno` is set, which happens
only after a directory was listed, it hands back a null pointer. -/
theorem tab_complete_multiple_matches (env : Env) (buf : List Char) (errno : Nat)
    (en : Enumeration) (h : tab_enumeration env errno (tab_branch buf) = some en)
    (h2 : 2 ≤ (matching en.pos en.cands).length) :
    ∃ r, grub_tab_complete env buf errno = some r ∧
      (en.failed = false →
        r.restore = some 1 ∧
        ∃ p, LongestCommon (matching en.pos en.cands) p ∧
          r.insert.getD [] = p.drop (grub_strlen en.pos)) ∧
      (en.failed = true →
        r.insert = none ∧ ∃ path pos, tab_branch buf = Branch.files path pos) := by
  obtain ⟨st, hs, hr⟩ := tab_complete_streamed env buf errno en h
  obtain ⟨r, p, hfin, hres, hlc, hins⟩ := finish_multiple en.pos _ _ _ st hs
    (fun c hc => mem_matching hc) h2
  have hne : en.cands ≠ [] := by
    intro h0
    rw [h0] at h2
    simp [matching] at h2
  cases hf : en.failed with
  | false =>
    rw [hf] at hr
    refine ⟨r, by rw [hr, ← hfin]; rfl, fun _ => ⟨hres, p, hlc, hins⟩, fun hc => by cases hc⟩
  | true =>
    rw [hf] at hr
    exact ⟨tab_fail st none, by rw [hr]; rfl, (fun hc => by cases hc),
      fun _ => ⟨rfl, failed_in_files env errno _ en h hf hne⟩⟩

/-- The published scenario of C3: the commands "foobar" and "foobaz" against
"foo", and the same two names as files of a directory. -/
theorem tab_complete_multiple_matches_witness :
    tab_enumeration env_commands 0 (tab_branch "foo".toList) =
      some { pos := "foo".toList,
             cands := [⟨"foobar".toList, " ".toList, "commands".toList, Printer.simple⟩,
                       ⟨"foobaz".toList, " ".toList, "commands".toList, Printer.simple⟩],
             failed := false } ∧
    2 ≤ (matching "foo".toList
        [⟨"foobar".toList, " ".toList, "commands".toList, Printer.simple⟩,
         ⟨"foobaz".toList, " ".toList, "commands".toList, Printer.simple⟩]).length ∧
    (∃ r, grub_tab_complete env_commands "foo".toList 0 = some r ∧
      (false = false →
        r.restore = some 1 ∧
        ∃ p, LongestCommon (matching "foo".toList
            [⟨"foobar".toList, " ".toList, "commands".toList, Printer.simple⟩,
             ⟨"foobaz".toList, " ".toList, "commands".toList, Printer.simple⟩]) p ∧
          r.insert.getD [] = p.drop (grub_strlen "foo".toList)) ∧
      (false = true →
        r.insert = none ∧ ∃ path pos, tab_branch "foo".toList = Branch.files path pos)) ∧
    Option.map (fun r => (r.insert, r.restore))
        (grub_tab_complete env_commands "foo".toList 0) =
      some (some "ba".toList, some 1) ∧
    Option.map (fun r => (r.insert, r.restore))
        (grub_tab_complete
          (env_files [("foobar".toList, false), ("foobaz".toList, false)] 0)
          "ls /foo".toList 0) =
      some (some "ba".toList, some 1) :=
  ⟨by decide, by decide,
    tab_complete_multiple_matches env_commands "foo".toList 0
      { pos := "foo".toList,
        cands := [⟨"foobar".toList, " ".toList, "commands".toList, Printer.simple⟩,
                  ⟨"foobaz".toList, " ".toList, "commands".toList, Printer.simple⟩],
        failed := false } (by decide) (by decide),
    by decide, by decide⟩

/-- C3, counterexample. The directory lists "foobar" and "foobaz" and leaves
an error in `grub_errno`: both names go through `add_completion` for the token
"foo" and are printed, and `grub_tab_complete` leaves through `fail` (line
388) with a null pointer and nothing stored through `restore`. -/
theorem tab_complete_multiple_matches_counterexample :
    tab_enumeration (env_files [("foobar".toList, false), ("foobaz".toList, false)] 1) 0
        (tab_branch "ls /foo".toList) =
      some { pos := "foo".toList,
             cands := [⟨"foobar".toList, " ".toList, "files".toList, Printer.simple⟩,
                       ⟨"foobaz".toList, " ".toList, "files".toList, Printer.simple⟩],
             failed := true } ∧
    (matching "foo".toList
        [⟨"foobar".toList, " ".toList, "files".toList, Printer.simple⟩,
         ⟨"foobaz".toList, " ".toList, "files".toList, Printer.simple⟩]).length = 2 ∧
    Option.map (fun r => (r.insert, r.restore, r.out.length))
        (grub_tab_complete
          (env_files [("foobar".toList, false), ("foobaz".toList, false)] 1)
          "ls /foo".toList 0) =
      some (none, none, 3) := by
  refine ⟨by decide, by decide, by decide⟩

/-- C4. When exactly one candidate `c` of those an enumeration of
`grub_tab_complete` streams through `add_completion` has the typed token as a
prefix: if `grub_errno` is clear once the enumeration is over,
`grub_tab_complete` stores 0 through `restore` and hands back `c` without its
first `grub_strlen pos` characters followed by the suffix given with `c`,
unless `c` is the empty string, for which it hands back a null pointer; if
`grub_errno` is set, which happens only after a directory was listed, it hands
back a null pointer. -/
theorem tab_complete_unique_match (env : Env) (buf : List Char) (errno : Nat)
    (en : Enumeration) (c : Candidate)
    (h : tab_enumeration env errno (tab_branch buf) = some en)
    (h1 : matching en.pos en.cands = [c]) :
    ∃ r, grub_tab_complete env buf errno = some r ∧
      (en.failed = false →
        r.restore = some 0 ∧
        (cstr c.comp ≠ [] →
          r.insert = some ((cstr c.comp).drop (grub_strlen en.pos) ++ cstr c.mtch)) ∧
        (cstr c.comp = [] → r.insert = none)) ∧
      (en.failed = true →
        r.insert = none ∧ ∃ path pos, tab_branch buf = Branch.files path pos) := by
  obtain ⟨st, hs, hr⟩ := tab_complete_streamed env buf errno en h
  have hne : en.cands ≠ [] := by
    intro h0
    rw [h0] at h1
    simp [matching] at h1
  rw [h1] at hs
  have htok : cstr en.pos <+: cstr c.comp :=
    mem_matching (by rw [h1]; exact List.mem_singleton.mpr rfl)
  obtain ⟨r, hfin, hres, hins, hnone⟩ := finish_unique en.pos _ _ c st hs htok
  cases hf : en.failed with
  | false =>
    rw [hf] at hr
    refine ⟨r, by rw [hr, ← hfin]; rfl, fun _ => ⟨hres, hins, hnone⟩, fun hc => by cases hc⟩
  | true =>
    rw [hf] at hr
    exact ⟨tab_fail st none, by rw [hr]; rfl, (fun hc => by cases hc),
      fun _ => ⟨rfl, failed_in_files env errno _ en h hf hne⟩⟩

/-- The published scenario of C4: the file "foobar" against "foo" gives "bar"
and the suffix of a file, a space. -/
theorem tab_complete_unique_match_witness :
    tab_enumeration (env_files [("foobar".toList, false), ("quux".toList, true)] 0) 0
        (tab_branch "ls /foo".toList) =
      some { pos := "foo".toList,
             cands := [⟨"foobar".toList, " ".toList, "files".toList, Printer.simple⟩,
                       ⟨"quux/".toList, [], "files".toList, Printer.simple⟩],
             failed := false } ∧
    matching "foo".toList
        [⟨"foobar".toList, " ".toList, "files".toList, Printer.simple⟩,
         ⟨"quux/".toList, [], "files".toList, Printer.simple⟩] =
      [⟨"foobar".toList, " ".toList, "files".toList, Printer.simple⟩] ∧
    (∃ r, grub_tab_complete
        (env_files [("foobar".toList, false), ("quux".toList, true)] 0)
        "ls /foo".toList 0 = some r ∧
      (false = false →
        r.restore = some 0 ∧
        (cstr "foobar".toList ≠ [] →
          r.insert = some ((cstr "foobar".toList).drop (grub_strlen "foo".toList) ++
            cstr " ".toList)) ∧
        (cstr "foobar".toList = [] → r.insert = none)) ∧
      (false = true →
        r.insert = none ∧ ∃ path pos, tab_branch "ls /foo".toList = Branch.files path pos)) ∧
    Option.map (fun r => (r.insert, r.restore))
        (grub_tab_complete
          (env_files [("foobar".toList, false), ("quux".toList, true)] 0)
          "ls /foo".toList 0) =
      some (some "bar ".toList, some 0) ∧
    Option.map (fun r => (r.insert, r.restore))
        (grub_tab_complete env_plain "bo".toList 0) = some (some "ot ".toList, some 0) :=
  ⟨by decide, by decide,
    tab_complete_unique_match
      (env_files [("foobar".toList, false), ("quux".toList, true)] 0) "ls /foo".toList 0
      { pos := "foo".toList,
        cands := [⟨"foobar".toList, " ".toList, "files".toList, Printer.simple⟩,
                  ⟨"quux/".toList, [], "files".toList, Printer.simple⟩],
        failed := false }
      ⟨"foobar".toList, " ".toList, "files".toList, Printer.simple⟩ (by decide) (by decide),
    by decide, by decide⟩

/-- C4, counterexample. A directory whose one entry has the empty name, with
nothing typed after the slash: the entry is the one match, and the test
`end && found` of line 410 turns it away, so that a null pointer comes back
where the claim has the suffix, a space.  A directory that lists "foobar" and
leaves an error in `grub_errno`: the one match for "foo" is dropped at line
388, with a null pointer and nothing stored through `restore`. -/
theorem tab_complete_unique_match_counterexample :
    tab_enumeration (env_files [([], false)] 0) 0 (tab_branch "ls /".toList) =
      some { pos := [], cands := [⟨[], " ".toList, "files".toList, Printer.simple⟩],
             failed := false } ∧
    matching [] [⟨[], " ".toList, "files".toList, Printer.simple⟩] =
      [⟨[], " ".toList, "files".toList, Printer.simple⟩] ∧
    Option.map (fun r => (r.insert, r.restore))
        (grub_tab_complete (env_files [([], false)] 0) "ls /".toList 0) =
      some (none, some 0) ∧
    tab_enumeration (env_files [("foobar".toList, false)] 1) 0
        (tab_branch "ls /foo".toList) =
      some { pos := "foo".toList,
             cands := [⟨"foobar".toList, " ".toList, "files".toList, Printer.simple⟩],
             failed := true } ∧
    Option.map (fun r => (r.insert, r.restore))
        (grub_tab_complete (env_files [("foobar".toList, false)] 1) "ls /foo".toList 0) =
      some (none, none) := by
  refine ⟨by decide, by decide, by decide, by decide, by decide⟩

/-- When no candidate of the enumeration has the typed token as a prefix,
`grub_tab_complete` hands back a null pointer, and stores 0 through `restore`
unless it leaves through `fail`. -/
theorem tab_complete_no_match (env : Env) (buf : List Char) (errno : Nat)
    (en : Enumeration) (h : tab_enumeration env errno (tab_branch buf) = some en)
    (h0 : matching en.pos en.cands = []) :
    ∃ r, grub_tab_complete env buf errno = some r ∧ r.insert = none ∧
      (en.failed = false → r.restore = some 0) ∧ (en.failed = true → r.restore = none) := by
  obtain ⟨st, hs, hr⟩ := tab_complete_streamed env buf errno en h
  rw [h0] at hs
  have hfin := finish_none en.pos _ _ st hs
  cases hf : en.failed with
  | false =>
    rw [hf] at hr
    exact ⟨tab_fail st (some 0), by rw [hr, ← hfin]; rfl, rfl, fun _ => rfl,
      fun hc => by cases hc⟩
  | true =>
    rw [hf] at hr
    exact ⟨tab_fail st none, by rw [hr]; rfl, rfl, (fun hc => by cases hc), fun _ => rfl⟩

/-- C5. Where `grub_tab_complete` leaves through `fail`, nothing is stored
through `restore`, which the TAB handler reads at line 610.  With no device
"z" to open, "ls (z,1" hands back a null pointer and leaves `restore` as it
was; so does "ls /x" when the device of the path does not open, and so does
"ls /foo" when the directory lists "bar" and leaves an error in `grub_errno`.  The TAB key on "ls (z,1" then keeps the text, its length and
the cursor, and what it does to the screen depends on the value found in the
uninitialised `restore`: with 0 the tracked column stays at 13, with 7 the
prompt is printed again and the column is 6. -/
theorem tab_fail_leaves_restore_unwritten :
    Option.map (fun r => (r.insert, r.restore))
        (grub_tab_complete env_plain "ls (z,1".toList 0) = some (none, none) ∧
    Option.map (fun r => (r.insert, r.restore))
        (grub_tab_complete env_plain "ls /x".toList 0) = some (none, none) ∧
    tab_enumeration (env_files [("bar".toList, false)] 1) 0 (tab_branch "ls /foo".toList) =
      some { pos := "foo".toList,
             cands := [⟨"bar".toList, " ".toList, "files".toList, Printer.simple⟩],
             failed := true } ∧
    matching "foo".toList [⟨"bar".toList, " ".toList, "files".toList, Printer.simple⟩] =
      [] ∧
    Option.map (fun r => (r.insert, r.restore))
        (grub_tab_complete (env_files [("bar".toList, false)] 1) "ls /foo".toList 0) =
      some (none, none) ∧
    Option.map (fun o => (o.editor.text, o.editor.llen, o.editor.lpos, o.editor.xpos,
          o.editor.out.length))
        (grub_cmdline_get env_plain "grub> ".toList "ls (z,1".toList 8 NUL true hist_wrapped
          none 0 (fun _ => 'z') [9]) =
      some ("ls (z,1".toList, 7, 7, 13, 9) ∧
    Option.map (fun o => (o.editor.text, o.editor.llen, o.editor.lpos, o.editor.xpos,
          o.editor.out.length))
        (grub_cmdline_get { env_plain with uninit_restore := 7 } "grub> ".toList
          "ls (z,1".toList 8 NUL true hist_wrapped none 0 (fun _ => 'z') [9]) =
      some ("ls (z,1".toList, 7, 7, 6, 10) := by
  refine ⟨by decide, by decide, by decide, by decide, by decide, by decide, by decide⟩

end Cmdline
